import Mathlib

/-!
# ImprovedDDEquivalenceChecker

A shallow embedding of `src/src/ImprovedDDEquivalenceChecker.cpp`: the three gate
scheduling strategies, the construction of the initial and goal matrices, the
weighted-trace fidelity estimate and the orchestrating `check`.

The decision-diagram package, the circuit class and the pre-check passes are external to
these sources.  They enter the development as the fields of `Package`; every property that
is assumed of them is an explicit hypothesis of the theorem that needs it.

Conventions of the embedding:
* a gate range `[it, end)` is the list of the gates from the cursor on;
* `while` and `for` loops are unrolled up to a bound taken from the cursors; the lemmas
  `checkNaive_unfold`, `checkProportional_unfold`, `lookaheadLoop_fuel` and
  `lookaheadLoop_exit` show that the bounds are never what ends a loop;
* buffers `dd::fp[2]` hold exact rationals, so `fid` is the exact value of the formula;
* the `double` arithmetic of `checkProportional` is binary64 arithmetic, rounding to
  nearest with ties to even, on the integers and quotients that gate counts give
  (`toDouble`, `divDouble`, `stdRound`, `gateRatio`);
* the calls `incRef`, `decRef` and `garbageCollect`, which leave every value as it is, the
  timers and the active-node statistic are left out.
-/

namespace ec

/-! ## Data model -/

/-- Side on which an operand is folded into the running product. -/
inductive Direction where
  | LEFT
  | RIGHT
  deriving DecidableEq, Repr

/-- Values of `ec::Strategy` (the four that `apps/app.cpp` can request). -/
inductive Strategy where
  | Naive
  | Proportional
  | Lookahead
  | CompilationFlow
  deriving DecidableEq, Repr

/-- Operation type tag; only the comparison with `qc::Measure` is used here. -/
inductive OpType where
  | Measure
  | Other (tag : Nat)
  deriving DecidableEq, Repr

/-- A `qc::Permutation`: the entries of the ordered map, as pairs `(first, second)`. -/
abbrev Permutation := List (Nat × Nat)

/-- The part of `qc::QuantumComputation` that the checker queries. -/
structure QuantumComputation where
  getNops : Nat
  logicalQubitIsAncillary : Nat → Bool
  isIdleQubit : Nat → Bool

/-- The part of `ec::Configuration` that `check` reads. -/
structure Configuration where
  strategy : Strategy

/-- The member state of the checker (and the global `isFid`) that the functions below read.
`it1` and `it2` are the gate ranges `[it1, end1)` and `[it2, end2)`. -/
structure EquivalenceChecker (G : Type) where
  qc1 : QuantumComputation
  qc2 : QuantumComputation
  nqubits : Nat
  initial1 : Permutation
  initial2 : Permutation
  output1 : Permutation
  output2 : Permutation
  ancillary1 : List Bool
  ancillary2 : List Bool
  garbage1 : List Bool
  garbage2 : List Bool
  it1 : List G
  it2 : List G
  isFid : Bool

/-! ### Decision-diagram nodes -/

/-- A node pointer: null, the static terminal node, or the address of a table node. -/
inductive Ptr where
  | null
  | terminal
  | addr (a : Nat)
  deriving DecidableEq, Repr

/-- A two-component buffer `dd::fp[2]`: real part, imaginary part (exact arithmetic). -/
abbrev FP2 := ℚ × ℚ

/-- An edge weight `dd::Complex`, by the values of its two table entries. -/
structure CWeight where
  r : ℚ
  i : ℚ
  deriving DecidableEq

/-- An edge `{p, w}`. -/
structure Edge where
  p : Ptr
  w : CWeight
  deriving DecidableEq

/-- A matrix node, by its four successor edges `e[0] .. e[3]`. -/
structure MNode where
  e0 : Edge
  e1 : Edge
  e2 : Edge
  e3 : Edge
  deriving DecidableEq

/-- Node memory: the node behind `Ptr.terminal` and the nodes behind `Ptr.addr a`. -/
structure Heap where
  terminalNode : MNode
  nodes : List MNode

/-- The external collaborators: the DD package, the operations' DD constructors and the
pre-check pass runner.  `getDD g perm` and `getInverseDD g perm` stand for the calls made
between `setNqubits(nqubits)` and `setNqubits(nq)`; they return the DD and the updated
permutation.  The side argument of a reduction is `none` where the call leaves it to its
default.  `p` and `w` read the root edge of a handle, `heap` is the node memory,
`nullEdge` the default-constructed handle and `qubitBits` the width of the signed line
index type `dd::Qubit`. -/
structure Package (G M : Type) where
  makeIdent : Nat → M
  multiply : M → M → M
  size : M → Nat
  reduceAncillae : M → List Bool → Option Direction → M
  reduceGarbage : M → List Bool → Option Direction → M
  changePermutation : M → Permutation → Permutation → Direction → M × Permutation
  getDD : G → Permutation → M × Permutation
  getInverseDD : G → Permutation → M × Permutation
  getType : G → OpType
  nullEdge : M
  qubitBits : Nat
  heap : Heap
  p : M → Ptr
  w : M → CWeight
  runPreCheckPasses : Configuration → EquivalenceChecker G → EquivalenceChecker G

/-! ## Scheduler state -/

/-- What the scheduling strategies mutate: both cursors, the running result and both
permutations.  `folded` is a ghost record of the operands multiplied into the result, in
the order of the multiplications; no function reads it. -/
structure Sched (G M : Type) where
  it1 : List G
  it2 : List G
  result : M
  perm1 : Permutation
  perm2 : Permutation
  folded : List (Direction × M)

/-- Modelled from the spec: `EquivalenceChecker::applyGate`, whose definition is not among
the sources.  A gate is folded into the running result as `G * result` on the left and as
`result * G⁻¹` on the right; the permutation is updated by the DD construction. -/
def applyGate {G M : Type} (P : Package G M) (g : G) (into : M) (perm : Permutation)
    (dir : Direction) : M × Permutation :=
  match dir with
  | Direction.LEFT => (P.multiply (P.getDD g perm).1 into, (P.getDD g perm).2)
  | Direction.RIGHT => (P.multiply into (P.getInverseDD g perm).1, (P.getInverseDD g perm).2)

/-- The statement pair `applyGate(qc1, it1, result, perm1, LEFT); ++it1;`. -/
def stepLeft {G M : Type} (P : Package G M) (s : Sched G M) : Sched G M :=
  match s.it1 with
  | [] => s
  | g :: rest =>
    { s with
      it1 := rest
      result := (applyGate P g s.result s.perm1 Direction.LEFT).1
      perm1 := (applyGate P g s.result s.perm1 Direction.LEFT).2
      folded := s.folded ++ [(Direction.LEFT, (P.getDD g s.perm1).1)] }

/-- The statement pair `applyGate(qc2, it2, result, perm2, RIGHT); ++it2;`. -/
def stepRight {G M : Type} (P : Package G M) (s : Sched G M) : Sched G M :=
  match s.it2 with
  | [] => s
  | g :: rest =>
    { s with
      it2 := rest
      result := (applyGate P g s.result s.perm2 Direction.RIGHT).1
      perm2 := (applyGate P g s.result s.perm2 Direction.RIGHT).2
      folded := s.folded ++ [(Direction.RIGHT, (P.getInverseDD g s.perm2).1)] }

/-- The loop condition `it1 != end1 && it2 != end2`. -/
def bothPending {G M : Type} (s : Sched G M) : Bool :=
  !s.it1.isEmpty && !s.it2.isEmpty

/-! ## checkNaive -/

/-- The `while` loop of `checkNaive`, unrolled at most `fuel` times. -/
def naiveLoop {G M : Type} (P : Package G M) : Nat → Sched G M → Sched G M
  | 0, s => s
  | fuel + 1, s =>
    if bothPending s then naiveLoop P fuel (stepRight P (stepLeft P s)) else s

/-- Alternate between LEFT and RIGHT applications.  Every iteration advances `it1`, so
`it1.length` iterations exhaust the loop. -/
def checkNaive {G M : Type} (P : Package G M) (s : Sched G M) : Sched G M :=
  naiveLoop P s.it1.length s

/-! ## checkProportional -/

/-- The integer nearest to `a / b`, a tie going to the even one: the rounding of binary64
arithmetic in its default mode. -/
def roundTiesEven (a b : Nat) : Nat :=
  if 2 * (a % b) < b then a / b
  else if b < 2 * (a % b) then a / b + 1
  else if (a / b) % 2 = 0 then a / b else a / b + 1

/-- The conversion `static_cast<double>(n)` of a gate count: `n` itself below `2 ^ 53`,
otherwise `n` rounded to 53 significant bits.  The value is again an integer.  (Counts are
`std::size_t` values, far below the largest `double`.) -/
def toDouble (n : Nat) : Nat :=
  if n < 2 ^ 53 then n
  else roundTiesEven n (2 ^ (Nat.log2 n - 52)) * 2 ^ (Nat.log2 n - 52)

/-- The quotient `a / b` of two `double` values that hold integers `a ≥ b ≥ 1`, as the
fraction `(numerator, denominator)` of the binary64 value nearest to the exact quotient:
with `e = ⌊log2 (a / b)⌋` the value is a multiple of `2 ^ (e - 52)`. -/
def divDouble (a b : Nat) : Nat × Nat :=
  if Nat.log2 (a / b) ≤ 52 then
    (roundTiesEven (a * 2 ^ (52 - Nat.log2 (a / b))) b, 2 ^ (52 - Nat.log2 (a / b)))
  else
    (roundTiesEven a (b * 2 ^ (Nat.log2 (a / b) - 52)) * 2 ^ (Nat.log2 (a / b) - 52), 1)

/-- The call `std::round(x)` on a non-negative fraction: the nearest integer, halves away
from zero. -/
def stdRound (x : Nat × Nat) : Nat :=
  (2 * x.1 + x.2) / (2 * x.2)

/-- The local `ratio` of `checkProportional`:
`static_cast<unsigned int>(std::round(double(max(n1, n2)) / double(min(n1, n2))))`, in
binary64 arithmetic.  Two cases are undefined in C++ and get the value that the x86-64
conversion instruction leaves: a zero count (quotient infinite or not a number) gives 0,
and a rounded quotient of `2 ^ 32` or more is reduced modulo `2 ^ 32`. -/
def gateRatio (n1 n2 : Nat) : Nat :=
  if toDouble (min n1 n2) = 0 then 0
  else stdRound (divDouble (toDouble (max n1 n2)) (toDouble (min n1 n2))) % 2 ^ 32

/-- The loop `for (i = 0; i < ratio1 && it1 != end1; ++i)` with `k` bounding the remaining
values of `i`. -/
def forLeft {G M : Type} (P : Package G M) : Nat → Sched G M → Sched G M
  | 0, s => s
  | k + 1, s => if !s.it1.isEmpty then forLeft P k (stepLeft P s) else s

/-- The loop `for (i = 0; i < ratio2 && it2 != end2; ++i)`. -/
def forRight {G M : Type} (P : Package G M) : Nat → Sched G M → Sched G M
  | 0, s => s
  | k + 1, s => if !s.it2.isEmpty then forRight P k (stepRight P s) else s

/-- One iteration of the `while` loop of `checkProportional`. -/
def proportionalRound {G M : Type} (P : Package G M) (ratio1 ratio2 : Nat)
    (s : Sched G M) : Sched G M :=
  forRight P ratio2 (forLeft P ratio1 s)

/-- The `while` loop of `checkProportional`, unrolled at most `fuel` times. -/
def proportionalLoop {G M : Type} (P : Package G M) (ratio1 ratio2 : Nat) :
    Nat → Sched G M → Sched G M
  | 0, s => s
  | fuel + 1, s =>
    if bothPending s then
      proportionalLoop P ratio1 ratio2 fuel (proportionalRound P ratio1 ratio2 s)
    else s

/-- The per-round gate budget of the left side. -/
def ratio1 (n1 n2 : Nat) : Nat :=
  if n1 > n2 then gateRatio n1 n2 else 1

/-- The per-round gate budget of the right side. -/
def ratio2 (n1 n2 : Nat) : Nat :=
  if n1 > n2 then 1 else gateRatio n1 n2

/-- Alternate according to the gate count ratio between LEFT and RIGHT applications.
One of the two budgets is 1, so every round advances a cursor and
`it1.length + it2.length` rounds exhaust the loop. -/
def checkProportional {G M : Type} (P : Package G M) (c : EquivalenceChecker G)
    (s : Sched G M) : Sched G M :=
  proportionalLoop P (ratio1 c.qc1.getNops c.qc2.getNops) (ratio2 c.qc1.getNops c.qc2.getNops)
    (s.it1.length + s.it2.length) s

/-! ## checkLookahead -/

/-- The scheduler state together with the locals of `checkLookahead`. -/
structure Lookahead (G M : Type) where
  s : Sched G M
  left : M
  right : M
  cachedLeft : Bool
  cachedRight : Bool

/-- The block `if (!cachedLeft) { ... }`; `none` is the `break` on a Measure.  The loop
condition puts a gate under the cursor, so the case of an empty range does not arise. -/
def fetchLeft {G M : Type} (P : Package G M) (st : Lookahead G M) : Option (Lookahead G M) :=
  if st.cachedLeft then some st
  else
    match st.s.it1 with
    | [] => none
    | g :: rest =>
      if P.getType g = OpType.Measure then none
      else
        some { st with
          s := { st.s with it1 := rest, perm1 := (P.getDD g st.s.perm1).2 }
          left := (P.getDD g st.s.perm1).1
          cachedLeft := true }

/-- The block `if (!cachedRight) { ... }`; `none` is the `break` on a Measure.  The left
block leaves `it2` alone, so the case of an empty range does not arise. -/
def fetchRight {G M : Type} (P : Package G M) (st : Lookahead G M) : Option (Lookahead G M) :=
  if st.cachedRight then some st
  else
    match st.s.it2 with
    | [] => none
    | g :: rest =>
      if P.getType g = OpType.Measure then none
      else
        some { st with
          s := { st.s with it2 := rest, perm2 := (P.getInverseDD g st.s.perm2).2 }
          right := (P.getInverseDD g st.s.perm2).1
          cachedRight := true }

/-- The tail of the loop body: both tentative products, the size comparison and the
commit of the smaller one. -/
def commit {G M : Type} (P : Package G M) (st : Lookahead G M) : Lookahead G M :=
  let saved := st.s.result
  let lookLeft := P.multiply st.left saved
  let lookRight := P.multiply saved st.right
  if P.size lookLeft ≤ P.size lookRight then
    { st with
      s := { st.s with result := lookLeft, folded := st.s.folded ++ [(Direction.LEFT, st.left)] }
      cachedLeft := false }
  else
    { st with
      s := { st.s with result := lookRight,
                       folded := st.s.folded ++ [(Direction.RIGHT, st.right)] }
      cachedRight := false }

/-- One iteration of the `while` loop of `checkLookahead`: the state it leaves and whether
it left through a `break`. -/
def lookaheadIter {G M : Type} (P : Package G M) (st : Lookahead G M) :
    Lookahead G M × Bool :=
  match fetchLeft P st with
  | none => (st, true)
  | some st1 =>
    match fetchRight P st1 with
    | none => (st1, true)
    | some st2 => (commit P st2, false)

/-- The `while` loop of `checkLookahead`, unrolled at most `fuel` times. -/
def lookaheadLoop {G M : Type} (P : Package G M) : Nat → Lookahead G M → Lookahead G M
  | 0, st => st
  | fuel + 1, st =>
    if bothPending st.s then
      if (lookaheadIter P st).2 then (lookaheadIter P st).1
      else lookaheadLoop P fuel (lookaheadIter P st).1
    else st

/-- The block `if (cachedLeft) { ... }` after the loop. -/
def flushLeft {G M : Type} (P : Package G M) (st : Lookahead G M) : Lookahead G M :=
  if st.cachedLeft then
    { st with
      s := { st.s with result := P.multiply st.left st.s.result,
                       folded := st.s.folded ++ [(Direction.LEFT, st.left)] } }
  else st

/-- The block `if (cachedRight) { ... }` after the loop. -/
def flushRight {G M : Type} (P : Package G M) (st : Lookahead G M) : Lookahead G M :=
  if st.cachedRight then
    { st with
      s := { st.s with result := P.multiply st.s.result st.right,
                       folded := st.s.folded ++ [(Direction.RIGHT, st.right)] } }
  else st

/-- The locals of `checkLookahead` at entry. -/
def lookaheadInit {G M : Type} (P : Package G M) (s : Sched G M) : Lookahead G M :=
  { s := s, left := P.nullEdge, right := P.nullEdge, cachedLeft := false, cachedRight := false }

/-- Look-ahead LEFT and RIGHT and choose the more promising option.  Every completed
iteration commits one operand, so `it1.length + it2.length` iterations exhaust the loop. -/
def checkLookahead {G M : Type} (P : Package G M) (s : Sched G M) : Sched G M :=
  (flushRight P (flushLeft P
    (lookaheadLoop P (s.it1.length + s.it2.length) (lookaheadInit P s)))).s

/-! ## createInitialMatrix and createGoalMatrix -/

/-- The conversion `static_cast<dd::Qubit>(x)` to a signed integer of `bits` bits. -/
def castQubit (bits : Nat) (x : Int) : Int :=
  (x + 2 ^ (bits - 1)) % 2 ^ bits - 2 ^ (bits - 1)

/-- The scan `for (const auto& in : initial) if (in.second == q) { ...; break; }`: the
pair `(found, isidle)` it leaves. -/
def findLine (qc : QuantumComputation) : Permutation → Nat → Bool × Bool
  | [], _ => (false, false)
  | entry :: rest, q =>
    if entry.2 = q then (true, qc.isIdleQubit entry.1) else findLine qc rest q

/-- The body of the loop over the lines in `createInitialMatrix`, for line `q`. -/
def markLine {G : Type} (c : EquivalenceChecker G) (q : Nat) (ancillary : List Bool) :
    List Bool :=
  if c.qc1.logicalQubitIsAncillary q && c.qc2.logicalQubitIsAncillary q then
    let f1 := findLine c.qc1 c.initial1 q
    let f2 := findLine c.qc2 c.initial2 q
    if (xor f1.1 f2.1) || (xor f1.2 f2.2) then ancillary.set q true else ancillary
  else ancillary

/-- The loop `for (q = ...; q >= 0; --q)`, entered with `q + 1 = k`. -/
def markLoop {G : Type} (c : EquivalenceChecker G) : Nat → List Bool → List Bool
  | 0, ancillary => ancillary
  | q + 1, ancillary => markLoop c q (markLine c q ancillary)

/-- The vector `ancillary` of `createInitialMatrix` when the loop is done. -/
def initialAncillary {G : Type} (bits : Nat) (c : EquivalenceChecker G) : List Bool :=
  markLoop c (castQubit bits ((c.nqubits : Int) - 1) + 1).toNat
    (List.replicate c.nqubits false)

/-- The initial matrix of the G -> I <- G' scheme. -/
def createInitialMatrix {G M : Type} (P : Package G M) (c : EquivalenceChecker G) : M :=
  P.reduceAncillae (P.makeIdent c.nqubits) (initialAncillary P.qubitBits c) none

/-- The goal matrix of the G -> I <- G' scheme. -/
def createGoalMatrix {G M : Type} (P : Package G M) (c : EquivalenceChecker G) : M :=
  let g0 := P.makeIdent c.nqubits
  let g1 := P.reduceAncillae g0 c.ancillary2 (some Direction.RIGHT)
  let g2 := P.reduceGarbage g1 c.garbage2 (some Direction.RIGHT)
  let g3 := P.reduceAncillae g2 c.ancillary1 (some Direction.LEFT)
  P.reduceGarbage g3 c.garbage1 (some Direction.LEFT)

/-! ## The weighted trace -/

/-- The buffer built by `complex2fp`. -/
def complex2fp (c : CWeight) : FP2 :=
  (c.r, c.i)

/-- Componentwise sum of two buffers. -/
def add (a b : FP2) : FP2 :=
  (a.1 + b.1, a.2 + b.2)

/-- Product of two buffers. -/
def mul (a b : FP2) : FP2 :=
  (a.1 * b.1 - a.2 * b.2, a.1 * b.2 + a.2 * b.1)

/-- The table `std::map<mNode*, fp*>`, by the values the stored buffers hold. -/
abbrev NodeTable := List (Ptr × FP2)

/-- The lookup `Node_Table->find(p)`; `none` is `end()`. -/
def tableFind (t : NodeTable) (p : Ptr) : Option FP2 :=
  match t with
  | [] => none
  | kv :: rest => if kv.1 = p then some kv.2 else tableFind rest p

/-- The assignment `(*Node_Table)[p] = v`. -/
def tableAssign (t : NodeTable) (p : Ptr) (v : FP2) : NodeTable :=
  (p, v) :: t.filter (fun kv => !decide (kv.1 = p))

/-- The test `mNode::isTerminal(p)`. -/
def isTerminal (p : Ptr) : Bool :=
  decide (p = Ptr.terminal)

/-- The node a pointer designates; a null or dangling pointer designates none. -/
def deref (h : Heap) : Ptr → Option MNode
  | Ptr.null => none
  | Ptr.terminal => some h.terminalNode
  | Ptr.addr a => h.nodes[a]?

/-- The guarded recursive call `if (!isTerminal(p) && find(p) == end()) traceRecur(p, ..)`
of depth at most `fuel`, by the table it leaves. -/
def visitChild (rec : Ptr → NodeTable → Option (FP2 × NodeTable)) (p : Ptr)
    (t : NodeTable) : Option NodeTable :=
  if !isTerminal p && (tableFind t p).isNone then (rec p t).map Prod.snd else some t

/-- The value read for a diagonal child: `(1, 0)` for the terminal, the table entry
otherwise (`none` when the assertion `it != end()` fails). -/
def childValue (p : Ptr) (t : NodeTable) : Option FP2 :=
  if isTerminal p then some (1, 0) else tableFind t p

/-- The function `traceRecur(cur, Node_Table)` with recursion depth at most `fuel`: the
returned sum and the table it leaves.  `none` stands for a run that yields no value: a
null or dangling dereference, a failed assertion, or recursion deeper than `fuel`. -/
def traceRecur (h : Heap) : Nat → Ptr → NodeTable → Option (FP2 × NodeTable)
  | 0, _, _ => none
  | fuel + 1, cur, t =>
    match deref h cur with
    | none => none
    | some node =>
      match visitChild (traceRecur h fuel) node.e0.p t with
      | none => none
      | some t1 =>
        match visitChild (traceRecur h fuel) node.e3.p t1 with
        | none => none
        | some t2 =>
          match childValue node.e0.p t2, childValue node.e3.p t2 with
          | some left, some right =>
            let w0 := complex2fp node.e0.w
            let w1 := complex2fp node.e3.w
            let le := mul w0 left
            let re := mul w1 right
            let sum := add le re
            some (sum, tableAssign t2 cur sum)
          | _, _ => none

/-- The fidelity block of `check` for the reduced result: the value assigned to `fid`.
A chain of distinct nodes is no longer than the node memory, so a recursion depth of
`nodes.length + 1` is not exceeded on an acyclic diagram. -/
def fidelity {G M : Type} (P : Package G M) (nqubits : Nat) (result : M) : Option ℚ :=
  match traceRecur P.heap (P.heap.nodes.length + 1) (P.p result) [] with
  | none => none
  | some (sum, _) =>
    let w := complex2fp (P.w result)
    let sum_w := mul w sum
    some ((sum_w.1 * sum_w.1 + sum_w.2 * sum_w.2) / (2 : ℚ) ^ (2 * nqubits))

/-! ## check -/

/-- How a run of `check` ends without results: the `std::invalid_argument` thrown for an
unsupported strategy, or a fault of the fidelity traversal. -/
inductive Failure where
  | invalid_argument (s : Strategy)
  | fault
  deriving DecidableEq, Repr

/-- The fields of `EquivalenceCheckingResults` that `check` computes from the circuits
(timings and the active-node statistic are left out). -/
structure EquivalenceCheckingResults (M : Type) where
  strategy : Strategy
  result : M
  equivalence : Bool

/-- What a completed run of `check` leaves: the results and the global `fid` (`none` when
the fidelity block is skipped). -/
structure Outcome (M : Type) where
  results : EquivalenceCheckingResults M
  fid : Option ℚ

/-- Modelled from the spec: `EquivalenceChecker::equals`, whose definition is not among the
sources: the exact structural equality of two canonical handles. -/
def equals {M : Type} [DecidableEq M] (e f : M) : Bool :=
  decide (e = f)

/-- The `switch (config.strategy)` of `check`. -/
def schedule {G M : Type} (P : Package G M) (c : EquivalenceChecker G) (strategy : Strategy)
    (s : Sched G M) : Except Failure (Sched G M) :=
  match strategy with
  | Strategy.Naive => Except.ok (checkNaive P s)
  | Strategy.Proportional => Except.ok (checkProportional P c s)
  | Strategy.Lookahead => Except.ok (checkLookahead P s)
  | other => Except.error (Failure.invalid_argument other)

/-- The loop `while (it1 != end1) { applyGate(.., LEFT); ++it1; }`. -/
def finishFirst {G M : Type} (P : Package G M) (s : Sched G M) : Sched G M :=
  forLeft P s.it1.length s

/-- The loop `while (it2 != end2) { applyGate(.., RIGHT); ++it2; }`. -/
def finishSecond {G M : Type} (P : Package G M) (s : Sched G M) : Sched G M :=
  forRight P s.it2.length s

/-- The scheduler state at the `switch`: the cursors as the pre-check passes left them, the
initial matrix and copies of the initial permutations. -/
def startSched {G M : Type} (P : Package G M) (c : EquivalenceChecker G) : Sched G M :=
  { it1 := c.it1, it2 := c.it2, result := createInitialMatrix P c,
    perm1 := c.initial1, perm2 := c.initial2, folded := [] }

/-- The statements of `check` between the drain loops and the fidelity block: both
permutation changes and the four reductions, from the running result and the two
permutations the drain loops leave. -/
def reduceResult {G M : Type} (P : Package G M) (c : EquivalenceChecker G) (result : M)
    (perm1 perm2 : Permutation) : M :=
  let r1 := P.changePermutation result perm1 c.output1 Direction.LEFT
  let r2 := P.changePermutation r1.1 perm2 c.output2 Direction.RIGHT
  let r3 := P.reduceGarbage r2.1 c.garbage1 (some Direction.LEFT)
  let r4 := P.reduceGarbage r3 c.garbage2 (some Direction.RIGHT)
  let r5 := P.reduceAncillae r4 c.ancillary1 (some Direction.LEFT)
  P.reduceAncillae r5 c.ancillary2 (some Direction.RIGHT)

/-- The fidelity block `if (isFid) { ... }`: `none` is a fault of the traversal,
`some none` a skipped block. -/
def fidelityBlock {G M : Type} (P : Package G M) (c : EquivalenceChecker G) (result : M) :
    Option (Option ℚ) :=
  if c.isFid then (fidelity P c.nqubits result).map some else some none

/-- The statements of `check` up to the fidelity block: pre-check passes, initial matrix,
dispatch, both drain loops, permutation changes and reductions.  The value is the reduced
`results.result`. -/
def reducedRun {G M : Type} (P : Package G M) (config : Configuration)
    (c0 : EquivalenceChecker G) : Except Failure M :=
  let c := P.runPreCheckPasses config c0
  match schedule P c config.strategy (startSched P c) with
  | Except.error e => Except.error e
  | Except.ok s =>
    let s := finishSecond P (finishFirst P s)
    Except.ok (reduceResult P c s.result s.perm1 s.perm2)

/-- Use dedicated method to check the equivalence of both provided circuits. -/
def check {G M : Type} [DecidableEq M] (P : Package G M) (config : Configuration)
    (c0 : EquivalenceChecker G) : Except Failure (Outcome M) :=
  match reducedRun P config c0 with
  | Except.error e => Except.error e
  | Except.ok result =>
    match fidelityBlock P (P.runPreCheckPasses config c0) result with
    | none => Except.error Failure.fault
    | some fid =>
      Except.ok
        { results :=
            { strategy := config.strategy, result := result,
              equivalence := equals result (createGoalMatrix P (P.runPreCheckPasses config c0)) },
          fid := fid }

/-! ## Reference notions for the scheduling properties -/

/-- The operands that the gates of the left circuit contribute, in circuit order, from
permutation `perm` on. -/
def leftDDs {G M : Type} (P : Package G M) : List G → Permutation → List M
  | [], _ => []
  | g :: gs, perm => (P.getDD g perm).1 :: leftDDs P gs (P.getDD g perm).2

/-- The permutation of the left circuit once all the given gates are built. -/
def leftPerm {G M : Type} (P : Package G M) : List G → Permutation → Permutation
  | [], perm => perm
  | g :: gs, perm => leftPerm P gs (P.getDD g perm).2

/-- The inverted operands that the gates of the right circuit contribute, in circuit
order, from permutation `perm` on. -/
def rightDDs {G M : Type} (P : Package G M) : List G → Permutation → List M
  | [], _ => []
  | g :: gs, perm => (P.getInverseDD g perm).1 :: rightDDs P gs (P.getInverseDD g perm).2

/-- The permutation of the right circuit once all the given gates are built. -/
def rightPerm {G M : Type} (P : Package G M) : List G → Permutation → Permutation
  | [], perm => perm
  | g :: gs, perm => rightPerm P gs (P.getInverseDD g perm).2

/-- The operands of a record that were folded on the given side, in order. -/
def sideOf {M : Type} (d : Direction) (ev : List (Direction × M)) : List M :=
  (ev.filter (fun e => decide (e.1 = d))).map Prod.snd

/-- The result of folding a record of operands into `init`, one multiplication each. -/
def replay {G M : Type} (P : Package G M) (init : M) : List (Direction × M) → M
  | [] => init
  | (Direction.LEFT, m) :: rest => replay P (P.multiply m init) rest
  | (Direction.RIGHT, m) :: rest => replay P (P.multiply init m) rest

/-- The operator `l_n * ... * l_1 * init * r_1 * ... * r_m`. -/
def sandwich {G M : Type} (P : Package G M) (ls : List M) (init : M) (rs : List M) : M :=
  rs.foldl P.multiply (ls.foldl (fun acc l => P.multiply l acc) init)

/-- Progress of a scheduler state `s` from `s0`: the operands folded since `s0` replay to
the running result, and on each side the folded operands, the pending ones (`pl`, `pr`) and
those of the gates still behind the cursor make up the operands of the whole side. -/
def Adv {G M : Type} (P : Package G M) (s0 s : Sched G M) (pl pr : List M) : Prop :=
  ∃ ev, s.folded = s0.folded ++ ev ∧ s.result = replay P s0.result ev ∧
    leftDDs P s0.it1 s0.perm1 = sideOf Direction.LEFT ev ++ pl ++ leftDDs P s.it1 s.perm1 ∧
    rightDDs P s0.it2 s0.perm2 = sideOf Direction.RIGHT ev ++ pr ++ rightDDs P s.it2 s.perm2 ∧
    leftPerm P s0.it1 s0.perm1 = leftPerm P s.it1 s.perm1 ∧
    rightPerm P s0.it2 s0.perm2 = rightPerm P s.it2 s.perm2

/-- Both cursors are exhausted and every gate of either circuit was folded exactly once,
in the order of its circuit. -/
def Complete {G M : Type} (P : Package G M) (s0 s : Sched G M) : Prop :=
  s.it1 = [] ∧ s.it2 = [] ∧
  ∃ ev, s.folded = s0.folded ++ ev ∧ s.result = replay P s0.result ev ∧
    sideOf Direction.LEFT ev = leftDDs P s0.it1 s0.perm1 ∧
    sideOf Direction.RIGHT ev = rightDDs P s0.it2 s0.perm2 ∧
    s.perm1 = leftPerm P s0.it1 s0.perm1 ∧
    s.perm2 = rightPerm P s0.it2 s0.perm2

/-- The operand pending on the left of a lookahead state, if any. -/
def pendL {G M : Type} (st : Lookahead G M) : List M :=
  if st.cachedLeft then [st.left] else []

/-- The operand pending on the right of a lookahead state, if any. -/
def pendR {G M : Type} (st : Lookahead G M) : List M :=
  if st.cachedRight then [st.right] else []

/-- The strategies that the `switch` of `check` dispatches. -/
def supported (s : Strategy) : Bool :=
  match s with
  | Strategy.Naive => true
  | Strategy.Proportional => true
  | Strategy.Lookahead => true
  | Strategy.CompilationFlow => false

/-- The operator that a complete run accumulates: all left operands composed on the left
of the initial matrix in circuit order, all inverted right operands on its right. -/
def finalOperator {G M : Type} (P : Package G M) (c : EquivalenceChecker G) : M :=
  sandwich P (leftDDs P c.it1 c.initial1) (createInitialMatrix P c)
    (rightDDs P c.it2 c.initial2)

/-- The reduced form of `finalOperator`, under the permutations that building all gates
leaves. -/
def reducedOperator {G M : Type} (P : Package G M) (c : EquivalenceChecker G) : M :=
  reduceResult P c (finalOperator P c) (leftPerm P c.it1 c.initial1)
    (rightPerm P c.it2 c.initial2)

/-- What a run of `check` reports apart from the recorded strategy. -/
def Outcome.core {M : Type} (out : Outcome M) : M × Bool × Option ℚ :=
  (out.results.result, out.results.equivalence, out.fid)

/-- The algebra assumed of the package for `n` qubits: the product is associative with
`makeIdent n` as unit, an operation's inverse DD is a right inverse of its DD, and both
constructions update the permutation alike. -/
structure Lawful {G M : Type} (P : Package G M) (n : Nat) : Prop where
  assoc : ∀ a b c : M, P.multiply (P.multiply a b) c = P.multiply a (P.multiply b c)
  one_mul : ∀ a : M, P.multiply (P.makeIdent n) a = a
  mul_one : ∀ a : M, P.multiply a (P.makeIdent n) = a
  mul_inv : ∀ (g : G) (perm : Permutation),
    P.multiply (P.getDD g perm).1 (P.getInverseDD g perm).1 = P.makeIdent n
  perm_inv : ∀ (g : G) (perm : Permutation), (P.getInverseDD g perm).2 = (P.getDD g perm).2

/-- The checker compares a circuit with itself: both sides hold the same circuit, the same
initial permutation and the same gate range. -/
def Reflexive {G : Type} (c : EquivalenceChecker G) : Prop :=
  c.qc1 = c.qc2 ∧ c.initial1 = c.initial2 ∧ c.it1 = c.it2

/-- The reductions of `check`, applied to the identity under the final permutations, give
the goal matrix. -/
def ReducesToGoal {G M : Type} (P : Package G M) (c : EquivalenceChecker G) : Prop :=
  reduceResult P c (P.makeIdent c.nqubits) (leftPerm P c.it1 c.initial1)
    (rightPerm P c.it2 c.initial2) = createGoalMatrix P c

/-! ### A concrete package: affine maps of the integers -/

/-- A gate of the example package: the map `x ↦ ±x + shift`, or a measurement. -/
structure AffGate where
  flip : Bool
  shift : Int
  measure : Bool
  deriving DecidableEq

/-- Composition of the affine maps `x ↦ a.1 * x + a.2`. -/
def affMul (a b : Int × Int) : Int × Int :=
  (a.1 * b.1, a.1 * b.2 + a.2)

/-- The sign of an example gate. -/
def affSign (g : AffGate) : Int :=
  if g.flip then -1 else 1

/-- A node memory without table nodes, the terminal node having null successors. -/
def emptyHeap : Heap :=
  { terminalNode :=
      { e0 := ⟨Ptr.null, ⟨0, 0⟩⟩, e1 := ⟨Ptr.null, ⟨0, 0⟩⟩,
        e2 := ⟨Ptr.null, ⟨0, 0⟩⟩, e3 := ⟨Ptr.null, ⟨0, 0⟩⟩ },
    nodes := [] }

/-- An example package whose handles are affine maps of the integers under composition
(a non-commutative group); reductions and permutation changes do nothing. -/
def affPackage : Package AffGate (Int × Int) :=
  { makeIdent := fun _ => (1, 0)
    multiply := affMul
    size := fun m => m.2.natAbs
    reduceAncillae := fun e _ _ => e
    reduceGarbage := fun e _ _ => e
    changePermutation := fun e _ out _ => (e, out)
    getDD := fun g perm => ((affSign g, g.shift), perm)
    getInverseDD := fun g perm => ((affSign g, -(affSign g * g.shift)), perm)
    getType := fun g => if g.measure then OpType.Measure else OpType.Other 0
    nullEdge := (0, 0)
    qubitBits := 8
    heap := emptyHeap
    p := fun _ => Ptr.terminal
    w := fun _ => ⟨1, 0⟩
    runPreCheckPasses := fun _ c => c }

/-- An example circuit description: three operations, no ancillary line. -/
def affCircuit : QuantumComputation :=
  { getNops := 3, logicalQubitIsAncillary := fun _ => false, isIdleQubit := fun _ => false }

/-- Three example gates, the last one a measurement. -/
def affGates : List AffGate :=
  [⟨true, 2, false⟩, ⟨false, 5, false⟩, ⟨true, 0, true⟩]

/-- The example checker comparing `affGates` with itself on two lines. -/
def affChecker : EquivalenceChecker AffGate :=
  { qc1 := affCircuit, qc2 := affCircuit, nqubits := 2,
    initial1 := [(0, 0), (1, 1)], initial2 := [(0, 0), (1, 1)],
    output1 := [(0, 0), (1, 1)], output2 := [(0, 0), (1, 1)],
    ancillary1 := [false, false], ancillary2 := [false, false],
    garbage1 := [false, false], garbage2 := [false, false],
    it1 := affGates, it2 := affGates, isFid := false }

/-- The operands that one round of `checkProportional` folds from state `s`: those of the
next `r1` left gates, then those of the next `r2` right gates (fewer where a side runs
out). -/
def roundRecord {G M : Type} (P : Package G M) (r1 r2 : Nat) (s : Sched G M) :
    List (Direction × M) :=
  (leftDDs P (s.it1.take r1) s.perm1).map (Prod.mk Direction.LEFT) ++
    (rightDDs P (s.it2.take r2) s.perm2).map (Prod.mk Direction.RIGHT)

/-- Ten example gates. -/
def tenGates : List AffGate :=
  (List.range 10).map (fun k => ⟨k % 2 = 0, k, false⟩)

/-- Two example gates. -/
def twoGates : List AffGate :=
  [⟨true, 7, false⟩, ⟨false, 1, false⟩]

/-- An example checker with ten gates on the left and two on the right. -/
def tenTwoChecker : EquivalenceChecker AffGate :=
  { affChecker with
    qc1 := { affCircuit with getNops := 10 }
    qc2 := { affCircuit with getNops := 2 }
    it1 := tenGates
    it2 := twoGates }

/-- Line `q` is occupied in a permutation: some entry maps a circuit qubit to it
(`found` in `createInitialMatrix`). -/
def occupied (perm : Permutation) (q : Nat) : Prop :=
  ∃ entry ∈ perm, entry.2 = q

/-- Line `q` is occupied and the first circuit qubit found on it is idle (`isidle` in
`createInitialMatrix`). -/
def idleOn (qc : QuantumComputation) (perm : Permutation) (q : Nat) : Prop :=
  ∃ entry, perm.find? (fun e => decide (e.2 = q)) = some entry ∧ qc.isIdleQubit entry.1 = true

/-- The condition under which the loop of `createInitialMatrix` flags line `q`. -/
def lineFlagged {G : Type} (c : EquivalenceChecker G) (q : Nat) : Bool :=
  (c.qc1.logicalQubitIsAncillary q && c.qc2.logicalQubitIsAncillary q) &&
    ((xor (findLine c.qc1 c.initial1 q).1 (findLine c.qc2 c.initial2 q).1) ||
      (xor (findLine c.qc1 c.initial1 q).2 (findLine c.qc2 c.initial2 q).2))

/-- An example checker on three lines, all ancillary in both circuits: line 0 carries a
working qubit in both, line 1 an idle qubit of the first circuit only, line 2 an idle
qubit in both. -/
def ancillaChecker : EquivalenceChecker AffGate :=
  { qc1 := { getNops := 0, logicalQubitIsAncillary := fun _ => true,
             isIdleQubit := fun k => decide (1 ≤ k) }
    qc2 := { getNops := 0, logicalQubitIsAncillary := fun _ => true,
             isIdleQubit := fun k => decide (1 ≤ k) }
    nqubits := 3
    initial1 := [(0, 0), (1, 1), (2, 2)], initial2 := [(0, 0), (2, 2)]
    output1 := [(0, 0), (1, 1), (2, 2)], output2 := [(0, 0), (2, 2)]
    ancillary1 := [true, true, true], ancillary2 := [true, true, true]
    garbage1 := [false, false, false], garbage2 := [false, false, false]
    it1 := [], it2 := [], isFid := false }

/-! ### Reference notions for the weighted trace -/

/-- A diagonal successor of the node at address `a` is in order: it is the terminal node
or a table node at a smaller address. -/
def diagOK (p : Ptr) (a : Nat) : Bool :=
  match p with
  | Ptr.null => false
  | Ptr.terminal => true
  | Ptr.addr b => decide (b < a)

/-- A node memory is ordered when the diagonal successors of every table node are in
order; an ordered memory holds acyclic diagrams without dangling diagonal edges. -/
def ordered (h : Heap) : Prop :=
  ∀ a : Fin h.nodes.length,
    diagOK (h.nodes.get a).e0.p a = true ∧ diagOK (h.nodes.get a).e3.p a = true

/-- The weighted trace by plain recursion over the diagonal successors, `fuel` levels
deep: `(1, 0)` at the terminal node, `w0 * child0 + w3 * child3` at a table node. -/
def weightedTrace (h : Heap) : Nat → Ptr → FP2
  | 0, p => if isTerminal p then (1, 0) else (0, 0)
  | fuel + 1, p =>
    if isTerminal p then (1, 0)
    else
      match deref h p with
      | none => (0, 0)
      | some node =>
        add (mul (complex2fp node.e0.w) (weightedTrace h fuel node.e0.p))
          (mul (complex2fp node.e3.w) (weightedTrace h fuel node.e3.p))

/-- The weighted trace of the diagram below a pointer. -/
def traceOf (h : Heap) (p : Ptr) : FP2 :=
  weightedTrace h h.nodes.length p

/-- The value `|w * t|² / 4ⁿ`. -/
def fidelityValue (w : CWeight) (t : FP2) (n : Nat) : ℚ :=
  ((mul (complex2fp w) t).1 * (mul (complex2fp w) t).1 +
    (mul (complex2fp w) t).2 * (mul (complex2fp w) t).2) / (4 : ℚ) ^ n

/-- Every entry of a table holds the weighted trace of its node. -/
def TableGood (h : Heap) (t : NodeTable) : Prop :=
  ∀ p v, tableFind t p = some v → v = traceOf h p

/-- The diagram below `p` is the identity over `k` lines: `k` nodes in a chain, the two
diagonal edges of each leading to the next with weight one. -/
def identDD (h : Heap) : Nat → Ptr → Bool
  | 0, p => isTerminal p
  | k + 1, p =>
    match p with
    | Ptr.addr a =>
      match h.nodes[a]? with
      | none => false
      | some node =>
        decide (node.e0.w = ⟨1, 0⟩) && decide (node.e3.w = ⟨1, 0⟩) &&
          decide (node.e3.p = node.e0.p) && identDD h k node.e0.p
    | _ => false

/-! ### A concrete package: diagonal one-line diagrams -/

/-- The edge to the terminal node with weight `w`. -/
def leaf (w : ℚ) : Edge :=
  ⟨Ptr.terminal, ⟨w, 0⟩⟩

/-- Node memory with the one-line identity `[1 0; 0 1]` at address 0 and the one-line
projector `[1 0; 0 0]` at address 1; the successors of the terminal node are null. -/
def diagHeap : Heap :=
  { terminalNode := emptyHeap.terminalNode
    nodes :=
      [{ e0 := leaf 1, e1 := leaf 0, e2 := leaf 0, e3 := leaf 1 },
       { e0 := leaf 1, e1 := leaf 0, e2 := leaf 0, e3 := leaf 0 }] }

/-- Product of two weights. -/
def mulWeight (a b : CWeight) : CWeight :=
  ⟨a.r * b.r - a.i * b.i, a.r * b.i + a.i * b.r⟩

/-- An example package on the scaled one-line matrices `[1 0; 0 1]` and `[1 0; 0 0]` (and
scalars for zero lines).  Its only gate is the identity gate.  The product is the matrix
product; ancilla reduction of a flagged line turns the identity into the projector, as
the header documents for the goal matrix; garbage reduction and permutation change are
given for the case without garbage lines and with equal permutations, where they change
nothing. -/
def diagPackage : Package Unit Edge :=
  { makeIdent := fun n => if n = 0 then leaf 1 else ⟨Ptr.addr 0, ⟨1, 0⟩⟩
    multiply := fun a b => ⟨if a.p = Ptr.addr 0 then b.p else a.p, mulWeight a.w b.w⟩
    size := fun _ => 1
    reduceAncillae := fun e anc _ =>
      if anc.head? = some true ∧ e.p = Ptr.addr 0 then ⟨Ptr.addr 1, e.w⟩ else e
    reduceGarbage := fun e _ _ => e
    changePermutation := fun e _ out _ => (e, out)
    getDD := fun _ perm => (⟨Ptr.addr 0, ⟨1, 0⟩⟩, perm)
    getInverseDD := fun _ perm => (⟨Ptr.addr 0, ⟨1, 0⟩⟩, perm)
    getType := fun _ => OpType.Other 0
    nullEdge := ⟨Ptr.null, ⟨0, 0⟩⟩
    qubitBits := 8
    heap := diagHeap
    p := Edge.p
    w := Edge.w
    runPreCheckPasses := fun _ c => c }

/-- A circuit description of the example: one gate, the line ancillary or not, its qubit
at work. -/
def diagCircuit (anc : Bool) : QuantumComputation :=
  { getNops := 1, logicalQubitIsAncillary := fun _ => anc, isIdleQubit := fun _ => false }

/-- An example checker on one line, comparing the identity gate with itself, the fidelity
block enabled; `anc` tells whether the line is ancillary (in both circuits). -/
def diagChecker (anc : Bool) : EquivalenceChecker Unit :=
  { qc1 := diagCircuit anc, qc2 := diagCircuit anc, nqubits := 1,
    initial1 := [(0, 0)], initial2 := [(0, 0)], output1 := [(0, 0)], output2 := [(0, 0)],
    ancillary1 := [anc], ancillary2 := [anc], garbage1 := [false], garbage2 := [false],
    it1 := [()], it2 := [()], isFid := true }

/-- An example checker on zero lines with empty circuits, the fidelity block enabled. -/
def scalarChecker : EquivalenceChecker Unit :=
  { qc1 := diagCircuit false, qc2 := diagCircuit false, nqubits := 0,
    initial1 := [], initial2 := [], output1 := [], output2 := [],
    ancillary1 := [], ancillary2 := [], garbage1 := [], garbage2 := [],
    it1 := [], it2 := [], isFid := true }

/-- The number of gates of a lookahead state that are not yet folded into the result:
those behind the cursors and the cached ones. -/
def unfolded {G M : Type} (st : Lookahead G M) : Nat :=
  st.s.it1.length + st.s.it2.length + (pendL st).length + (pendR st).length

/-! ### Reference notions for the lookahead loop -/

/-- The gate under a cursor is a Measure (`(*it)->getType() == qc::Measure`); an exhausted
cursor has no gate under it. -/
def upcomingMeasure {G M : Type} (P : Package G M) (it : List G) : Bool :=
  match it with
  | [] => false
  | g :: _ => decide (P.getType g = OpType.Measure)

/-- A cursor that started at the range `it0` and now stands at `it` has been advanced over
gates none of which is a Measure. -/
def NoMeasurePassed {G M : Type} (P : Package G M) (it0 it : List G) : Prop :=
  ∃ passed, it0 = passed ++ it ∧ ∀ g ∈ passed, P.getType g ≠ OpType.Measure

/-- At most one of `cachedLeft` and `cachedRight` is set. -/
def atMostOneCached {G M : Type} (st : Lookahead G M) : Bool :=
  !(st.cachedLeft && st.cachedRight)

/-- The state in which the `while` loop of `checkLookahead` ends, before the two flush
blocks. -/
def lookaheadExit {G M : Type} (P : Package G M) (s : Sched G M) : Lookahead G M :=
  lookaheadLoop P (s.it1.length + s.it2.length) (lookaheadInit P s)

/-! ### checkLookahead with its reference-count calls -/

/-- The guarded recursive call of `traceRecur`, on a table paired with the record of the
nodes evaluated so far. -/
def visitChildLog
    (rec : Ptr → NodeTable × List Ptr → Option (FP2 × (NodeTable × List Ptr))) (p : Ptr)
    (tl : NodeTable × List Ptr) : Option (NodeTable × List Ptr) :=
  if !isTerminal p && (tableFind tl.1 p).isNone then (rec p tl).map Prod.snd else some tl

/-- The function `traceRecur` with a record of its evaluations: every call that finds its
node enters `cur` in the record, then proceeds as `traceRecur` does. -/
def traceRecurLog (h : Heap) :
    Nat → Ptr → NodeTable × List Ptr → Option (FP2 × (NodeTable × List Ptr))
  | 0, _, _ => none
  | fuel + 1, cur, tl =>
    match deref h cur with
    | none => none
    | some node =>
      match visitChildLog (traceRecurLog h fuel) node.e0.p (tl.1, tl.2 ++ [cur]) with
      | none => none
      | some tl1 =>
        match visitChildLog (traceRecurLog h fuel) node.e3.p tl1 with
        | none => none
        | some tl2 =>
          match childValue node.e0.p tl2.1, childValue node.e3.p tl2.1 with
          | some left, some right =>
            let w0 := complex2fp node.e0.w
            let w1 := complex2fp node.e3.w
            let le := mul w0 left
            let re := mul w1 right
            let sum := add le re
            some (sum, (tableAssign tl2.1 cur sum, tl2.2))
          | _, _ => none

/-- Node `q` is reached from the non-terminal node `p` through diagonal edges: it is `p`
itself or is reached from the successor along `e[0]` or `e[3]`. -/
inductive Reach (h : Heap) : Ptr → Ptr → Prop where
  | self (a : Nat) : Reach h (Ptr.addr a) (Ptr.addr a)
  | viaE0 (a : Nat) (node : MNode) (q : Ptr) :
      h.nodes[a]? = some node → Reach h node.e0.p q → Reach h (Ptr.addr a) q
  | viaE3 (a : Nat) (node : MNode) (q : Ptr) :
      h.nodes[a]? = some node → Reach h node.e3.p q → Reach h (Ptr.addr a) q

/-- A table is closed when it holds, with every node, the nodes reached from it. -/
def TableClosed (h : Heap) (t : NodeTable) : Prop :=
  ∀ p q, (tableFind t p).isSome = true → Reach h p q → (tableFind t q).isSome = true

/-- Node memory with sharing: the one-line identity at address 0, at address 1 a node whose
two diagonal edges both lead to node 0, and at address 2 a node whose diagonal edges lead
to node 1 and to node 0. -/
def sharedHeap : Heap :=
  { terminalNode := emptyHeap.terminalNode
    nodes :=
      [{ e0 := leaf 1, e1 := leaf 0, e2 := leaf 0, e3 := leaf 1 },
       { e0 := ⟨Ptr.addr 0, ⟨1, 0⟩⟩, e1 := leaf 0, e2 := leaf 0, e3 := ⟨Ptr.addr 0, ⟨1, 0⟩⟩ },
       { e0 := ⟨Ptr.addr 1, ⟨1, 0⟩⟩, e1 := leaf 0, e2 := leaf 0,
         e3 := ⟨Ptr.addr 0, ⟨2, 0⟩⟩ }] }

/-- A table in good standing: every entry holds the weighted trace of its node, the table
is closed, and no node has two entries. -/
def TableOK (h : Heap) (t : NodeTable) : Prop :=
  TableGood h t ∧ TableClosed h t ∧ (t.map Prod.fst).Nodup

/-- Table `t2` and the record `new` are what evaluating from `p` adds to table `t`: `t2` is
in good standing and holds the nodes of `t` and those reached from `p`, and `new` lists,
without repetition, the nodes reached from `p` that `t` did not hold. -/
def Extends (h : Heap) (p : Ptr) (t t2 : NodeTable) (new : List Ptr) : Prop :=
  TableOK h t2 ∧
  (∀ q, (tableFind t2 q).isSome = true ↔ (tableFind t q).isSome = true ∨ Reach h p q) ∧
  new.Nodup ∧
  (∀ q, q ∈ new ↔ Reach h p q ∧ tableFind t q = none)

/-- A gate count just above `2 ^ 52`: `3 * 2 ^ 51 + 1`. -/
def bigLeft : Nat := 3 * 2 ^ 51 + 1

/-- A gate count just above `2 ^ 52`: `2 ^ 52 + 1`. -/
def bigRight : Nat := 2 ^ 52 + 1

/-- An example checker whose circuits repeat one gate `bigLeft` and `bigRight` times. -/
def bigChecker : EquivalenceChecker AffGate :=
  { affChecker with
    qc1 := { affCircuit with getNops := bigLeft }
    qc2 := { affCircuit with getNops := bigRight }
    it1 := List.replicate bigLeft ⟨false, 1, false⟩
    it2 := List.replicate bigRight ⟨false, 1, false⟩ }

/-- The empty circuit: no operation, no ancillary line. -/
def emptyCircuit : QuantumComputation :=
  { getNops := 0, logicalQubitIsAncillary := fun _ => false, isIdleQubit := fun _ => false }

/-- An example checker comparing the empty circuit over zero lines with itself; `fid`
tells whether the fidelity block is enabled. -/
def emptyChecker (fid : Bool) : EquivalenceChecker Unit :=
  { qc1 := emptyCircuit, qc2 := emptyCircuit, nqubits := 0,
    initial1 := [], initial2 := [], output1 := [], output2 := [],
    ancillary1 := [], ancillary2 := [], garbage1 := [], garbage2 := [],
    it1 := [], it2 := [], isFid := fid }

/-! ## Scheduling: basic facts -/

theorem sideOf_nil {M : Type} (d : Direction) : sideOf d ([] : List (Direction × M)) = [] :=
  rfl

theorem sideOf_append {M : Type} (d : Direction) (a b : List (Direction × M)) :
    sideOf d (a ++ b) = sideOf d a ++ sideOf d b := by
  simp [sideOf]

theorem sideOf_left_left {M : Type} (m : M) :
    sideOf Direction.LEFT [(Direction.LEFT, m)] = [m] := by
  simp [sideOf]

theorem sideOf_left_right {M : Type} (m : M) :
    sideOf Direction.LEFT [(Direction.RIGHT, m)] = [] := by
  simp [sideOf]

theorem sideOf_right_left {M : Type} (m : M) :
    sideOf Direction.RIGHT [(Direction.LEFT, m)] = [] := by
  simp [sideOf]

theorem sideOf_right_right {M : Type} (m : M) :
    sideOf Direction.RIGHT [(Direction.RIGHT, m)] = [m] := by
  simp [sideOf]

theorem replay_append {G M : Type} (P : Package G M) (init : M)
    (a b : List (Direction × M)) :
    replay P init (a ++ b) = replay P (replay P init a) b := by
  induction a generalizing init with
  | nil => rfl
  | cons e rest ih =>
    obtain ⟨d, m⟩ := e
    cases d <;> simp [replay, ih]

theorem replay_left {G M : Type} (P : Package G M) (init m : M) :
    replay P init [(Direction.LEFT, m)] = P.multiply m init := rfl

theorem replay_right {G M : Type} (P : Package G M) (init m : M) :
    replay P init [(Direction.RIGHT, m)] = P.multiply init m := rfl

theorem adv_refl {G M : Type} (P : Package G M) (s : Sched G M) : Adv P s s [] [] :=
  ⟨[], by simp, rfl, by simp [sideOf_nil], by simp [sideOf_nil], rfl, rfl⟩

theorem stepLeft_nil {G M : Type} (P : Package G M) (s : Sched G M) (h : s.it1 = []) :
    stepLeft P s = s := by
  unfold stepLeft
  rw [h]

theorem stepRight_nil {G M : Type} (P : Package G M) (s : Sched G M) (h : s.it2 = []) :
    stepRight P s = s := by
  unfold stepRight
  rw [h]

theorem stepLeft_cons {G M : Type} (P : Package G M) (s : Sched G M) (g : G) (rest : List G)
    (h : s.it1 = g :: rest) :
    stepLeft P s =
      { s with
        it1 := rest
        result := P.multiply (P.getDD g s.perm1).1 s.result
        perm1 := (P.getDD g s.perm1).2
        folded := s.folded ++ [(Direction.LEFT, (P.getDD g s.perm1).1)] } := by
  unfold stepLeft
  rw [h]
  rfl

theorem stepRight_cons {G M : Type} (P : Package G M) (s : Sched G M) (g : G)
    (rest : List G) (h : s.it2 = g :: rest) :
    stepRight P s =
      { s with
        it2 := rest
        result := P.multiply s.result (P.getInverseDD g s.perm2).1
        perm2 := (P.getInverseDD g s.perm2).2
        folded := s.folded ++ [(Direction.RIGHT, (P.getInverseDD g s.perm2).1)] } := by
  unfold stepRight
  rw [h]
  rfl

theorem adv_stepLeft {G M : Type} (P : Package G M) (s0 s : Sched G M) (pr : List M)
    (h : Adv P s0 s [] pr) : Adv P s0 (stepLeft P s) [] pr := by
  cases hit : s.it1 with
  | nil => rw [stepLeft_nil P s hit]; exact h
  | cons g rest =>
    obtain ⟨ev, hf, hr, hl, hrr, hp1, hp2⟩ := h
    rw [stepLeft_cons P s g rest hit]
    refine ⟨ev ++ [(Direction.LEFT, (P.getDD g s.perm1).1)], ?_, ?_, ?_, ?_, ?_, ?_⟩
    · simp [hf]
    · simp [replay_append, replay_left, hr]
    · rw [hl, hit]
      simp [sideOf_append, sideOf_left_left, leftDDs]
    · rw [hrr]
      simp [sideOf_append, sideOf_right_left]
    · rw [hp1, hit]
      simp [leftPerm]
    · exact hp2

theorem adv_stepRight {G M : Type} (P : Package G M) (s0 s : Sched G M) (pl : List M)
    (h : Adv P s0 s pl []) : Adv P s0 (stepRight P s) pl [] := by
  cases hit : s.it2 with
  | nil => rw [stepRight_nil P s hit]; exact h
  | cons g rest =>
    obtain ⟨ev, hf, hr, hl, hrr, hp1, hp2⟩ := h
    rw [stepRight_cons P s g rest hit]
    refine ⟨ev ++ [(Direction.RIGHT, (P.getInverseDD g s.perm2).1)], ?_, ?_, ?_, ?_, ?_, ?_⟩
    · simp [hf]
    · simp [replay_append, replay_right, hr]
    · rw [hl]
      simp [sideOf_append, sideOf_left_right]
    · rw [hrr, hit]
      simp [sideOf_append, sideOf_right_right, rightDDs]
    · exact hp1
    · rw [hp2, hit]
      simp [rightPerm]

theorem stepLeft_it2 {G M : Type} (P : Package G M) (s : Sched G M) :
    (stepLeft P s).it2 = s.it2 := by
  cases hit : s.it1 with
  | nil => rw [stepLeft_nil P s hit]
  | cons g rest => rw [stepLeft_cons P s g rest hit]

theorem stepRight_it1 {G M : Type} (P : Package G M) (s : Sched G M) :
    (stepRight P s).it1 = s.it1 := by
  cases hit : s.it2 with
  | nil => rw [stepRight_nil P s hit]
  | cons g rest => rw [stepRight_cons P s g rest hit]

theorem stepLeft_it1 {G M : Type} (P : Package G M) (s : Sched G M) :
    (stepLeft P s).it1 = s.it1.tail := by
  cases hit : s.it1 with
  | nil => rw [stepLeft_nil P s hit, hit]; rfl
  | cons g rest => rw [stepLeft_cons P s g rest hit]; rfl

theorem stepRight_it2 {G M : Type} (P : Package G M) (s : Sched G M) :
    (stepRight P s).it2 = s.it2.tail := by
  cases hit : s.it2 with
  | nil => rw [stepRight_nil P s hit, hit]; rfl
  | cons g rest => rw [stepRight_cons P s g rest hit]; rfl

theorem forLeft_it1 {G M : Type} (P : Package G M) (k : Nat) (s : Sched G M) :
    (forLeft P k s).it1 = s.it1.drop k := by
  induction k generalizing s with
  | zero => simp [forLeft]
  | succ k ih =>
    cases hit : s.it1 with
    | nil => simp [forLeft, hit]
    | cons g rest => simp [forLeft, hit, ih, stepLeft_it1]

theorem forLeft_it2 {G M : Type} (P : Package G M) (k : Nat) (s : Sched G M) :
    (forLeft P k s).it2 = s.it2 := by
  induction k generalizing s with
  | zero => simp [forLeft]
  | succ k ih =>
    cases hit : s.it1 with
    | nil => simp [forLeft, hit]
    | cons g rest => simp [forLeft, hit, ih, stepLeft_it2]

theorem forRight_it2 {G M : Type} (P : Package G M) (k : Nat) (s : Sched G M) :
    (forRight P k s).it2 = s.it2.drop k := by
  induction k generalizing s with
  | zero => simp [forRight]
  | succ k ih =>
    cases hit : s.it2 with
    | nil => simp [forRight, hit]
    | cons g rest => simp [forRight, hit, ih, stepRight_it2]

theorem forRight_it1 {G M : Type} (P : Package G M) (k : Nat) (s : Sched G M) :
    (forRight P k s).it1 = s.it1 := by
  induction k generalizing s with
  | zero => simp [forRight]
  | succ k ih =>
    cases hit : s.it2 with
    | nil => simp [forRight, hit]
    | cons g rest => simp [forRight, hit, ih, stepRight_it1]

theorem adv_forLeft {G M : Type} (P : Package G M) (s0 : Sched G M) (k : Nat)
    (s : Sched G M) (pr : List M) (h : Adv P s0 s [] pr) : Adv P s0 (forLeft P k s) [] pr := by
  induction k generalizing s with
  | zero => simpa [forLeft] using h
  | succ k ih =>
    unfold forLeft
    split
    · exact ih _ (adv_stepLeft P s0 s pr h)
    · exact h

theorem adv_forRight {G M : Type} (P : Package G M) (s0 : Sched G M) (k : Nat)
    (s : Sched G M) (pl : List M) (h : Adv P s0 s pl []) :
    Adv P s0 (forRight P k s) pl [] := by
  induction k generalizing s with
  | zero => simpa [forRight] using h
  | succ k ih =>
    unfold forRight
    split
    · exact ih _ (adv_stepRight P s0 s pl h)
    · exact h

theorem adv_naiveLoop {G M : Type} (P : Package G M) (s0 : Sched G M) (fuel : Nat)
    (s : Sched G M) (h : Adv P s0 s [] []) : Adv P s0 (naiveLoop P fuel s) [] [] := by
  induction fuel generalizing s with
  | zero => simpa [naiveLoop] using h
  | succ fuel ih =>
    unfold naiveLoop
    split
    · exact ih _ (adv_stepRight P s0 _ [] (adv_stepLeft P s0 s [] h))
    · exact h

theorem adv_proportionalLoop {G M : Type} (P : Package G M) (s0 : Sched G M)
    (r1 r2 fuel : Nat) (s : Sched G M) (h : Adv P s0 s [] []) :
    Adv P s0 (proportionalLoop P r1 r2 fuel s) [] [] := by
  induction fuel generalizing s with
  | zero => simpa [proportionalLoop] using h
  | succ fuel ih =>
    unfold proportionalLoop
    split
    · exact ih _ (adv_forRight P s0 r2 _ [] (adv_forLeft P s0 r1 s [] h))
    · exact h

theorem forLeft_eq {G M : Type} (P : Package G M) (k : Nat) (s : Sched G M) :
    forLeft P k s =
      { s with
        it1 := s.it1.drop k
        result := replay P s.result
          ((leftDDs P (s.it1.take k) s.perm1).map (Prod.mk Direction.LEFT))
        perm1 := leftPerm P (s.it1.take k) s.perm1
        folded := s.folded ++ (leftDDs P (s.it1.take k) s.perm1).map (Prod.mk Direction.LEFT) } := by
  induction k generalizing s with
  | zero =>
    obtain ⟨it1, it2, result, perm1, perm2, folded⟩ := s
    simp [forLeft, leftDDs, leftPerm, replay]
  | succ k ih =>
    obtain ⟨it1, it2, result, perm1, perm2, folded⟩ := s
    cases it1 with
    | nil => simp [forLeft, leftDDs, leftPerm, replay]
    | cons g rest =>
      simp only [forLeft, List.isEmpty_cons, Bool.not_false, if_true]
      rw [ih]
      simp [stepLeft, applyGate, leftDDs, leftPerm, replay]

theorem forRight_eq {G M : Type} (P : Package G M) (k : Nat) (s : Sched G M) :
    forRight P k s =
      { s with
        it2 := s.it2.drop k
        result := replay P s.result
          ((rightDDs P (s.it2.take k) s.perm2).map (Prod.mk Direction.RIGHT))
        perm2 := rightPerm P (s.it2.take k) s.perm2
        folded := s.folded ++
          (rightDDs P (s.it2.take k) s.perm2).map (Prod.mk Direction.RIGHT) } := by
  induction k generalizing s with
  | zero =>
    obtain ⟨it1, it2, result, perm1, perm2, folded⟩ := s
    simp [forRight, rightDDs, rightPerm, replay]
  | succ k ih =>
    obtain ⟨it1, it2, result, perm1, perm2, folded⟩ := s
    cases it2 with
    | nil => simp [forRight, rightDDs, rightPerm, replay]
    | cons g rest =>
      simp only [forRight, List.isEmpty_cons, Bool.not_false, if_true]
      rw [ih]
      simp [stepRight, applyGate, rightDDs, rightPerm, replay]

/-- What one round of `checkProportional` does to the cursors, the record and the
result. -/
theorem proportionalRound_eq {G M : Type} (P : Package G M) (r1 r2 : Nat) (s : Sched G M) :
    (proportionalRound P r1 r2 s).it1 = s.it1.drop r1 ∧
    (proportionalRound P r1 r2 s).it2 = s.it2.drop r2 ∧
    (proportionalRound P r1 r2 s).folded = s.folded ++ roundRecord P r1 r2 s ∧
    (proportionalRound P r1 r2 s).result = replay P s.result (roundRecord P r1 r2 s) := by
  unfold proportionalRound roundRecord
  rw [forRight_eq, forLeft_eq]
  simp [replay_append]

theorem bothPending_iff {G M : Type} (s : Sched G M) :
    bothPending s = true ↔ 1 ≤ s.it1.length ∧ 1 ≤ s.it2.length := by
  unfold bothPending
  cases s.it1 <;> cases s.it2 <;> simp

theorem proportionalRound_lt {G M : Type} (P : Package G M) (r1 r2 : Nat) (s : Sched G M)
    (hr : 1 ≤ r1 ∨ 1 ≤ r2) (hb : bothPending s = true) :
    (proportionalRound P r1 r2 s).it1.length + (proportionalRound P r1 r2 s).it2.length <
      s.it1.length + s.it2.length := by
  obtain ⟨h1, h2, _, _⟩ := proportionalRound_eq P r1 r2 s
  rw [h1, h2, List.length_drop, List.length_drop]
  have := (bothPending_iff s).1 hb
  omega

/-- The loop of `checkProportional` does not depend on the unrolling bound once the bound
covers the gates still pending. -/
theorem proportionalLoop_fuel {G M : Type} (P : Package G M) (r1 r2 : Nat)
    (hr : 1 ≤ r1 ∨ 1 ≤ r2) (fuel fuel2 : Nat) (s : Sched G M)
    (h1 : s.it1.length + s.it2.length ≤ fuel) (h2 : s.it1.length + s.it2.length ≤ fuel2) :
    proportionalLoop P r1 r2 fuel s = proportionalLoop P r1 r2 fuel2 s := by
  induction fuel generalizing fuel2 s with
  | zero =>
    have hb : bothPending s = false := by
      cases hbp : bothPending s with
      | false => rfl
      | true => have := (bothPending_iff s).1 hbp; omega
    cases fuel2 <;> simp [proportionalLoop, hb]
  | succ fuel ih =>
    cases hbp : bothPending s with
    | false => cases fuel2 <;> simp [proportionalLoop, hbp]
    | true =>
      have hlt := proportionalRound_lt P r1 r2 s hr hbp
      cases fuel2 with
      | zero => have := (bothPending_iff s).1 hbp; omega
      | succ fuel2 =>
        simp only [proportionalLoop, hbp, if_true]
        exact ih fuel2 _ (by omega) (by omega)

theorem proportionalLoop_exit {G M : Type} (P : Package G M) (r1 r2 : Nat)
    (hr : 1 ≤ r1 ∨ 1 ≤ r2) (fuel : Nat) (s : Sched G M)
    (h1 : s.it1.length + s.it2.length ≤ fuel) :
    bothPending (proportionalLoop P r1 r2 fuel s) = false := by
  induction fuel generalizing s with
  | zero =>
    cases hbp : bothPending s with
    | false => simpa [proportionalLoop] using hbp
    | true => have := (bothPending_iff s).1 hbp; omega
  | succ fuel ih =>
    cases hbp : bothPending s with
    | false => simp [proportionalLoop, hbp]
    | true =>
      have hlt := proportionalRound_lt P r1 r2 s hr hbp
      simp only [proportionalLoop, hbp, if_true]
      exact ih _ (by omega)

theorem ratio_one (n1 n2 : Nat) : 1 ≤ ratio1 n1 n2 ∨ 1 ≤ ratio2 n1 n2 := by
  unfold ratio1 ratio2
  by_cases h : n1 > n2 <;> simp [h]

/-- The `while` loop of `checkProportional`, as the equation that characterises it: a
round, then the loop again, as long as both cursors have gates. -/
theorem checkProportional_unfold {G M : Type} (P : Package G M) (c : EquivalenceChecker G)
    (s : Sched G M) :
    checkProportional P c s =
      if bothPending s then
        checkProportional P c
          (proportionalRound P (ratio1 c.qc1.getNops c.qc2.getNops)
            (ratio2 c.qc1.getNops c.qc2.getNops) s)
      else s := by
  have hr := ratio_one c.qc1.getNops c.qc2.getNops
  cases hbp : bothPending s with
  | false =>
    unfold checkProportional
    cases hl : s.it1.length + s.it2.length <;> simp [proportionalLoop, hbp]
  | true =>
    have hlt := proportionalRound_lt P _ _ s hr hbp
    simp only [if_true]
    unfold checkProportional
    cases hl : s.it1.length + s.it2.length with
    | zero => have := (bothPending_iff s).1 hbp; omega
    | succ k =>
      simp only [proportionalLoop, hbp, if_true]
      exact proportionalLoop_fuel P _ _ hr _ _ _ (by omega) (by omega)

theorem roundTiesEven_ge (a b : Nat) : a / b ≤ roundTiesEven a b := by
  unfold roundTiesEven
  split_ifs <;> omega

theorem roundTiesEven_le (a b : Nat) : roundTiesEven a b ≤ a / b + 1 := by
  unfold roundTiesEven
  split_ifs <;> omega

theorem roundTiesEven_down (a b : Nat) (h : 2 * (a % b) < b) :
    roundTiesEven a b = a / b := by
  unfold roundTiesEven
  rw [if_pos h]

/-- Rounding a quotient to a grid finer than the reciprocal of twice the divisor does not
move it across a half: `std::round` of the rounded quotient is the rounding of the exact
one. -/
theorem stdRound_fine (a b S : Nat) (hb : 0 < b) (hS : b < 2 * S) :
    (2 * roundTiesEven (a * (2 * S)) b + 2 * S) / (2 * (2 * S)) = (2 * a + b) / (2 * b) := by
  have hN := Nat.div_add_mod (a * (2 * S)) b
  have hr := Nat.mod_lt (a * (2 * S)) hb
  have F1 : 2 * b * ((2 * a + b) / (2 * b)) ≤ 2 * a + b := Nat.mul_div_le _ _
  have F2 : 2 * a + b < 2 * b * ((2 * a + b) / (2 * b)) + 2 * b :=
    Nat.lt_mul_div_succ _ (by omega)
  generalize (2 * a + b) / (2 * b) = R at F1 F2
  have hge := roundTiesEven_ge (a * (2 * S)) b
  have hle := roundTiesEven_le (a * (2 * S)) b
  have hdown := roundTiesEven_down (a * (2 * S)) b
  generalize roundTiesEven (a * (2 * S)) b = k at hge hle hdown
  generalize a * (2 * S) / b = q at hN hge hle hdown
  generalize a * (2 * S) % b = r at hN hr hdown
  have lower : 2 * S * R ≤ q + S := by
    by_contra hc
    have hc2 : q + S + 1 ≤ 2 * S * R := by omega
    have m1 := Nat.mul_le_mul_left b hc2
    have m2 := Nat.mul_le_mul_left S F1
    nlinarith
  have upper : k < 2 * S * R + S := by
    have m2 : S * (2 * a + b + 1) ≤ S * (2 * b * R + 2 * b) :=
      Nat.mul_le_mul_left S (by omega)
    have hq : q < 2 * S * R + S := by
      by_contra hc
      have hc2 : 2 * S * R + S ≤ q := by omega
      have m1 := Nat.mul_le_mul_left b hc2
      nlinarith
    by_cases hq2 : q + 1 < 2 * S * R + S
    · omega
    · have hq3 : q + 1 = 2 * S * R + S := by omega
      have hr2 : 2 * r < b := by
        have m3 : b * (q + 1) = b * (2 * S * R + S) := by rw [hq3]
        nlinarith
      rw [hdown hr2]
      exact hq
  apply Nat.div_eq_of_lt_le
  · nlinarith
  · nlinarith

/-- For gate counts below `2 ^ 52` whose rounded quotient fits an `unsigned int`, the
binary64 computation of `ratio` gives the rounding of the exact quotient. -/
theorem gateRatio_exact (n1 n2 : Nat) (h1 : 1 ≤ n1) (h2 : 1 ≤ n2)
    (hmax : max n1 n2 < 2 ^ 52)
    (hfit : (2 * max n1 n2 + min n1 n2) / (2 * min n1 n2) < 2 ^ 32) :
    gateRatio n1 n2 = (2 * max n1 n2 + min n1 n2) / (2 * min n1 n2) := by
  have hb : 1 ≤ min n1 n2 := le_min h1 h2
  have hab : min n1 n2 ≤ max n1 n2 := le_trans (min_le_left _ _) (le_max_left _ _)
  unfold gateRatio
  generalize max n1 n2 = a at hmax hfit hab ⊢
  generalize min n1 n2 = b at hfit hb hab ⊢
  have ta : toDouble a = a := by
    unfold toDouble
    rw [if_pos (by omega)]
  have tb : toDouble b = b := by
    unfold toDouble
    rw [if_pos (by omega)]
  have hq : a / b ≠ 0 := by
    have : 1 ≤ a / b := (Nat.one_le_div_iff (by omega)).2 hab
    omega
  have hqlt : a / b < 2 ^ 52 := lt_of_le_of_lt (Nat.div_le_self _ _) hmax
  have hE : (a / b).log2 < 52 := (Nat.log2_lt hq).2 hqlt
  have hpow : 2 ^ (a / b).log2 * b ≤ a := by
    have := Nat.log2_self_le hq
    exact (Nat.le_div_iff_mul_le (by omega)).1 this
  obtain ⟨s, hs⟩ : ∃ s, 52 - (a / b).log2 = s + 1 := ⟨52 - (a / b).log2 - 1, by omega⟩
  have hsplit : 2 ^ 52 = 2 ^ (a / b).log2 * (2 * 2 ^ s) := by
    rw [← pow_succ', ← pow_add]
    congr 1
    omega
  have hS : b < 2 * 2 ^ s := by
    have hpos : 0 < 2 ^ (a / b).log2 := pow_pos (by norm_num) _
    have : 2 ^ (a / b).log2 * b < 2 ^ (a / b).log2 * (2 * 2 ^ s) := by
      rw [← hsplit]
      omega
    exact Nat.lt_of_mul_lt_mul_left this
  rw [ta, tb, if_neg (by omega)]
  unfold divDouble stdRound
  rw [if_pos (by omega), hs, pow_succ']
  dsimp only
  rw [stdRound_fine a b (2 ^ s) (by omega) hS]
  exact Nat.mod_eq_of_lt hfit

/-- The integer quotient `(2 * max + min) / (2 * min)` is `round(max / min)`, halves away
from zero. -/
theorem exactRatio_round (n1 n2 : Nat) (h1 : 1 ≤ n1) (h2 : 1 ≤ n2) :
    (((2 * max n1 n2 + min n1 n2) / (2 * min n1 n2) : ℕ) : ℤ) =
      round ((max n1 n2 : ℚ) / (min n1 n2 : ℚ)) := by
  have hmin : (0 : ℚ) < ((min n1 n2 : ℕ) : ℚ) := by
    have : 1 ≤ min n1 n2 := le_min h1 h2
    exact_mod_cast this
  have hx : ((max n1 n2 : ℕ) : ℚ) / ((min n1 n2 : ℕ) : ℚ) + 1 / 2 =
      ((2 * max n1 n2 + min n1 n2 : ℕ) : ℚ) / ((2 * min n1 n2 : ℕ) : ℚ) := by
    push_cast
    field_simp
    ring
  have hcast : ((max n1 n2 : ℚ) / (min n1 n2 : ℚ)) =
      ((max n1 n2 : ℕ) : ℚ) / ((min n1 n2 : ℕ) : ℚ) := by
    push_cast
    rfl
  rw [hcast, round_eq, hx, Rat.floor_natCast_div_natCast]
  rfl

/-- In the range of `gateRatio_exact` the computed ratio is `round(max / min)`. -/
theorem gateRatio_round (n1 n2 : Nat) (h1 : 1 ≤ n1) (h2 : 1 ≤ n2)
    (hmax : max n1 n2 < 2 ^ 52)
    (hfit : (2 * max n1 n2 + min n1 n2) / (2 * min n1 n2) < 2 ^ 32) :
    (gateRatio n1 n2 : ℤ) = round ((max n1 n2 : ℚ) / (min n1 n2 : ℚ)) := by
  rw [gateRatio_exact n1 n2 h1 h2 hmax hfit]
  exact exactRatio_round n1 n2 h1 h2

theorem toDouble_small (n : Nat) (h : n < 2 ^ 53) : toDouble n = n := by
  unfold toDouble
  rw [if_pos h]

theorem log2_eq (n k : Nat) (h1 : 2 ^ k ≤ n) (h2 : n < 2 ^ (k + 1)) : Nat.log2 n = k := by
  have hn : n ≠ 0 := by
    have : 0 < 2 ^ k := pow_pos (by norm_num) _
    omega
  have hle : k ≤ Nat.log2 n := (Nat.le_log2 hn).2 h1
  have hlt : Nat.log2 n < k + 1 := (Nat.log2_lt hn).2 h2
  omega

theorem gateRatio_ten_two : gateRatio 10 2 = 5 := by
  have hl : Nat.log2 5 = 2 := log2_eq 5 2 (by decide) (by decide)
  unfold gateRatio
  rw [show max 10 2 = 10 from rfl, show min 10 2 = 2 from rfl,
    toDouble_small 10 (by decide), toDouble_small 2 (by decide), if_neg (by decide)]
  unfold divDouble
  rw [show 10 / 2 = 5 from rfl, hl, if_pos (by decide)]
  decide

theorem gateRatio_big : gateRatio bigLeft bigRight = 2 := by
  have hmax : max bigLeft bigRight = bigLeft := by decide
  have hmin : min bigLeft bigRight = bigRight := by decide
  have hq : bigLeft / bigRight = 1 := by decide
  have hl : Nat.log2 1 = 0 := log2_eq 1 0 (by decide) (by decide)
  unfold gateRatio
  rw [hmax, hmin, toDouble_small bigLeft (by decide), toDouble_small bigRight (by decide),
    if_neg (by decide)]
  unfold divDouble
  rw [hq, hl, if_pos (by decide)]
  decide

theorem ratio1_ten_two : ratio1 10 2 = 5 := by
  rw [ratio1, if_pos (by decide), gateRatio_ten_two]

theorem ratio2_ten_two : ratio2 10 2 = 1 := by
  rw [ratio2, if_pos (by decide)]

theorem leftDDs_length {G M : Type} (P : Package G M) (gs : List G) (perm : Permutation) :
    (leftDDs P gs perm).length = gs.length := by
  induction gs generalizing perm with
  | nil => rfl
  | cons g gs ih => simp [leftDDs, ih]

theorem rightDDs_length {G M : Type} (P : Package G M) (gs : List G) (perm : Permutation) :
    (rightDDs P gs perm).length = gs.length := by
  induction gs generalizing perm with
  | nil => rfl
  | cons g gs ih => simp [rightDDs, ih]

theorem sideOf_map_same {M : Type} (d : Direction) (xs : List M) :
    sideOf d (xs.map (Prod.mk d)) = xs := by
  induction xs with
  | nil => rfl
  | cons x xs ih =>
    simp only [sideOf, List.map_cons, List.filter_cons, decide_True, if_true] at ih ⊢
    rw [ih]

theorem sideOf_map_other {M : Type} (d d2 : Direction) (h : d2 ≠ d) (xs : List M) :
    sideOf d (xs.map (Prod.mk d2)) = [] := by
  induction xs with
  | nil => rfl
  | cons x xs ih =>
    simp only [sideOf, List.map_cons, List.filter_cons, h, decide_False] at ih ⊢
    simpa using ih

/-- The number of gates that one round folds on either side. -/
theorem roundRecord_counts {G M : Type} (P : Package G M) (r1 r2 : Nat) (s : Sched G M) :
    (sideOf Direction.LEFT (roundRecord P r1 r2 s)).length = min r1 s.it1.length ∧
    (sideOf Direction.RIGHT (roundRecord P r1 r2 s)).length = min r2 s.it2.length := by
  unfold roundRecord
  rw [sideOf_append, sideOf_append, sideOf_map_same, sideOf_map_same,
    sideOf_map_other Direction.LEFT Direction.RIGHT (by decide),
    sideOf_map_other Direction.RIGHT Direction.LEFT (by decide)]
  simp [leftDDs_length, rightDDs_length]

/-- The sides of the operands of one round, in the order of folding. -/
theorem roundRecord_sides {G M : Type} (P : Package G M) (r1 r2 : Nat) (s : Sched G M) :
    (roundRecord P r1 r2 s).map Prod.fst =
      List.replicate (min r1 s.it1.length) Direction.LEFT ++
        List.replicate (min r2 s.it2.length) Direction.RIGHT := by
  unfold roundRecord
  rw [List.map_append, List.map_map, List.map_map]
  have e1 : (Prod.fst ∘ Prod.mk Direction.LEFT : M → Direction) = fun _ => Direction.LEFT :=
    rfl
  have e2 : (Prod.fst ∘ Prod.mk Direction.RIGHT : M → Direction) =
      fun _ => Direction.RIGHT := rfl
  rw [e1, e2, List.map_const', List.map_const', leftDDs_length, rightDDs_length]
  simp

/-- The drain loops leave a state with both cursors exhausted as it is. -/
theorem finish_exhausted {G M : Type} (P : Package G M) (s : Sched G M) (h1 : s.it1 = [])
    (h2 : s.it2 = []) : finishSecond P (finishFirst P s) = s := by
  obtain ⟨it1, it2, result, perm1, perm2, folded⟩ := s
  simp only at h1 h2
  subst h1 h2
  rfl

/-! ### Lookahead -/

theorem adv_fetchLeft {G M : Type} (P : Package G M) (s0 : Sched G M)
    (st st1 : Lookahead G M) (hf : fetchLeft P st = some st1)
    (h : Adv P s0 st.s (pendL st) (pendR st)) :
    Adv P s0 st1.s (pendL st1) (pendR st1) ∧ st1.cachedLeft = true ∧
      st1.cachedRight = st.cachedRight ∧ st1.s.it2 = st.s.it2 := by
  unfold fetchLeft at hf
  by_cases hc : st.cachedLeft = true
  · simp [hc] at hf
    subst hf
    exact ⟨h, hc, rfl, rfl⟩
  · simp only [hc] at hf
    cases hit : st.s.it1 with
    | nil => simp [hit] at hf
    | cons g rest =>
      simp only [hit] at hf
      by_cases hm : P.getType g = OpType.Measure
      · simp [hm] at hf
      · simp only [hm, if_false, Bool.false_eq_true] at hf
        injection hf with hf
        subst hf
        obtain ⟨ev, hfo, hr, hl, hrr, hp1, hp2⟩ := h
        refine ⟨⟨ev, hfo, hr, ?_, ?_, ?_, hp2⟩, rfl, rfl, rfl⟩
        · rw [hl, hit]
          simp [pendL, hc, leftDDs]
        · rw [hrr]
          simp [pendR]
        · rw [hp1, hit]
          simp [leftPerm]

theorem adv_fetchRight {G M : Type} (P : Package G M) (s0 : Sched G M)
    (st st1 : Lookahead G M) (hf : fetchRight P st = some st1)
    (h : Adv P s0 st.s (pendL st) (pendR st)) :
    Adv P s0 st1.s (pendL st1) (pendR st1) ∧ st1.cachedRight = true ∧
      st1.cachedLeft = st.cachedLeft ∧ st1.s.it1 = st.s.it1 := by
  unfold fetchRight at hf
  by_cases hc : st.cachedRight = true
  · simp [hc] at hf
    subst hf
    exact ⟨h, hc, rfl, rfl⟩
  · simp only [hc] at hf
    cases hit : st.s.it2 with
    | nil => simp [hit] at hf
    | cons g rest =>
      simp only [hit] at hf
      by_cases hm : P.getType g = OpType.Measure
      · simp [hm] at hf
      · simp only [hm, if_false, Bool.false_eq_true] at hf
        injection hf with hf
        subst hf
        obtain ⟨ev, hfo, hr, hl, hrr, hp1, hp2⟩ := h
        refine ⟨⟨ev, hfo, hr, ?_, ?_, hp1, ?_⟩, rfl, rfl, rfl⟩
        · rw [hl]
          simp [pendL]
        · rw [hrr, hit]
          simp [pendR, hc, rightDDs]
        · rw [hp2, hit]
          simp [rightPerm]

theorem adv_commit {G M : Type} (P : Package G M) (s0 : Sched G M) (st : Lookahead G M)
    (hl : st.cachedLeft = true) (hr : st.cachedRight = true)
    (h : Adv P s0 st.s (pendL st) (pendR st)) :
    Adv P s0 (commit P st).s (pendL (commit P st)) (pendR (commit P st)) := by
  obtain ⟨ev, hfo, hres, hls, hrs, hp1, hp2⟩ := h
  unfold commit
  by_cases hsz : P.size (P.multiply st.left st.s.result) ≤
      P.size (P.multiply st.s.result st.right)
  · simp only [hsz, if_true]
    refine ⟨ev ++ [(Direction.LEFT, st.left)], ?_, ?_, ?_, ?_, hp1, hp2⟩
    · simp [hfo]
    · simp [replay_append, replay_left, hres]
    · rw [hls]
      simp [pendL, hl, sideOf_append, sideOf_left_left]
    · rw [hrs]
      simp [pendR, hr, sideOf_append, sideOf_right_left]
  · simp only [hsz, if_false]
    refine ⟨ev ++ [(Direction.RIGHT, st.right)], ?_, ?_, ?_, ?_, hp1, hp2⟩
    · simp [hfo]
    · simp [replay_append, replay_right, hres]
    · rw [hls]
      simp [pendL, hl, sideOf_append, sideOf_left_right]
    · rw [hrs]
      simp [pendR, hr, sideOf_append, sideOf_right_right]

theorem adv_lookaheadIter {G M : Type} (P : Package G M) (s0 : Sched G M)
    (st : Lookahead G M) (h : Adv P s0 st.s (pendL st) (pendR st)) :
    Adv P s0 (lookaheadIter P st).1.s (pendL (lookaheadIter P st).1)
      (pendR (lookaheadIter P st).1) := by
  unfold lookaheadIter
  cases h1 : fetchLeft P st with
  | none => exact h
  | some st1 =>
    obtain ⟨a1, c1, _, _⟩ := adv_fetchLeft P s0 st st1 h1 h
    dsimp only
    cases h2 : fetchRight P st1 with
    | none => exact a1
    | some st2 =>
      obtain ⟨a2, c2, c3, _⟩ := adv_fetchRight P s0 st1 st2 h2 a1
      exact adv_commit P s0 st2 (c3.trans c1) c2 a2

theorem adv_lookaheadLoop {G M : Type} (P : Package G M) (s0 : Sched G M) (fuel : Nat)
    (st : Lookahead G M) (h : Adv P s0 st.s (pendL st) (pendR st)) :
    Adv P s0 (lookaheadLoop P fuel st).s (pendL (lookaheadLoop P fuel st))
      (pendR (lookaheadLoop P fuel st)) := by
  induction fuel generalizing st with
  | zero => simpa [lookaheadLoop] using h
  | succ fuel ih =>
    unfold lookaheadLoop
    split
    · split
      · exact adv_lookaheadIter P s0 st h
      · exact ih _ (adv_lookaheadIter P s0 st h)
    · exact h

theorem adv_flushLeft {G M : Type} (P : Package G M) (s0 : Sched G M) (st : Lookahead G M)
    (h : Adv P s0 st.s (pendL st) (pendR st)) :
    Adv P s0 (flushLeft P st).s [] (pendR (flushLeft P st)) := by
  obtain ⟨ev, hfo, hres, hls, hrs, hp1, hp2⟩ := h
  unfold flushLeft
  by_cases hc : st.cachedLeft = true
  · simp only [hc, if_true]
    refine ⟨ev ++ [(Direction.LEFT, st.left)], ?_, ?_, ?_, ?_, hp1, hp2⟩
    · simp [hfo]
    · simp [replay_append, replay_left, hres]
    · rw [hls]
      simp [pendL, hc, sideOf_append, sideOf_left_left]
    · rw [hrs]
      simp [pendR, sideOf_append, sideOf_right_left]
  · simp only [hc, if_false, Bool.false_eq_true]
    refine ⟨ev, hfo, hres, ?_, hrs, hp1, hp2⟩
    rw [hls]
    simp [pendL, hc]

theorem adv_flushRight {G M : Type} (P : Package G M) (s0 : Sched G M)
    (st : Lookahead G M) (h : Adv P s0 st.s [] (pendR st)) :
    Adv P s0 (flushRight P st).s [] [] := by
  obtain ⟨ev, hfo, hres, hls, hrs, hp1, hp2⟩ := h
  unfold flushRight
  by_cases hc : st.cachedRight = true
  · simp only [hc, if_true]
    refine ⟨ev ++ [(Direction.RIGHT, st.right)], ?_, ?_, ?_, ?_, hp1, hp2⟩
    · simp [hfo]
    · simp [replay_append, replay_right, hres]
    · rw [hls]
      simp [sideOf_append, sideOf_left_right]
    · rw [hrs]
      simp [pendR, hc, sideOf_append, sideOf_right_right]
  · simp only [hc, if_false, Bool.false_eq_true]
    refine ⟨ev, hfo, hres, hls, ?_, hp1, hp2⟩
    rw [hrs]
    simp [pendR, hc]

theorem adv_checkNaive {G M : Type} (P : Package G M) (s : Sched G M) :
    Adv P s (checkNaive P s) [] [] :=
  adv_naiveLoop P s _ s (adv_refl P s)

theorem adv_checkProportional {G M : Type} (P : Package G M) (c : EquivalenceChecker G)
    (s : Sched G M) : Adv P s (checkProportional P c s) [] [] :=
  adv_proportionalLoop P s _ _ _ s (adv_refl P s)

theorem adv_checkLookahead {G M : Type} (P : Package G M) (s : Sched G M) :
    Adv P s (checkLookahead P s) [] [] := by
  unfold checkLookahead
  apply adv_flushRight
  apply adv_flushLeft
  apply adv_lookaheadLoop
  simpa [lookaheadInit, pendL, pendR] using adv_refl P s

/-- Draining both sides from a state without pending operands completes the run. -/
theorem complete_of_adv {G M : Type} (P : Package G M) (s0 s : Sched G M)
    (h : Adv P s0 s [] []) : Complete P s0 (finishSecond P (finishFirst P s)) := by
  have h1 : Adv P s0 (finishFirst P s) [] [] := adv_forLeft P s0 _ s [] h
  have e1 : (finishFirst P s).it1 = [] := by
    unfold finishFirst
    rw [forLeft_it1]
    simp
  have h2 : Adv P s0 (finishSecond P (finishFirst P s)) [] [] := adv_forRight P s0 _ _ [] h1
  have e2 : (finishSecond P (finishFirst P s)).it2 = [] := by
    unfold finishSecond
    rw [forRight_it2]
    simp
  have e3 : (finishSecond P (finishFirst P s)).it1 = [] := by
    unfold finishSecond
    rw [forRight_it1]
    exact e1
  obtain ⟨ev, hfo, hres, hls, hrs, hp1, hp2⟩ := h2
  refine ⟨e3, e2, ev, hfo, hres, ?_, ?_, ?_, ?_⟩
  · rw [hls, e3]
    simp [leftDDs]
  · rw [hrs, e2]
    simp [rightDDs]
  · rw [hp1, e3]
    rfl
  · rw [hp2, e2]
    rfl

/-! ### The algebra of the running product -/

theorem foldl_left_mul {G M : Type} (P : Package G M)
    (assoc : ∀ a b c : M, P.multiply (P.multiply a b) c = P.multiply a (P.multiply b c))
    (ls : List M) (x r : M) :
    ls.foldl (fun acc l => P.multiply l acc) (P.multiply x r) =
      P.multiply (ls.foldl (fun acc l => P.multiply l acc) x) r := by
  induction ls generalizing x with
  | nil => rfl
  | cons l ls ih =>
    simp only [List.foldl_cons]
    rw [← assoc, ih]

theorem sandwich_cons_left {G M : Type} (P : Package G M) (l : M) (ls : List M) (x : M)
    (rs : List M) : sandwich P (l :: ls) x rs = sandwich P ls (P.multiply l x) rs := rfl

theorem sandwich_cons_right {G M : Type} (P : Package G M)
    (assoc : ∀ a b c : M, P.multiply (P.multiply a b) c = P.multiply a (P.multiply b c))
    (ls : List M) (x r : M) (rs : List M) :
    sandwich P ls x (r :: rs) = sandwich P ls (P.multiply x r) rs := by
  unfold sandwich
  rw [List.foldl_cons, foldl_left_mul P assoc]

/-- With an associative product, folding a record gives the sandwich of its two sides. -/
theorem replay_eq_sandwich {G M : Type} (P : Package G M)
    (assoc : ∀ a b c : M, P.multiply (P.multiply a b) c = P.multiply a (P.multiply b c))
    (init : M) (ev : List (Direction × M)) :
    replay P init ev =
      sandwich P (sideOf Direction.LEFT ev) init (sideOf Direction.RIGHT ev) := by
  induction ev generalizing init with
  | nil => rfl
  | cons e rest ih =>
    obtain ⟨d, m⟩ := e
    cases d
    · have hl : sideOf Direction.LEFT ((Direction.LEFT, m) :: rest) =
          m :: sideOf Direction.LEFT rest := by simp [sideOf]
      have hr : sideOf Direction.RIGHT ((Direction.LEFT, m) :: rest) =
          sideOf Direction.RIGHT rest := by simp [sideOf]
      rw [hl, hr, sandwich_cons_left]
      exact ih _
    · have hl : sideOf Direction.LEFT ((Direction.RIGHT, m) :: rest) =
          sideOf Direction.LEFT rest := by simp [sideOf]
      have hr : sideOf Direction.RIGHT ((Direction.RIGHT, m) :: rest) =
          m :: sideOf Direction.RIGHT rest := by simp [sideOf]
      rw [hl, hr, sandwich_cons_right P assoc]
      exact ih _

/-- A completed run leaves the sandwich of all operands of both circuits. -/
theorem complete_result {G M : Type} (P : Package G M)
    (assoc : ∀ a b c : M, P.multiply (P.multiply a b) c = P.multiply a (P.multiply b c))
    (s0 s : Sched G M) (h : Complete P s0 s) :
    s.result = sandwich P (leftDDs P s0.it1 s0.perm1) s0.result (rightDDs P s0.it2 s0.perm2) := by
  obtain ⟨_, _, ev, _, hres, hl, hr, _, _⟩ := h
  rw [hres, replay_eq_sandwich P assoc, hl, hr]

/-! ### The unrolling bounds cover the loops -/

theorem naiveStep_lt {G M : Type} (P : Package G M) (s : Sched G M)
    (hb : bothPending s = true) :
    (stepRight P (stepLeft P s)).it1.length < s.it1.length := by
  have := (bothPending_iff s).1 hb
  rw [stepRight_it1, stepLeft_it1, List.length_tail]
  omega

theorem naiveLoop_fuel {G M : Type} (P : Package G M) (fuel fuel2 : Nat) (s : Sched G M)
    (h1 : s.it1.length ≤ fuel) (h2 : s.it1.length ≤ fuel2) :
    naiveLoop P fuel s = naiveLoop P fuel2 s := by
  induction fuel generalizing fuel2 s with
  | zero =>
    have hb : bothPending s = false := by
      cases hbp : bothPending s with
      | false => rfl
      | true => have := (bothPending_iff s).1 hbp; omega
    cases fuel2 <;> simp [naiveLoop, hb]
  | succ fuel ih =>
    cases hbp : bothPending s with
    | false => cases fuel2 <;> simp [naiveLoop, hbp]
    | true =>
      have hlt := naiveStep_lt P s hbp
      cases fuel2 with
      | zero => have := (bothPending_iff s).1 hbp; omega
      | succ fuel2 =>
        simp only [naiveLoop, hbp, if_true]
        exact ih fuel2 _ (by omega) (by omega)

/-- The `while` loop of `checkNaive`, as the equation that characterises it. -/
theorem checkNaive_unfold {G M : Type} (P : Package G M) (s : Sched G M) :
    checkNaive P s =
      if bothPending s then checkNaive P (stepRight P (stepLeft P s)) else s := by
  cases hbp : bothPending s with
  | false =>
    unfold checkNaive
    cases hl : s.it1.length <;> simp [naiveLoop, hbp]
  | true =>
    have hlt := naiveStep_lt P s hbp
    simp only [if_true]
    unfold checkNaive
    cases hl : s.it1.length with
    | zero => have := (bothPending_iff s).1 hbp; omega
    | succ k =>
      simp only [naiveLoop, hbp, if_true]
      exact naiveLoop_fuel P _ _ _ (by omega) (by omega)

theorem naiveLoop_exit {G M : Type} (P : Package G M) (fuel : Nat) (s : Sched G M)
    (h1 : s.it1.length ≤ fuel) : bothPending (naiveLoop P fuel s) = false := by
  induction fuel generalizing s with
  | zero =>
    cases hbp : bothPending s with
    | false => simpa [naiveLoop] using hbp
    | true => have := (bothPending_iff s).1 hbp; omega
  | succ fuel ih =>
    cases hbp : bothPending s with
    | false => simp [naiveLoop, hbp]
    | true =>
      have hlt := naiveStep_lt P s hbp
      simp only [naiveLoop, hbp, if_true]
      exact ih _ (by omega)

theorem unfolded_fetchLeft {G M : Type} (P : Package G M) (st st1 : Lookahead G M)
    (hf : fetchLeft P st = some st1) : unfolded st1 = unfolded st := by
  unfold fetchLeft at hf
  by_cases hc : st.cachedLeft = true
  · simp [hc] at hf
    subst hf
    rfl
  · simp only [hc] at hf
    cases hit : st.s.it1 with
    | nil => simp [hit] at hf
    | cons g rest =>
      simp only [hit] at hf
      by_cases hm : P.getType g = OpType.Measure
      · simp [hm] at hf
      · simp only [hm, if_false, Bool.false_eq_true] at hf
        injection hf with hf
        subst hf
        simp only [unfolded, pendL, pendR, hit, hc, List.length_cons, if_true, if_false,
          Bool.false_eq_true, List.length_nil, List.length_singleton]
        omega

theorem unfolded_fetchRight {G M : Type} (P : Package G M) (st st1 : Lookahead G M)
    (hf : fetchRight P st = some st1) : unfolded st1 = unfolded st := by
  unfold fetchRight at hf
  by_cases hc : st.cachedRight = true
  · simp [hc] at hf
    subst hf
    rfl
  · simp only [hc] at hf
    cases hit : st.s.it2 with
    | nil => simp [hit] at hf
    | cons g rest =>
      simp only [hit] at hf
      by_cases hm : P.getType g = OpType.Measure
      · simp [hm] at hf
      · simp only [hm, if_false, Bool.false_eq_true] at hf
        injection hf with hf
        subst hf
        simp only [unfolded, pendL, pendR, hit, hc, List.length_cons, if_true, if_false,
          Bool.false_eq_true, List.length_nil, List.length_singleton]
        omega

theorem unfolded_commit {G M : Type} (P : Package G M) (st : Lookahead G M)
    (hl : st.cachedLeft = true) (hr : st.cachedRight = true) :
    unfolded (commit P st) + 1 = unfolded st := by
  unfold commit
  by_cases hsz : P.size (P.multiply st.left st.s.result) ≤
      P.size (P.multiply st.s.result st.right)
  · simp [hsz, unfolded, pendL, pendR, hl, hr]
  · simp [hsz, unfolded, pendL, pendR, hl, hr]

/-- An iteration of the lookahead loop that does not break folds exactly one gate. -/
theorem unfolded_lookaheadIter {G M : Type} (P : Package G M) (st : Lookahead G M)
    (h : (lookaheadIter P st).2 = false) :
    unfolded (lookaheadIter P st).1 + 1 = unfolded st := by
  unfold lookaheadIter at h ⊢
  cases h1 : fetchLeft P st with
  | none => simp [h1] at h
  | some st1 =>
    simp only [h1] at h ⊢
    have hc1 : st1.cachedLeft = true := by
      unfold fetchLeft at h1
      by_cases hc : st.cachedLeft = true
      · simp [hc] at h1
        subst h1
        exact hc
      · simp only [hc] at h1
        cases hit : st.s.it1 with
        | nil => simp [hit] at h1
        | cons g rest =>
          simp only [hit] at h1
          by_cases hm : P.getType g = OpType.Measure
          · simp [hm] at h1
          · simp only [hm, if_false, Bool.false_eq_true] at h1
            injection h1 with h1
            subst h1
            rfl
    cases h2 : fetchRight P st1 with
    | none => simp [h2] at h
    | some st2 =>
      simp only [h2]
      have hc2 : st2.cachedRight = true ∧ st2.cachedLeft = st1.cachedLeft := by
        unfold fetchRight at h2
        by_cases hc : st1.cachedRight = true
        · simp [hc] at h2
          subst h2
          exact ⟨hc, rfl⟩
        · simp only [hc] at h2
          cases hit : st1.s.it2 with
          | nil => simp [hit] at h2
          | cons g rest =>
            simp only [hit] at h2
            by_cases hm : P.getType g = OpType.Measure
            · simp [hm] at h2
            · simp only [hm, if_false, Bool.false_eq_true] at h2
              injection h2 with h2
              subst h2
              exact ⟨rfl, rfl⟩
      rw [unfolded_commit P st2 (hc2.2.trans hc1) hc2.1, unfolded_fetchRight P st1 st2 h2,
        unfolded_fetchLeft P st st1 h1]

theorem bothPending_unfolded {G M : Type} (st : Lookahead G M)
    (hb : bothPending st.s = true) : 2 ≤ unfolded st := by
  have := (bothPending_iff st.s).1 hb
  unfold unfolded
  omega

/-- The loop of `checkLookahead` does not depend on the unrolling bound once the bound
covers the gates not yet folded. -/
theorem lookaheadLoop_fuel {G M : Type} (P : Package G M) (fuel fuel2 : Nat)
    (st : Lookahead G M) (h1 : unfolded st ≤ fuel) (h2 : unfolded st ≤ fuel2) :
    lookaheadLoop P fuel st = lookaheadLoop P fuel2 st := by
  induction fuel generalizing fuel2 st with
  | zero =>
    have hb : bothPending st.s = false := by
      cases hbp : bothPending st.s with
      | false => rfl
      | true => have := bothPending_unfolded st hbp; omega
    cases fuel2 <;> simp [lookaheadLoop, hb]
  | succ fuel ih =>
    cases hbp : bothPending st.s with
    | false => cases fuel2 <;> simp [lookaheadLoop, hbp]
    | true =>
      cases fuel2 with
      | zero => have := bothPending_unfolded st hbp; omega
      | succ fuel2 =>
        simp only [lookaheadLoop, hbp, if_true]
        cases hbr : (lookaheadIter P st).2 with
        | true => simp
        | false =>
          have := unfolded_lookaheadIter P st hbr
          simp only [Bool.false_eq_true, if_false]
          exact ih fuel2 _ (by omega) (by omega)

/-- The state in which the loop of `checkLookahead` ends is one in which the loop stops:
a cursor is exhausted, or the next iteration breaks on a Measure. -/
theorem lookaheadLoop_exit {G M : Type} (P : Package G M) (fuel : Nat)
    (st : Lookahead G M) (h1 : unfolded st ≤ fuel) :
    bothPending (lookaheadLoop P fuel st).s = false ∨
      (lookaheadIter P (lookaheadLoop P fuel st)).2 = true := by
  induction fuel generalizing st with
  | zero =>
    cases hbp : bothPending st.s with
    | false => simp [lookaheadLoop, hbp]
    | true => have := bothPending_unfolded st hbp; omega
  | succ fuel ih =>
    cases hbp : bothPending st.s with
    | false => simp [lookaheadLoop, hbp]
    | true =>
      simp only [lookaheadLoop, hbp, if_true]
      cases hbr : (lookaheadIter P st).2 with
      | true =>
        simp only [if_true]
        right
        unfold lookaheadIter at hbr ⊢
        cases hf1 : fetchLeft P st with
        | none => simp [hf1]
        | some st1 =>
          simp only [hf1] at hbr ⊢
          cases hf2 : fetchRight P st1 with
          | none =>
            simp only [hf2]
            have hc1 : fetchLeft P st1 = some st1 := by
              have hcl : st1.cachedLeft = true := by
                unfold fetchLeft at hf1
                by_cases hc : st.cachedLeft = true
                · simp [hc] at hf1
                  subst hf1
                  exact hc
                · simp only [hc] at hf1
                  cases hit : st.s.it1 with
                  | nil => simp [hit] at hf1
                  | cons g rest =>
                    simp only [hit] at hf1
                    by_cases hm : P.getType g = OpType.Measure
                    · simp [hm] at hf1
                    · simp only [hm, if_false, Bool.false_eq_true] at hf1
                      injection hf1 with hf1
                      subst hf1
                      rfl
              simp [fetchLeft, hcl]
            simp [hc1, hf2]
          | some st2 => simp [hf2] at hbr
      | false =>
        have := unfolded_lookaheadIter P st hbr
        simp only [Bool.false_eq_true, if_false]
        exact ih _ (by omega)

/-! ### The dispatch and the run as a whole -/

theorem schedule_supported {G M : Type} (P : Package G M) (c : EquivalenceChecker G)
    (strategy : Strategy) (s0 : Sched G M) (h : supported strategy = true) :
    ∃ s1, schedule P c strategy s0 = Except.ok s1 ∧ Adv P s0 s1 [] [] := by
  cases strategy with
  | Naive => exact ⟨_, rfl, adv_checkNaive P s0⟩
  | Proportional => exact ⟨_, rfl, adv_checkProportional P c s0⟩
  | Lookahead => exact ⟨_, rfl, adv_checkLookahead P s0⟩
  | CompilationFlow => simp [supported] at h

theorem schedule_unsupported {G M : Type} (P : Package G M) (c : EquivalenceChecker G)
    (strategy : Strategy) (s0 : Sched G M) (h : supported strategy = false) :
    schedule P c strategy s0 = Except.error (Failure.invalid_argument strategy) := by
  cases strategy with
  | Naive => simp [supported] at h
  | Proportional => simp [supported] at h
  | Lookahead => simp [supported] at h
  | CompilationFlow => rfl

/-- The state that scheduling and draining leave, for a supported strategy. -/
theorem schedule_drain {G M : Type} (P : Package G M) (c : EquivalenceChecker G)
    (strategy : Strategy) (s0 : Sched G M) (h : supported strategy = true) :
    ∃ s1, schedule P c strategy s0 = Except.ok s1 ∧
      Complete P s0 (finishSecond P (finishFirst P s1)) := by
  obtain ⟨s1, hs, ha⟩ := schedule_supported P c strategy s0 h
  exact ⟨s1, hs, complete_of_adv P s0 s1 ha⟩

/-- The run of `check` for a supported strategy, in terms of the strategy-independent
reduced operator. -/
theorem check_eq_reduced {G M : Type} [DecidableEq M] (P : Package G M)
    (assoc : ∀ a b c : M, P.multiply (P.multiply a b) c = P.multiply a (P.multiply b c))
    (config : Configuration) (c0 : EquivalenceChecker G)
    (h : supported config.strategy = true) :
    check P config c0 =
      match fidelityBlock P (P.runPreCheckPasses config c0)
          (reducedOperator P (P.runPreCheckPasses config c0)) with
      | none => Except.error Failure.fault
      | some fid =>
        Except.ok
          { results :=
              { strategy := config.strategy,
                result := reducedOperator P (P.runPreCheckPasses config c0),
                equivalence := equals (reducedOperator P (P.runPreCheckPasses config c0))
                  (createGoalMatrix P (P.runPreCheckPasses config c0)) },
            fid := fid } := by
  obtain ⟨s1, hs, hc⟩ := schedule_drain P (P.runPreCheckPasses config c0) config.strategy
    (startSched P (P.runPreCheckPasses config c0)) h
  have hres := complete_result P assoc _ _ hc
  obtain ⟨_, _, ev, _, _, _, _, hp1, hp2⟩ := hc
  have hred : reduceResult P (P.runPreCheckPasses config c0)
      (finishSecond P (finishFirst P s1)).result (finishSecond P (finishFirst P s1)).perm1
      (finishSecond P (finishFirst P s1)).perm2 =
      reducedOperator P (P.runPreCheckPasses config c0) := by
    rw [hres, hp1, hp2]
    rfl
  unfold check reducedRun
  simp only [hs, hred]

/-! ### A circuit against itself -/

theorem markLine_reflexive {G : Type} (c : EquivalenceChecker G) (h : Reflexive c) (q : Nat)
    (anc : List Bool) : markLine c q anc = anc := by
  obtain ⟨hq, hi, _⟩ := h
  unfold markLine
  rw [hq, hi]
  simp

theorem markLoop_reflexive {G : Type} (c : EquivalenceChecker G) (h : Reflexive c) (k : Nat)
    (anc : List Bool) : markLoop c k anc = anc := by
  induction k generalizing anc with
  | zero => rfl
  | succ k ih => simp [markLoop, markLine_reflexive c h, ih]

theorem leftPerm_eq_rightPerm {G M : Type} (P : Package G M) (n : Nat) (hP : Lawful P n)
    (gs : List G) (perm : Permutation) : rightPerm P gs perm = leftPerm P gs perm := by
  induction gs generalizing perm with
  | nil => rfl
  | cons g gs ih => simp [leftPerm, rightPerm, hP.perm_inv, ih]

/-- The gates of one circuit, folded on the left and inverted on the right, cancel. -/
theorem sandwich_self {G M : Type} (P : Package G M) (n : Nat) (hP : Lawful P n)
    (gs : List G) (perm : Permutation) :
    sandwich P (leftDDs P gs perm) (P.makeIdent n) (rightDDs P gs perm) = P.makeIdent n := by
  induction gs generalizing perm with
  | nil => rfl
  | cons g gs ih =>
    simp only [leftDDs, rightDDs]
    rw [sandwich_cons_left, sandwich_cons_right P hP.assoc, hP.mul_one, hP.mul_inv,
      hP.perm_inv]
    exact ih _

theorem finalOperator_reflexive {G M : Type} (P : Package G M) (c : EquivalenceChecker G)
    (hP : Lawful P c.nqubits)
    (hred : ∀ (e : M) (k : Nat), P.reduceAncillae e (List.replicate k false) none = e)
    (h : Reflexive c) : finalOperator P c = P.makeIdent c.nqubits := by
  have hinit : createInitialMatrix P c = P.makeIdent c.nqubits := by
    unfold createInitialMatrix initialAncillary
    rw [markLoop_reflexive c h, hred]
  unfold finalOperator
  rw [hinit, ← h.2.1, ← h.2.2]
  exact sandwich_self P c.nqubits hP c.it1 c.initial1

/-! ### The example package is lawful -/

theorem affMul_assoc (a b c : Int × Int) :
    affMul (affMul a b) c = affMul a (affMul b c) := by
  unfold affMul
  ext
  · simp [mul_assoc]
  · simp only
    ring

theorem aff_lawful (n : Nat) : Lawful affPackage n where
  assoc := affMul_assoc
  one_mul := by
    intro a
    simp [affPackage, affMul]
  mul_one := by
    intro a
    simp [affPackage, affMul]
  mul_inv := by
    intro g perm
    simp only [affPackage, affMul, affSign]
    cases g.flip <;> simp
  perm_inv := by
    intro g perm
    rfl

/-! ## The initial matrix -/

theorem castQubit_id (bits : Nat) (x : Int) (hb : 1 ≤ bits)
    (hlo : -(2 : Int) ^ (bits - 1) ≤ x) (hhi : x < (2 : Int) ^ (bits - 1)) :
    castQubit bits x = x := by
  unfold castQubit
  have hpow : (2 : Int) ^ bits = 2 * 2 ^ (bits - 1) := by
    obtain ⟨k, rfl⟩ : ∃ k, bits = k + 1 := ⟨bits - 1, by omega⟩
    simp [pow_succ, mul_comm]
  rw [Int.emod_eq_of_lt (by omega) (by omega)]
  omega

theorem markLoop_count (bits n : Nat) (hb : 1 ≤ bits) (hn : n ≤ 2 ^ (bits - 1)) :
    (castQubit bits ((n : Int) - 1) + 1).toNat = n := by
  have hpos : (0 : Int) < (2 : Int) ^ (bits - 1) := by positivity
  have hn2 : (n : Int) ≤ (2 : Int) ^ (bits - 1) := by exact_mod_cast hn
  rw [castQubit_id bits _ hb (by omega) (by omega)]
  simp

theorem findLine_fst (qc : QuantumComputation) (perm : Permutation) (q : Nat) :
    (findLine qc perm q).1 = true ↔ occupied perm q := by
  induction perm with
  | nil => simp [findLine, occupied]
  | cons e rest ih =>
    unfold findLine
    by_cases h : e.2 = q
    · simp only [h, if_true]
      exact ⟨fun _ => ⟨e, List.mem_cons_self _ _, h⟩, fun _ => trivial⟩
    · simp only [h, if_false, ih]
      constructor
      · rintro ⟨e2, hm, he⟩
        exact ⟨e2, List.mem_cons_of_mem _ hm, he⟩
      · rintro ⟨e2, hm, he⟩
        rcases List.mem_cons.1 hm with rfl | hm
        · exact absurd he h
        · exact ⟨e2, hm, he⟩

theorem findLine_snd (qc : QuantumComputation) (perm : Permutation) (q : Nat) :
    (findLine qc perm q).2 = true ↔ idleOn qc perm q := by
  induction perm with
  | nil => simp [findLine, idleOn]
  | cons e rest ih =>
    unfold findLine idleOn
    by_cases h : e.2 = q
    · simp [h]
    · simp only [h, if_false, List.find?_cons, decide_False]
      exact ih

theorem markLine_eq {G : Type} (c : EquivalenceChecker G) (q : Nat) (anc : List Bool) :
    markLine c q anc = if lineFlagged c q then anc.set q true else anc := by
  unfold markLine lineFlagged
  cases c.qc1.logicalQubitIsAncillary q && c.qc2.logicalQubitIsAncillary q <;> simp

theorem markLoop_length {G : Type} (c : EquivalenceChecker G) (k : Nat) (anc : List Bool) :
    (markLoop c k anc).length = anc.length := by
  induction k generalizing anc with
  | zero => rfl
  | succ k ih =>
    simp only [markLoop, ih, markLine_eq]
    split <;> simp

/-- The entries of the vector after the loop has handled the lines below `k`. -/
theorem markLoop_get {G : Type} (c : EquivalenceChecker G) (k : Nat) (anc : List Bool)
    (q : Nat) :
    (markLoop c k anc)[q]? =
      if q < k ∧ q < anc.length ∧ lineFlagged c q = true then some true else anc[q]? := by
  induction k generalizing anc with
  | zero => simp [markLoop]
  | succ k ih =>
    simp only [markLoop, ih, markLine_eq]
    by_cases hf : lineFlagged c k = true
    · simp only [hf, if_true, List.length_set]
      by_cases hqk : q = k
      · subst hqk
        by_cases hl : q < anc.length
        · simp [hl, hf]
        · have hle : anc.length ≤ q := Nat.not_lt.1 hl
          have e1 : (anc.set q true)[q]? = none :=
            List.getElem?_eq_none (by rw [List.length_set]; exact hle)
          have e2 : anc[q]? = none := List.getElem?_eq_none hle
          simp [hl, e1, e2]
      · rw [List.getElem?_set_ne (Ne.symm hqk)]
        have : (q < k + 1) ↔ (q < k) := by omega
        simp only [this]
    · simp only [hf, if_false, Bool.false_eq_true]
      by_cases hqk : q = k
      · subst hqk
        simp [hf]
      · have : (q < k + 1) ↔ (q < k) := by omega
        simp only [this]

theorem xor_true_iff (a b : Bool) : xor a b = true ↔ ¬ (a = true ↔ b = true) := by
  cases a <;> cases b <;> simp

/-- The flag condition, in terms of occupation and idleness of the line. -/
theorem lineFlagged_iff {G : Type} (c : EquivalenceChecker G) (q : Nat) :
    lineFlagged c q = true ↔
      c.qc1.logicalQubitIsAncillary q = true ∧ c.qc2.logicalQubitIsAncillary q = true ∧
      (¬ (occupied c.initial1 q ↔ occupied c.initial2 q) ∨
        ¬ (idleOn c.qc1 c.initial1 q ↔ idleOn c.qc2 c.initial2 q)) := by
  unfold lineFlagged
  simp only [Bool.and_eq_true, Bool.or_eq_true, xor_true_iff, findLine_fst, findLine_snd]
  tauto

/-! ## The weighted trace -/

theorem tableFind_filter_ne (t : NodeTable) (p q : Ptr) (h : q ≠ p) :
    tableFind (t.filter (fun kv => !decide (kv.1 = p))) q = tableFind t q := by
  induction t with
  | nil => rfl
  | cons kv rest ih =>
    have hpq : ¬ p = q := fun e => h e.symm
    by_cases hk : kv.1 = p
    · simp [List.filter_cons, hk, tableFind, hpq, ih]
    · by_cases hq : kv.1 = q
      · have hqp : ¬ q = p := h
        simp [List.filter_cons, tableFind, hq, hqp]
      · simp [List.filter_cons, hk, tableFind, hq, ih]

theorem tableFind_assign_self (t : NodeTable) (p : Ptr) (v : FP2) :
    tableFind (tableAssign t p v) p = some v := by
  simp [tableAssign, tableFind]

theorem tableFind_assign_ne (t : NodeTable) (p q : Ptr) (v : FP2) (h : q ≠ p) :
    tableFind (tableAssign t p v) q = tableFind t q := by
  unfold tableAssign
  have hp : ¬ p = q := fun e => h e.symm
  simp only [tableFind, hp, if_false]
  exact tableFind_filter_ne t p q h

theorem weightedTrace_terminal (h : Heap) (fuel : Nat) :
    weightedTrace h fuel Ptr.terminal = (1, 0) := by
  cases fuel <;> simp [weightedTrace, isTerminal]

theorem ordered_get (h : Heap) (hord : ordered h) (a : Nat) (node : MNode)
    (hn : h.nodes[a]? = some node) :
    diagOK node.e0.p a = true ∧ diagOK node.e3.p a = true := by
  have hlt : a < h.nodes.length := by
    by_contra hge
    rw [List.getElem?_eq_none (Nat.not_lt.1 hge)] at hn
    cases hn
  have hg := hord ⟨a, hlt⟩
  have he : h.nodes.get ⟨a, hlt⟩ = node := by
    rw [List.getElem?_eq_getElem hlt] at hn
    exact Option.some.inj hn
  rw [he] at hg
  exact hg

/-- On an ordered memory the plain recursion does not depend on the depth bound once the
bound exceeds the address. -/
theorem weightedTrace_fuel (h : Heap) (hord : ordered h) (a : Nat) :
    ∀ p, diagOK p a = true → ∀ f1 f2, a ≤ f1 → a ≤ f2 →
      weightedTrace h f1 p = weightedTrace h f2 p := by
  induction a using Nat.strong_induction_on with
  | _ a ih =>
    intro p hp f1 f2 h1 h2
    cases p with
    | null => simp [diagOK] at hp
    | terminal => rw [weightedTrace_terminal, weightedTrace_terminal]
    | addr b =>
      have hb : b < a := by simpa [diagOK] using hp
      obtain ⟨k1, rfl⟩ : ∃ k, f1 = k + 1 := ⟨f1 - 1, by omega⟩
      obtain ⟨k2, rfl⟩ : ∃ k, f2 = k + 1 := ⟨f2 - 1, by omega⟩
      simp only [weightedTrace, isTerminal, deref]
      cases hn : h.nodes[b]? with
      | none => simp
      | some node =>
        obtain ⟨o0, o3⟩ := ordered_get h hord b node hn
        simp only [reduceCtorEq, decide_False, Bool.false_eq_true, if_false]
        rw [ih b hb node.e0.p o0 k1 k2 (by omega) (by omega),
          ih b hb node.e3.p o3 k1 k2 (by omega) (by omega)]

/-- The recurrence of the weighted trace at a table node. -/
theorem traceOf_node (h : Heap) (hord : ordered h) (a : Nat) (node : MNode)
    (hn : h.nodes[a]? = some node) :
    traceOf h (Ptr.addr a) =
      add (mul (complex2fp node.e0.w) (traceOf h node.e0.p))
        (mul (complex2fp node.e3.w) (traceOf h node.e3.p)) := by
  have hlt : a < h.nodes.length := by
    by_contra hge
    rw [List.getElem?_eq_none (Nat.not_lt.1 hge)] at hn
    cases hn
  obtain ⟨o0, o3⟩ := ordered_get h hord a node hn
  obtain ⟨k, hk⟩ : ∃ k, h.nodes.length = k + 1 := ⟨h.nodes.length - 1, by omega⟩
  have e0 : traceOf h node.e0.p = weightedTrace h k node.e0.p := by
    unfold traceOf
    rw [hk]
    exact weightedTrace_fuel h hord a node.e0.p o0 (k + 1) k (by omega) (by omega)
  have e3 : traceOf h node.e3.p = weightedTrace h k node.e3.p := by
    unfold traceOf
    rw [hk]
    exact weightedTrace_fuel h hord a node.e3.p o3 (k + 1) k (by omega) (by omega)
  rw [e0, e3]
  unfold traceOf
  rw [hk]
  simp only [weightedTrace, isTerminal, deref, hn, reduceCtorEq, decide_False,
    Bool.false_eq_true, if_false]

theorem traceOf_terminal (h : Heap) : traceOf h Ptr.terminal = (1, 0) :=
  weightedTrace_terminal h _

theorem childValue_mono (h : Heap) (p : Ptr) (t1 t2 : NodeTable) (hg : TableGood h t2)
    (hm : ∀ q, (tableFind t1 q).isSome = true → (tableFind t2 q).isSome = true)
    (hc : childValue p t1 = some (traceOf h p)) : childValue p t2 = some (traceOf h p) := by
  unfold childValue at hc ⊢
  by_cases ht : isTerminal p = true
  · simpa [ht] using hc
  · simp only [ht, if_false, Bool.false_eq_true] at hc ⊢
    have hs := hm p (by rw [hc]; rfl)
    cases hf : tableFind t2 p with
    | none => rw [hf] at hs; cases hs
    | some v => rw [hg p v hf]

theorem visitChild_spec (h : Heap) (k a : Nat)
    (ih : ∀ b, b < a → ∀ t, TableGood h t →
      ∃ t2, traceRecur h k (Ptr.addr b) t = some (traceOf h (Ptr.addr b), t2) ∧
        TableGood h t2 ∧
        (∀ q, (tableFind t q).isSome = true → (tableFind t2 q).isSome = true) ∧
        tableFind t2 (Ptr.addr b) = some (traceOf h (Ptr.addr b)))
    (p : Ptr) (hp : diagOK p a = true) (t : NodeTable) (ht : TableGood h t) :
    ∃ t1, visitChild (traceRecur h k) p t = some t1 ∧ TableGood h t1 ∧
      (∀ q, (tableFind t q).isSome = true → (tableFind t1 q).isSome = true) ∧
      childValue p t1 = some (traceOf h p) := by
  cases p with
  | null => simp [diagOK] at hp
  | terminal =>
    exact ⟨t, by simp [visitChild, isTerminal], ht, fun _ hq => hq, by
      simp [childValue, isTerminal, traceOf_terminal]⟩
  | addr b =>
    have hb : b < a := by simpa [diagOK] using hp
    cases hf : tableFind t (Ptr.addr b) with
    | none =>
      obtain ⟨t2, hrun, hg, hm, hfind⟩ := ih b hb t ht
      refine ⟨t2, ?_, hg, hm, ?_⟩
      · simp [visitChild, isTerminal, hf, hrun]
      · simpa [childValue, isTerminal] using hfind
    | some v =>
      refine ⟨t, ?_, ht, fun _ hq => hq, ?_⟩
      · simp [visitChild, isTerminal, hf]
      · simp [childValue, isTerminal, hf, ht _ _ hf]

/-- The memoised traversal computes the weighted trace at every table node of an ordered
memory, from any table whose entries are right, and leaves such a table. -/
theorem traceRecur_spec (h : Heap) (hord : ordered h) (a : Nat) :
    ∀ fuel, a < fuel → a < h.nodes.length → ∀ t, TableGood h t →
      ∃ t2, traceRecur h fuel (Ptr.addr a) t = some (traceOf h (Ptr.addr a), t2) ∧
        TableGood h t2 ∧
        (∀ q, (tableFind t q).isSome = true → (tableFind t2 q).isSome = true) ∧
        tableFind t2 (Ptr.addr a) = some (traceOf h (Ptr.addr a)) := by
  induction a using Nat.strong_induction_on with
  | _ a ih =>
    intro fuel hfuel hlt t ht
    obtain ⟨k, rfl⟩ : ∃ k, fuel = k + 1 := ⟨fuel - 1, by omega⟩
    have hn : h.nodes[a]? = some (h.nodes.get ⟨a, hlt⟩) := List.getElem?_eq_getElem hlt
    generalize h.nodes.get ⟨a, hlt⟩ = node at hn
    obtain ⟨o0, o3⟩ := ordered_get h hord a node hn
    have ihk : ∀ b, b < a → ∀ t, TableGood h t →
        ∃ t2, traceRecur h k (Ptr.addr b) t = some (traceOf h (Ptr.addr b), t2) ∧
          TableGood h t2 ∧
          (∀ q, (tableFind t q).isSome = true → (tableFind t2 q).isSome = true) ∧
          tableFind t2 (Ptr.addr b) = some (traceOf h (Ptr.addr b)) :=
      fun b hb t ht => ih b hb k (by omega) (by omega) t ht
    obtain ⟨t1, hv1, hg1, hm1, hc1⟩ := visitChild_spec h k a ihk node.e0.p o0 t ht
    obtain ⟨t2, hv2, hg2, hm2, hc2⟩ := visitChild_spec h k a ihk node.e3.p o3 t1 hg1
    have hc0 := childValue_mono h node.e0.p t1 t2 hg2 hm2 hc1
    refine ⟨tableAssign t2 (Ptr.addr a) (traceOf h (Ptr.addr a)), ?_, ?_, ?_, ?_⟩
    · simp only [traceRecur, deref, hn, hv1, hv2, hc0, hc2]
      rw [← traceOf_node h hord a node hn]
    · intro q v hq
      by_cases hqa : q = Ptr.addr a
      · subst hqa
        rw [tableFind_assign_self] at hq
        exact (Option.some.inj hq).symm
      · rw [tableFind_assign_ne _ _ _ _ hqa] at hq
        exact hg2 q v hq
    · intro q hq
      by_cases hqa : q = Ptr.addr a
      · subst hqa
        rw [tableFind_assign_self]
        rfl
      · rw [tableFind_assign_ne _ _ _ _ hqa]
        exact hm2 q (hm1 q hq)
    · exact tableFind_assign_self _ _ _

theorem tableGood_nil (h : Heap) : TableGood h [] := by
  intro p v hf
  cases hf

/-- The fidelity block on a diagram rooted at a table node of an ordered memory. -/
theorem fidelity_node {G M : Type} (P : Package G M) (hord : ordered P.heap) (n : Nat)
    (result : M) (a : Nat) (hp : P.p result = Ptr.addr a) (hlt : a < P.heap.nodes.length) :
    fidelity P n result =
      some (fidelityValue (P.w result) (traceOf P.heap (P.p result)) n) := by
  obtain ⟨t2, hrun, _⟩ := traceRecur_spec P.heap hord a (P.heap.nodes.length + 1)
    (by omega) hlt [] (tableGood_nil P.heap)
  unfold fidelity fidelityValue
  rw [hp, hrun]
  have h4 : (2 : ℚ) ^ (2 * n) = 4 ^ n := by
    rw [pow_mul]
    norm_num
  simp only [h4]

theorem identDD_lt (h : Heap) (k : Nat) (p : Ptr) (hid : identDD h (k + 1) p = true) :
    ∃ a, p = Ptr.addr a ∧ a < h.nodes.length := by
  cases p with
  | null => simp [identDD] at hid
  | terminal => simp [identDD] at hid
  | addr a =>
    refine ⟨a, rfl, ?_⟩
    by_contra hge
    simp [identDD, List.getElem?_eq_none (Nat.not_lt.1 hge)] at hid

/-- The weighted trace of the identity diagram over `k` lines is `2 ^ k`. -/
theorem identDD_trace (h : Heap) (hord : ordered h) (k : Nat) :
    ∀ p, identDD h k p = true → traceOf h p = ((2 : ℚ) ^ k, 0) := by
  induction k with
  | zero =>
    intro p hid
    have hp : p = Ptr.terminal := by simpa [identDD, isTerminal] using hid
    rw [hp, traceOf_terminal]
    simp
  | succ k ih =>
    intro p hid
    cases p with
    | null => simp [identDD] at hid
    | terminal => simp [identDD] at hid
    | addr a =>
      cases hn : h.nodes[a]? with
      | none => simp [identDD, hn] at hid
      | some node =>
        simp only [identDD, hn, Bool.and_eq_true, decide_eq_true_eq] at hid
        obtain ⟨⟨⟨hw0, hw3⟩, hp3⟩, hrest⟩ := hid
        rw [traceOf_node h hord a node hn, hp3, ih _ hrest, hw0, hw3]
        simp only [add, mul, complex2fp]
        ext
        · simp only
          ring
        · simp

theorem ordered_diagHeap : ordered diagHeap := by
  intro a
  fin_cases a <;> decide

theorem traceRecur_null (h : Heap) (fuel : Nat) (t : NodeTable) :
    traceRecur h fuel Ptr.null t = none := by
  cases fuel <;> simp [traceRecur, deref]

/-! ## The scheduling claims -/

/-- C3. For every package, checker and starting state, whichever of the three strategies
runs, once both drain loops are done both cursors are exhausted, the operands folded since
the start replay to the running result, and on either side they are the operands of that
circuit's gates, each once and in circuit order. -/
theorem drain_complete {G M : Type} (P : Package G M) (c : EquivalenceChecker G)
    (s0 : Sched G M) :
    Complete P s0 (finishSecond P (finishFirst P (checkNaive P s0))) ∧
    Complete P s0 (finishSecond P (finishFirst P (checkProportional P c s0))) ∧
    Complete P s0 (finishSecond P (finishFirst P (checkLookahead P s0))) :=
  ⟨complete_of_adv P s0 _ (adv_checkNaive P s0),
   complete_of_adv P s0 _ (adv_checkProportional P c s0),
   complete_of_adv P s0 _ (adv_checkLookahead P s0)⟩

/-- C2. With an associative product, every supported strategy leaves, after scheduling
and draining, the same running result: the left operands composed on the left of the
initial matrix in circuit order and the inverted right operands on its right.  Hence two
runs of `check` that differ only in the supported strategy report the same result handle,
the same verdict and the same fidelity. -/
theorem strategies_agree {G M : Type} [DecidableEq M] (P : Package G M)
    (assoc : ∀ a b c : M, P.multiply (P.multiply a b) c = P.multiply a (P.multiply b c))
    (c0 : EquivalenceChecker G) :
    (∀ config : Configuration, supported config.strategy = true →
      ∃ s1, schedule P (P.runPreCheckPasses config c0) config.strategy
          (startSched P (P.runPreCheckPasses config c0)) = Except.ok s1 ∧
        (finishSecond P (finishFirst P s1)).result =
          finalOperator P (P.runPreCheckPasses config c0)) ∧
    (∀ cfgA cfgB : Configuration, supported cfgA.strategy = true →
      supported cfgB.strategy = true →
      P.runPreCheckPasses cfgA c0 = P.runPreCheckPasses cfgB c0 →
      Except.map Outcome.core (check P cfgA c0) = Except.map Outcome.core (check P cfgB c0)) := by
  constructor
  · intro config h
    obtain ⟨s1, hs, hc⟩ := schedule_drain P (P.runPreCheckPasses config c0) config.strategy
      (startSched P (P.runPreCheckPasses config c0)) h
    exact ⟨s1, hs, complete_result P assoc _ _ hc⟩
  · intro cfgA cfgB hA hB hpre
    rw [check_eq_reduced P assoc cfgA c0 hA, check_eq_reduced P assoc cfgB c0 hB, hpre]
    cases fidelityBlock P (P.runPreCheckPasses cfgB c0)
        (reducedOperator P (P.runPreCheckPasses cfgB c0)) <;> rfl

/-- Reflexivity where the fidelity block does not fault.  For a lawful package whose
ancilla reduction leaves a diagram unchanged when no line is flagged and whose final
reductions take the identity to the goal matrix, a checker that compares a circuit with
itself returns results with `equivalence = true` under each of Naive, Proportional and
Lookahead, provided the fidelity block (if requested) yields a value on the goal matrix. -/
theorem check_reflexive {G M : Type} [DecidableEq M] (P : Package G M)
    (config : Configuration) (c0 : EquivalenceChecker G)
    (hs : supported config.strategy = true)
    (hP : Lawful P (P.runPreCheckPasses config c0).nqubits)
    (hred : ∀ (e : M) (k : Nat), P.reduceAncillae e (List.replicate k false) none = e)
    (hrefl : Reflexive (P.runPreCheckPasses config c0))
    (hgoal : ReducesToGoal P (P.runPreCheckPasses config c0))
    (hfid : fidelityBlock P (P.runPreCheckPasses config c0)
      (createGoalMatrix P (P.runPreCheckPasses config c0)) ≠ none) :
    ∃ out, check P config c0 = Except.ok out ∧ out.results.equivalence = true ∧
      out.results.result = createGoalMatrix P (P.runPreCheckPasses config c0) := by
  have hop : reducedOperator P (P.runPreCheckPasses config c0) =
      createGoalMatrix P (P.runPreCheckPasses config c0) := by
    unfold reducedOperator
    rw [finalOperator_reflexive P _ hP hred hrefl]
    exact hgoal
  rw [check_eq_reduced P hP.assoc config c0 hs, hop]
  cases hf : fidelityBlock P (P.runPreCheckPasses config c0)
      (createGoalMatrix P (P.runPreCheckPasses config c0)) with
  | none => exact absurd hf hfid
  | some fid => exact ⟨_, rfl, by simp [equals], rfl⟩

/-- C2, at the example checker: the naive and the lookahead run agree. -/
theorem strategies_agree_witness :
    Except.map Outcome.core (check affPackage ⟨Strategy.Naive⟩ affChecker) =
      Except.map Outcome.core (check affPackage ⟨Strategy.Lookahead⟩ affChecker) :=
  (strategies_agree affPackage affMul_assoc affChecker).2 ⟨Strategy.Naive⟩
    ⟨Strategy.Lookahead⟩ rfl rfl rfl

/-- Reflexivity at the example checker under the lookahead strategy. -/
theorem check_reflexive_witness :
    ∃ out, check affPackage ⟨Strategy.Lookahead⟩ affChecker = Except.ok out ∧
      out.results.equivalence = true ∧
      out.results.result = createGoalMatrix affPackage affChecker :=
  check_reflexive affPackage ⟨Strategy.Lookahead⟩ affChecker rfl (aff_lawful 2)
    (fun _ _ => rfl) ⟨rfl, rfl, rfl⟩ rfl (by simp [fidelityBlock, affPackage, affChecker])

/-- C4, as stated, fails: for the gate counts `3 * 2 ^ 51 + 1` and `2 ^ 52 + 1` the
quotient lies below `3 / 2` by less than half a unit of the last binary64 digit, so the
`double` quotient is `3 / 2` and the code's ratio is 2, the per-round budget of the left
side, while `round(max / min)` is 1. -/
theorem double_ratio_differs :
    gateRatio bigLeft bigRight = 2 ∧
    ratio1 bigLeft bigRight = 2 ∧ ratio2 bigLeft bigRight = 1 ∧
    1 ≤ bigLeft ∧ 1 ≤ bigRight ∧
    round ((max bigLeft bigRight : ℚ) / (min bigLeft bigRight : ℚ)) = 1 := by
  have hg : gateRatio bigLeft bigRight = 2 := gateRatio_big
  have hlt : bigLeft > bigRight := by decide
  refine ⟨hg, ?_, ?_, by decide, by decide, ?_⟩
  · rw [ratio1, if_pos hlt, hg]
  · rw [ratio2, if_pos hlt]
  · rw [← exactRatio_round bigLeft bigRight (by decide) (by decide)]
    have : (2 * max bigLeft bigRight + min bigLeft bigRight) / (2 * min bigLeft bigRight) = 1 := by
      decide
    rw [this]
    rfl

/-- C4, amended. For gate counts `n1, n2 ≥ 1`: the ratio is computed in `double`
arithmetic and converted to `unsigned int`, and it is `round(max/min)` when the counts are
below `2 ^ 52` and `round(max/min)` is below `2 ^ 32`; the side with the larger count has
the ratio as its per-round budget and the other side has 1; the loop is a round followed
by the loop again while both cursors have gates, and it ends with a cursor exhausted; a
round folds the next gates of the left cursor up to its budget, then those of the right
cursor up to its budget, so it folds exactly one gate of the side with the smaller count
and at most `ratio` gates of the other. -/
theorem proportional_rounds {G M : Type} (P : Package G M) (c : EquivalenceChecker G)
    (h1 : 1 ≤ c.qc1.getNops) (h2 : 1 ≤ c.qc2.getNops) :
    (max c.qc1.getNops c.qc2.getNops < 2 ^ 52 →
      round ((max c.qc1.getNops c.qc2.getNops : ℚ) / (min c.qc1.getNops c.qc2.getNops : ℚ)) <
        2 ^ 32 →
      (gateRatio c.qc1.getNops c.qc2.getNops : ℤ) =
        round ((max c.qc1.getNops c.qc2.getNops : ℚ) /
          (min c.qc1.getNops c.qc2.getNops : ℚ))) ∧
    (c.qc2.getNops < c.qc1.getNops →
      ratio1 c.qc1.getNops c.qc2.getNops = gateRatio c.qc1.getNops c.qc2.getNops ∧
      ratio2 c.qc1.getNops c.qc2.getNops = 1) ∧
    (c.qc1.getNops ≤ c.qc2.getNops →
      ratio1 c.qc1.getNops c.qc2.getNops = 1 ∧
      ratio2 c.qc1.getNops c.qc2.getNops = gateRatio c.qc1.getNops c.qc2.getNops) ∧
    ∀ s : Sched G M,
      (checkProportional P c s =
        if bothPending s then
          checkProportional P c
            (proportionalRound P (ratio1 c.qc1.getNops c.qc2.getNops)
              (ratio2 c.qc1.getNops c.qc2.getNops) s)
        else s) ∧
      bothPending (checkProportional P c s) = false ∧
      (∀ r1 r2 : Nat,
        (proportionalRound P r1 r2 s).it1 = s.it1.drop r1 ∧
        (proportionalRound P r1 r2 s).it2 = s.it2.drop r2 ∧
        (proportionalRound P r1 r2 s).folded = s.folded ++ roundRecord P r1 r2 s ∧
        (proportionalRound P r1 r2 s).result = replay P s.result (roundRecord P r1 r2 s) ∧
        (roundRecord P r1 r2 s).map Prod.fst =
          List.replicate (min r1 s.it1.length) Direction.LEFT ++
            List.replicate (min r2 s.it2.length) Direction.RIGHT) ∧
      (bothPending s = true → c.qc2.getNops < c.qc1.getNops →
        min (ratio2 c.qc1.getNops c.qc2.getNops) s.it2.length = 1) ∧
      (bothPending s = true → c.qc1.getNops ≤ c.qc2.getNops →
        min (ratio1 c.qc1.getNops c.qc2.getNops) s.it1.length = 1) := by
  refine ⟨?_, ?_, ?_, ?_⟩
  · intro hmax hfit
    refine gateRatio_round _ _ h1 h2 hmax ?_
    rw [← exactRatio_round _ _ h1 h2] at hfit
    exact_mod_cast hfit
  · intro h
    simp [ratio1, ratio2, h]
  · intro h
    simp [ratio1, ratio2, Nat.not_lt.2 h]
  · intro s
    refine ⟨checkProportional_unfold P c s, ?_, ?_, ?_, ?_⟩
    · exact proportionalLoop_exit P _ _ (ratio_one _ _) _ s (le_refl _)
    · intro r1 r2
      obtain ⟨a, b, d, e⟩ := proportionalRound_eq P r1 r2 s
      exact ⟨a, b, d, e, roundRecord_sides P r1 r2 s⟩
    · intro hb h
      have := (bothPending_iff s).1 hb
      simp only [ratio2, h, if_true]
      omega
    · intro hb h
      have := (bothPending_iff s).1 hb
      simp only [ratio1, Nat.not_lt.2 h, if_false]
      omega

/-- C4 amended, at the example checker with ten and two gates: the computed ratio is
`round(10 / 2)`. -/
theorem proportional_rounds_witness :
    (gateRatio tenTwoChecker.qc1.getNops tenTwoChecker.qc2.getNops : ℤ) =
      round ((max tenTwoChecker.qc1.getNops tenTwoChecker.qc2.getNops : ℚ) /
        (min tenTwoChecker.qc1.getNops tenTwoChecker.qc2.getNops : ℚ)) :=
  (proportional_rounds affPackage tenTwoChecker (by decide) (by decide)).1 (by decide)
    (by
      rw [← exactRatio_round _ _ (by decide) (by decide)]
      decide)

/-- C5, as stated, fails: with ten gates on the left and two on the right, the first round
leaves five gates on the left and one on the right, having folded five left gates and then
one right gate; it does not fold one left gate and then the right gates. -/
theorem ten_two_first_round :
    ratio1 10 2 = 5 ∧ ratio2 10 2 = 1 ∧
    (proportionalRound affPackage (ratio1 10 2) (ratio2 10 2)
      (startSched affPackage tenTwoChecker)).it1.length = 5 ∧
    (proportionalRound affPackage (ratio1 10 2) (ratio2 10 2)
      (startSched affPackage tenTwoChecker)).it2.length = 1 ∧
    (proportionalRound affPackage (ratio1 10 2) (ratio2 10 2)
      (startSched affPackage tenTwoChecker)).folded.map Prod.fst =
      [Direction.LEFT, Direction.LEFT, Direction.LEFT, Direction.LEFT, Direction.LEFT,
        Direction.RIGHT] ∧
    ¬ ((proportionalRound affPackage (ratio1 10 2) (ratio2 10 2)
        (startSched affPackage tenTwoChecker)).folded.map Prod.fst =
      [Direction.LEFT, Direction.RIGHT, Direction.RIGHT]) := by
  rw [ratio1_ten_two, ratio2_ten_two]
  decide

/-- C5, amended. With ten gates on the left and two on the right the ratio is 5, the left
budget is 5 and the right budget is 1: each round folds five gates of the left circuit and
then one gate of the right circuit, two rounds make up the whole run, both cursors are
exhausted together and the drain loops find nothing left. -/
theorem proportional_ten_two {G M : Type} (P : Package G M) (c : EquivalenceChecker G)
    (s : Sched G M) (hn1 : c.qc1.getNops = 10) (hn2 : c.qc2.getNops = 2)
    (hl1 : s.it1.length = 10) (hl2 : s.it2.length = 2) :
    gateRatio 10 2 = 5 ∧
    checkProportional P c s = proportionalRound P 5 1 (proportionalRound P 5 1 s) ∧
    (roundRecord P 5 1 s).map Prod.fst =
      [Direction.LEFT, Direction.LEFT, Direction.LEFT, Direction.LEFT, Direction.LEFT,
        Direction.RIGHT] ∧
    (roundRecord P 5 1 (proportionalRound P 5 1 s)).map Prod.fst =
      [Direction.LEFT, Direction.LEFT, Direction.LEFT, Direction.LEFT, Direction.LEFT,
        Direction.RIGHT] ∧
    (checkProportional P c s).folded =
      s.folded ++ roundRecord P 5 1 s ++ roundRecord P 5 1 (proportionalRound P 5 1 s) ∧
    (checkProportional P c s).it1 = [] ∧ (checkProportional P c s).it2 = [] ∧
    finishSecond P (finishFirst P (checkProportional P c s)) = checkProportional P c s := by
  have hr1 : ratio1 c.qc1.getNops c.qc2.getNops = 5 := by rw [hn1, hn2, ratio1_ten_two]
  have hr2 : ratio2 c.qc1.getNops c.qc2.getNops = 1 := by rw [hn1, hn2, ratio2_ten_two]
  obtain ⟨a1, a2, a3, _⟩ := proportionalRound_eq P 5 1 s
  obtain ⟨b1, b2, b3, _⟩ := proportionalRound_eq P 5 1 (proportionalRound P 5 1 s)
  have l1 : (proportionalRound P 5 1 s).it1.length = 5 := by
    rw [a1, List.length_drop, hl1]
  have l2 : (proportionalRound P 5 1 s).it2.length = 1 := by
    rw [a2, List.length_drop, hl2]
  have m1 : (proportionalRound P 5 1 (proportionalRound P 5 1 s)).it1 = [] := by
    apply List.eq_nil_of_length_eq_zero
    rw [b1, List.length_drop, l1]
  have m2 : (proportionalRound P 5 1 (proportionalRound P 5 1 s)).it2 = [] := by
    apply List.eq_nil_of_length_eq_zero
    rw [b2, List.length_drop, l2]
  have p0 : bothPending s = true := (bothPending_iff s).2 (by omega)
  have p1 : bothPending (proportionalRound P 5 1 s) = true :=
    (bothPending_iff _).2 (by omega)
  have p2 : bothPending (proportionalRound P 5 1 (proportionalRound P 5 1 s)) = false := by
    simp [bothPending, m1]
  have hrun : checkProportional P c s =
      proportionalRound P 5 1 (proportionalRound P 5 1 s) := by
    rw [checkProportional_unfold, hr1, hr2, p0, if_pos rfl, checkProportional_unfold, hr1,
      hr2, p1, if_pos rfl, checkProportional_unfold, p2]
    rfl
  refine ⟨gateRatio_ten_two, hrun, ?_, ?_, ?_, ?_, ?_, ?_⟩
  · rw [roundRecord_sides, hl1, hl2]
    rfl
  · rw [roundRecord_sides, l1, l2]
    rfl
  · rw [hrun, b3, a3]
  · rw [hrun, m1]
  · rw [hrun, m2]
  · rw [hrun]
    exact finish_exhausted P _ m1 m2

/-- C5 amended, at the example checker. -/
theorem proportional_ten_two_witness :
    (checkProportional affPackage tenTwoChecker (startSched affPackage tenTwoChecker)).it1 = [] ∧
    (checkProportional affPackage tenTwoChecker (startSched affPackage tenTwoChecker)).it2 = [] :=
  ⟨(proportional_ten_two affPackage tenTwoChecker (startSched affPackage tenTwoChecker)
      rfl rfl rfl rfl).2.2.2.2.2.1,
   (proportional_ten_two affPackage tenTwoChecker (startSched affPackage tenTwoChecker)
      rfl rfl rfl rfl).2.2.2.2.2.2.1⟩

/-! ## The dispatch claim -/

/-- The dispatch of `check`.  It throws `std::invalid_argument` exactly when the requested
strategy is none of Naive, Proportional and Lookahead; it then returns no results whatever the circuits
are, and no other strategy is tried.  For each of the three strategies no exception is
thrown: the run returns results, recorded under the requested strategy, unless the
fidelity block is enabled and its traversal faults. -/
theorem unsupported_strategy {G M : Type} [DecidableEq M] (P : Package G M)
    (config : Configuration) (c0 : EquivalenceChecker G) :
    ((∃ s, check P config c0 = Except.error (Failure.invalid_argument s)) ↔
      (config.strategy ≠ Strategy.Naive ∧ config.strategy ≠ Strategy.Proportional ∧
        config.strategy ≠ Strategy.Lookahead)) ∧
    ((config.strategy ≠ Strategy.Naive ∧ config.strategy ≠ Strategy.Proportional ∧
        config.strategy ≠ Strategy.Lookahead) →
      check P config c0 = Except.error (Failure.invalid_argument config.strategy) ∧
      ∀ out, check P config c0 ≠ Except.ok out) ∧
    ((config.strategy = Strategy.Naive ∨ config.strategy = Strategy.Proportional ∨
        config.strategy = Strategy.Lookahead) →
      (∃ out, check P config c0 = Except.ok out ∧ out.results.strategy = config.strategy) ∨
      ((P.runPreCheckPasses config c0).isFid = true ∧
        check P config c0 = Except.error Failure.fault)) := by
  have hsup : supported config.strategy = true →
      (∃ out, check P config c0 = Except.ok out ∧ out.results.strategy = config.strategy) ∨
      ((P.runPreCheckPasses config c0).isFid = true ∧
        check P config c0 = Except.error Failure.fault) := by
    intro h
    obtain ⟨s1, hs, _⟩ := schedule_supported P (P.runPreCheckPasses config c0)
      config.strategy (startSched P (P.runPreCheckPasses config c0)) h
    unfold check reducedRun
    simp only [hs]
    cases hf : fidelityBlock P (P.runPreCheckPasses config c0)
        (reduceResult P (P.runPreCheckPasses config c0)
          (finishSecond P (finishFirst P s1)).result
          (finishSecond P (finishFirst P s1)).perm1
          (finishSecond P (finishFirst P s1)).perm2) with
    | none =>
      right
      refine ⟨?_, rfl⟩
      unfold fidelityBlock at hf
      by_cases hfid : (P.runPreCheckPasses config c0).isFid = true
      · exact hfid
      · simp [hfid] at hf
    | some fid => exact Or.inl ⟨_, rfl, rfl⟩
  have hunsup : supported config.strategy = false →
      check P config c0 = Except.error (Failure.invalid_argument config.strategy) := by
    intro h
    unfold check reducedRun
    simp only [schedule_unsupported P _ _ _ h]
  have hcases : supported config.strategy = false ↔
      (config.strategy ≠ Strategy.Naive ∧ config.strategy ≠ Strategy.Proportional ∧
        config.strategy ≠ Strategy.Lookahead) := by
    cases config.strategy <;> simp [supported]
  have hcases2 : supported config.strategy = true ↔
      (config.strategy = Strategy.Naive ∨ config.strategy = Strategy.Proportional ∨
        config.strategy = Strategy.Lookahead) := by
    cases config.strategy <;> simp [supported]
  refine ⟨⟨?_, ?_⟩, ?_, ?_⟩
  · rintro ⟨s, hs⟩
    rw [← hcases]
    cases hsp : supported config.strategy with
    | false => rfl
    | true =>
      rcases hsup hsp with ⟨out, ho, _⟩ | ⟨_, hf⟩
      · rw [ho] at hs
        cases hs
      · rw [hf] at hs
        cases hs
  · intro h
    exact ⟨_, hunsup (hcases.2 h)⟩
  · intro h
    refine ⟨hunsup (hcases.2 h), ?_⟩
    intro out ho
    rw [hunsup (hcases.2 h)] at ho
    cases ho
  · intro h
    exact hsup (hcases2.2 h)

/-- The dispatch at the example checker: the strategy of the sibling checker is rejected. -/
theorem unsupported_strategy_witness :
    check affPackage ⟨Strategy.CompilationFlow⟩ affChecker =
      Except.error (Failure.invalid_argument Strategy.CompilationFlow) :=
  ((unsupported_strategy affPackage ⟨Strategy.CompilationFlow⟩ affChecker).2.1
    (by decide)).1

/-! ## The initial matrix claim -/

/-- C7. When the qubit count fits the signed line index type, `createInitialMatrix` is the
ancilla reduction of the identity over the vector `ancillary`, which has one entry per
line and flags line `q` exactly when `q` is ancillary in both circuits and either the
line is occupied in one initial permutation only or it holds an idle qubit in one circuit
only.  In particular a line that is ancillary in both circuits, holds an idle qubit of the
first circuit and is not occupied in the second one is flagged. -/
theorem initial_matrix_lines {G M : Type} (P : Package G M) (c : EquivalenceChecker G)
    (hb : 1 ≤ P.qubitBits) (hn : c.nqubits ≤ 2 ^ (P.qubitBits - 1)) :
    createInitialMatrix P c =
      P.reduceAncillae (P.makeIdent c.nqubits) (initialAncillary P.qubitBits c) none ∧
    (initialAncillary P.qubitBits c).length = c.nqubits ∧
    (∀ q : Nat, (initialAncillary P.qubitBits c)[q]? = some true ↔
      q < c.nqubits ∧ c.qc1.logicalQubitIsAncillary q = true ∧
      c.qc2.logicalQubitIsAncillary q = true ∧
      (¬ (occupied c.initial1 q ↔ occupied c.initial2 q) ∨
        ¬ (idleOn c.qc1 c.initial1 q ↔ idleOn c.qc2 c.initial2 q))) ∧
    (∀ q : Nat, q < c.nqubits → c.qc1.logicalQubitIsAncillary q = true →
      c.qc2.logicalQubitIsAncillary q = true → idleOn c.qc1 c.initial1 q →
      ¬ occupied c.initial2 q → (initialAncillary P.qubitBits c)[q]? = some true) := by
  have hget : ∀ q : Nat, (initialAncillary P.qubitBits c)[q]? = some true ↔
      q < c.nqubits ∧ lineFlagged c q = true := by
    intro q
    unfold initialAncillary
    rw [markLoop_count _ _ hb hn, markLoop_get, List.length_replicate]
    by_cases hq : q < c.nqubits
    · by_cases hf : lineFlagged c q = true
      · simp [hq, hf]
      · simp [hq, hf, List.getElem?_replicate]
    · simp [hq, List.getElem?_replicate]
  refine ⟨rfl, ?_, ?_, ?_⟩
  · unfold initialAncillary
    rw [markLoop_length, List.length_replicate]
  · intro q
    rw [hget, lineFlagged_iff]
  · intro q hq h1 h2 hidle hocc
    rw [hget, lineFlagged_iff]
    refine ⟨hq, h1, h2, Or.inl ?_⟩
    intro hiff
    apply hocc
    apply hiff.1
    obtain ⟨entry, hfind, _⟩ := hidle
    exact ⟨entry, List.mem_of_find?_eq_some hfind, by
      simpa using List.find?_some hfind⟩

/-- C7, at the example checker: line 1, which holds an idle ancilla of the first circuit
and is absent from the second, is flagged. -/
theorem initial_matrix_lines_witness :
    (initialAncillary 8 ancillaChecker)[1]? = some true :=
  (initial_matrix_lines affPackage ancillaChecker (by decide) (by decide)).2.2.2 1
    (by decide) rfl rfl ⟨(1, 1), rfl, rfl⟩ (by simp [occupied, ancillaChecker])

/-! ## The fidelity claims -/

/-- C9 (code at the failing input). On the single-terminal diagram `traceRecur` returns no
value: it reads the successor edges of the terminal node itself, which are null, and
recurses into a null pointer; so the fidelity block yields no fidelity and the run of
`check` on zero lines ends in a fault. -/
theorem terminal_root_faults :
    (∀ fuel : Nat, traceRecur diagHeap fuel Ptr.terminal [] = none) ∧
    fidelity diagPackage 0 (leaf 1) = none ∧
    reducedRun diagPackage ⟨Strategy.Naive⟩ scalarChecker = Except.ok (leaf 1) ∧
    check diagPackage ⟨Strategy.Naive⟩ scalarChecker = Except.error Failure.fault := by
  have h1 : ∀ fuel : Nat, traceRecur diagHeap fuel Ptr.terminal [] = none := by
    intro fuel
    cases fuel with
    | zero => rfl
    | succ k =>
      simp [traceRecur, deref, diagHeap, emptyHeap, visitChild, isTerminal, tableFind,
        traceRecur_null]
  have h2 : fidelity diagPackage 0 (leaf 1) = none := by
    unfold fidelity
    have hp : diagPackage.p (leaf 1) = Ptr.terminal := rfl
    have hh : diagPackage.heap = diagHeap := rfl
    rw [hp, hh, h1]
  have h3 : reducedRun diagPackage ⟨Strategy.Naive⟩ scalarChecker = Except.ok (leaf 1) := rfl
  refine ⟨h1, h2, h3, ?_⟩
  unfold check
  rw [h3]
  have hb : fidelityBlock diagPackage
      (diagPackage.runPreCheckPasses ⟨Strategy.Naive⟩ scalarChecker) (leaf 1) = none := by
    unfold fidelityBlock
    have hn : (diagPackage.runPreCheckPasses ⟨Strategy.Naive⟩ scalarChecker).nqubits = 0 :=
      rfl
    have hf : (diagPackage.runPreCheckPasses ⟨Strategy.Naive⟩ scalarChecker).isFid = true :=
      rfl
    rw [hn, hf, if_pos rfl, h2]
    rfl
  simp only [hb]

/-- C10, as stated, fails: on one line that is ancillary in both circuits, comparing the
identity gate with itself, `check` finds the reduced result equal to the goal matrix
`[1 0; 0 0]` and computes the fidelity 1/4. -/
theorem ancilla_fidelity_quarter :
    Except.map Outcome.core (check diagPackage ⟨Strategy.Naive⟩ (diagChecker true)) =
      Except.ok (⟨Ptr.addr 1, ⟨1, 0⟩⟩, true, some (1 / 4)) ∧
    createGoalMatrix diagPackage (diagChecker true) = ⟨Ptr.addr 1, ⟨1, 0⟩⟩ ∧
    (some (1 / 4) : Option ℚ) ≠ some 1 := by
  refine ⟨?_, rfl, by norm_num⟩
  simp [check, reducedRun, schedule, checkNaive, naiveLoop, bothPending, startSched,
    diagChecker, diagPackage, stepLeft, stepRight, applyGate, finishFirst, finishSecond,
    forLeft, forRight, reduceResult, fidelityBlock, fidelity, traceRecur, diagHeap, deref,
    visitChild, childValue, isTerminal, leaf, complex2fp, mul, add, tableAssign,
    createInitialMatrix, initialAncillary, markLoop, markLine, castQubit, findLine,
    diagCircuit, mulWeight, createGoalMatrix, equals, Except.map, Outcome.core]
  norm_num

/-- C10, amended. When the run up to the fidelity block yields a reduced result that
`equals` finds equal to the goal matrix, the fidelity block is enabled, the node memory is
ordered and the goal matrix is the identity diagram over the `n ≥ 1` lines with root
weight one (no line is reduced away), `check` returns with `equivalence = true` and the
fidelity 1. -/
theorem fidelity_identity_goal {G M : Type} [DecidableEq M] (P : Package G M)
    (config : Configuration) (c0 : EquivalenceChecker G) (result : M)
    (hord : ordered P.heap)
    (hrun : reducedRun P config c0 = Except.ok result)
    (heq : equals result (createGoalMatrix P (P.runPreCheckPasses config c0)) = true)
    (hfid : (P.runPreCheckPasses config c0).isFid = true)
    (hn : 1 ≤ (P.runPreCheckPasses config c0).nqubits)
    (hw : P.w (createGoalMatrix P (P.runPreCheckPasses config c0)) = ⟨1, 0⟩)
    (hid : identDD P.heap (P.runPreCheckPasses config c0).nqubits
      (P.p (createGoalMatrix P (P.runPreCheckPasses config c0))) = true) :
    check P config c0 =
      Except.ok
        { results :=
            { strategy := config.strategy,
              result := createGoalMatrix P (P.runPreCheckPasses config c0),
              equivalence := true },
          fid := some 1 } := by
  have hres : result = createGoalMatrix P (P.runPreCheckPasses config c0) := by
    simpa [equals] using heq
  subst hres
  obtain ⟨k, hk⟩ : ∃ k, (P.runPreCheckPasses config c0).nqubits = k + 1 :=
    ⟨(P.runPreCheckPasses config c0).nqubits - 1, by omega⟩
  rw [hk] at hid
  obtain ⟨a, hp, hlt⟩ := identDD_lt P.heap k _ hid
  have hfv : fidelity P (P.runPreCheckPasses config c0).nqubits
      (createGoalMatrix P (P.runPreCheckPasses config c0)) = some 1 := by
    rw [fidelity_node P hord _ _ a hp hlt, identDD_trace P.heap hord (k + 1) _ hid, hw, hk]
    simp only [fidelityValue, mul, complex2fp]
    have h4 : (4 : ℚ) ^ (k + 1) = (2 : ℚ) ^ (k + 1) * (2 : ℚ) ^ (k + 1) := by
      rw [← mul_pow]
      norm_num
    have hpos : (2 : ℚ) ^ (k + 1) ≠ 0 := by positivity
    rw [h4]
    congr 1
    field_simp
  unfold check
  rw [hrun]
  simp only [fidelityBlock, hfid, if_true, hfv, Option.map_some', equals, decide_True]

/-- C10 amended, at the example checker whose line is not ancillary. -/
theorem fidelity_identity_goal_witness :
    check diagPackage ⟨Strategy.Naive⟩ (diagChecker false) =
      Except.ok
        { results :=
            { strategy := Strategy.Naive,
              result := createGoalMatrix diagPackage (diagChecker false),
              equivalence := true },
          fid := some 1 } :=
  fidelity_identity_goal diagPackage ⟨Strategy.Naive⟩ (diagChecker false)
    ⟨Ptr.addr 0, ⟨1, 0⟩⟩ ordered_diagHeap
    (by
      simp [reducedRun, schedule, checkNaive, naiveLoop, bothPending, startSched,
        diagChecker, diagPackage, stepLeft, stepRight, applyGate, finishFirst,
        finishSecond, forLeft, forRight, reduceResult, createInitialMatrix,
        initialAncillary, markLoop, markLine, castQubit, findLine, diagCircuit, mulWeight])
    (by simp [equals, createGoalMatrix, diagPackage, diagChecker])
    rfl (by decide) rfl
    (by simp [identDD, createGoalMatrix, diagPackage, diagChecker, diagHeap, leaf, isTerminal])

/-! ## The lookahead iteration -/

/-- The three ways through the block `if (!cachedLeft) { ... }`: the operand is cached
already; the block breaks; or the gate under the cursor is built, cached and passed. -/
theorem fetchLeft_spec {G M : Type} (P : Package G M) (st : Lookahead G M) :
    (st.cachedLeft = true ∧ fetchLeft P st = some st) ∨
    (st.cachedLeft = false ∧ fetchLeft P st = none ∧
      (st.s.it1 = [] ∨ upcomingMeasure P st.s.it1 = true)) ∨
    (st.cachedLeft = false ∧ ∃ g rest, st.s.it1 = g :: rest ∧
      P.getType g ≠ OpType.Measure ∧
      fetchLeft P st = some { st with
        s := { st.s with it1 := rest, perm1 := (P.getDD g st.s.perm1).2 }
        left := (P.getDD g st.s.perm1).1
        cachedLeft := true }) := by
  unfold fetchLeft
  by_cases hc : st.cachedLeft = true
  · left
    simp [hc]
  · have hc2 : st.cachedLeft = false := by simpa using hc
    right
    cases hit : st.s.it1 with
    | nil =>
      left
      simp [hc2]
    | cons g rest =>
      by_cases hm : P.getType g = OpType.Measure
      · left
        simp [hc2, hm, upcomingMeasure]
      · right
        exact ⟨hc2, g, rest, rfl, hm, by simp [hc2, hm]⟩

/-- The three ways through the block `if (!cachedRight) { ... }`. -/
theorem fetchRight_spec {G M : Type} (P : Package G M) (st : Lookahead G M) :
    (st.cachedRight = true ∧ fetchRight P st = some st) ∨
    (st.cachedRight = false ∧ fetchRight P st = none ∧
      (st.s.it2 = [] ∨ upcomingMeasure P st.s.it2 = true)) ∨
    (st.cachedRight = false ∧ ∃ g rest, st.s.it2 = g :: rest ∧
      P.getType g ≠ OpType.Measure ∧
      fetchRight P st = some { st with
        s := { st.s with it2 := rest, perm2 := (P.getInverseDD g st.s.perm2).2 }
        right := (P.getInverseDD g st.s.perm2).1
        cachedRight := true }) := by
  unfold fetchRight
  by_cases hc : st.cachedRight = true
  · left
    simp [hc]
  · have hc2 : st.cachedRight = false := by simpa using hc
    right
    cases hit : st.s.it2 with
    | nil =>
      left
      simp [hc2]
    | cons g rest =>
      by_cases hm : P.getType g = OpType.Measure
      · left
        simp [hc2, hm, upcomingMeasure]
      · right
        exact ⟨hc2, g, rest, rfl, hm, by simp [hc2, hm]⟩

/-- What the left block leaves when it does not break. -/
theorem fetchLeft_some {G M : Type} (P : Package G M) (st st1 : Lookahead G M)
    (h : fetchLeft P st = some st1) :
    st1.cachedLeft = true ∧ st1.cachedRight = st.cachedRight ∧ st1.right = st.right ∧
    st1.s.it2 = st.s.it2 ∧ st1.s.result = st.s.result ∧ st1.s.folded = st.s.folded ∧
    st1.s.it1 = (if st.cachedLeft then st.s.it1 else st.s.it1.tail) ∧
    (st.cachedLeft = true → st1.left = st.left) ∧
    (st.cachedLeft = false → ∃ g rest, st.s.it1 = g :: rest ∧
      P.getType g ≠ OpType.Measure ∧ st1.left = (P.getDD g st.s.perm1).1) ∧
    st1.s.perm2 = st.s.perm2 := by
  rcases fetchLeft_spec P st with ⟨hc, hf⟩ | ⟨hc, hf, _⟩ | ⟨hc, g, rest, hit, hm, hf⟩
  · rw [hf] at h
    injection h with h
    subst h
    simp [hc]
  · rw [hf] at h
    cases h
  · rw [hf] at h
    injection h with h
    subst h
    simp [hc, hit, hm]

/-- What the right block leaves when it does not break. -/
theorem fetchRight_some {G M : Type} (P : Package G M) (st st1 : Lookahead G M)
    (h : fetchRight P st = some st1) :
    st1.cachedRight = true ∧ st1.cachedLeft = st.cachedLeft ∧ st1.left = st.left ∧
    st1.s.it1 = st.s.it1 ∧ st1.s.result = st.s.result ∧ st1.s.folded = st.s.folded ∧
    st1.s.it2 = (if st.cachedRight then st.s.it2 else st.s.it2.tail) ∧
    (st.cachedRight = true → st1.right = st.right) ∧
    (st.cachedRight = false → ∃ g rest, st.s.it2 = g :: rest ∧
      P.getType g ≠ OpType.Measure ∧ st1.right = (P.getInverseDD g st.s.perm2).1) ∧
    st1.s.perm1 = st.s.perm1 := by
  rcases fetchRight_spec P st with ⟨hc, hf⟩ | ⟨hc, hf, _⟩ | ⟨hc, g, rest, hit, hm, hf⟩
  · rw [hf] at h
    injection h with h
    subst h
    simp [hc]
  · rw [hf] at h
    cases h
  · rw [hf] at h
    injection h with h
    subst h
    simp [hc, hit, hm]

/-- What the commit leaves: the cursors and the cached operands as they are, the smaller
product as result, and only the flag of the committed side cleared. -/
theorem commit_spec {G M : Type} (P : Package G M) (st : Lookahead G M) :
    (commit P st).s.it1 = st.s.it1 ∧ (commit P st).s.it2 = st.s.it2 ∧
    (commit P st).left = st.left ∧ (commit P st).right = st.right ∧
    (P.size (P.multiply st.left st.s.result) ≤ P.size (P.multiply st.s.result st.right) →
      (commit P st).s.result = P.multiply st.left st.s.result ∧
      (commit P st).cachedLeft = false ∧ (commit P st).cachedRight = st.cachedRight) ∧
    (P.size (P.multiply st.s.result st.right) < P.size (P.multiply st.left st.s.result) →
      (commit P st).s.result = P.multiply st.s.result st.right ∧
      (commit P st).cachedRight = false ∧ (commit P st).cachedLeft = st.cachedLeft) := by
  by_cases hsz : P.size (P.multiply st.left st.s.result) ≤
      P.size (P.multiply st.s.result st.right)
  · have hn : ¬ P.size (P.multiply st.s.result st.right) <
        P.size (P.multiply st.left st.s.result) := by omega
    simp [commit, hsz, hn]
  · have hn : P.size (P.multiply st.s.result st.right) <
        P.size (P.multiply st.left st.s.result) := by omega
    simp [commit, hsz, hn]

/-- A completed iteration is both blocks followed by the commit. -/
theorem lookaheadIter_completed {G M : Type} (P : Package G M) (st st2 : Lookahead G M)
    (h : lookaheadIter P st = (st2, false)) :
    ∃ sa sb, fetchLeft P st = some sa ∧ fetchRight P sa = some sb ∧ st2 = commit P sb := by
  unfold lookaheadIter at h
  cases h1 : fetchLeft P st with
  | none => simp [h1] at h
  | some sa =>
    simp only [h1] at h
    cases h2 : fetchRight P sa with
    | none => simp [h2] at h
    | some sb =>
      simp only [h2] at h
      exact ⟨sa, sb, rfl, h2, (Prod.mk.inj h).1.symm⟩

/-- C11, as stated, fails: in the first iteration on the example checker the left product
is committed (`cachedLeft` is cleared, `cachedRight` stays set), yet both cursors have
moved: the right cursor, on the side that is not committed, stands one gate further. -/
theorem first_iteration_moves_both :
    (lookaheadIter affPackage
      (lookaheadInit affPackage (startSched affPackage affChecker))).2 = false ∧
    (lookaheadIter affPackage
      (lookaheadInit affPackage (startSched affPackage affChecker))).1.cachedLeft = false ∧
    (lookaheadIter affPackage
      (lookaheadInit affPackage (startSched affPackage affChecker))).1.cachedRight = true ∧
    (startSched affPackage affChecker : Sched AffGate (Int × Int)).it2.length = 3 ∧
    (lookaheadIter affPackage
      (lookaheadInit affPackage (startSched affPackage affChecker))).1.s.it2.length = 2 ∧
    (lookaheadIter affPackage
      (lookaheadInit affPackage (startSched affPackage affChecker))).1.s.it1.length = 2 := by
  decide

/-- C11, amended. In every completed iteration of the loop of `checkLookahead`, each side
whose cache is empty at the start has the gate under its cursor built and cached and its
cursor advanced by one, while a side with a cached operand keeps operand and cursor; then,
with `lookLeft = left * result` and `lookRight = result * right`, the result becomes
`lookLeft` when `size(lookLeft) ≤ size(lookRight)` and `lookRight` otherwise, and only the
flag of the committed side is cleared: the other operand stays cached. -/
theorem lookahead_commit_rule {G M : Type} (P : Package G M) (st st2 : Lookahead G M)
    (h : lookaheadIter P st = (st2, false)) :
    st2.s.it1 = (if st.cachedLeft then st.s.it1 else st.s.it1.tail) ∧
    st2.s.it2 = (if st.cachedRight then st.s.it2 else st.s.it2.tail) ∧
    (st.cachedLeft = true → st2.left = st.left) ∧
    (st.cachedLeft = false → ∃ g rest, st.s.it1 = g :: rest ∧
      st2.left = (P.getDD g st.s.perm1).1) ∧
    (st.cachedRight = true → st2.right = st.right) ∧
    (st.cachedRight = false → ∃ g rest, st.s.it2 = g :: rest ∧
      st2.right = (P.getInverseDD g st.s.perm2).1) ∧
    (P.size (P.multiply st2.left st.s.result) ≤ P.size (P.multiply st.s.result st2.right) →
      st2.s.result = P.multiply st2.left st.s.result ∧
      st2.cachedLeft = false ∧ st2.cachedRight = true) ∧
    (P.size (P.multiply st.s.result st2.right) < P.size (P.multiply st2.left st.s.result) →
      st2.s.result = P.multiply st.s.result st2.right ∧
      st2.cachedLeft = true ∧ st2.cachedRight = false) := by
  obtain ⟨sa, sb, h1, h2, rfl⟩ := lookaheadIter_completed P st st2 h
  obtain ⟨a1, a2, a3, a4, a5, _, a7, a8, a9, a10⟩ := fetchLeft_some P st sa h1
  obtain ⟨b1, b2, b3, b4, b5, _, b7, b8, b9, _⟩ := fetchRight_some P sa sb h2
  obtain ⟨c1, c2, c3, c4, c5, c6⟩ := commit_spec P sb
  rw [c3, c4] at *
  rw [b5, a5] at c5 c6
  refine ⟨?_, ?_, ?_, ?_, ?_, ?_, ?_, ?_⟩
  · rw [c1, b4, a7]
  · rw [c2, b7, a2, a4]
  · intro hc
    rw [b3, a8 hc]
  · intro hc
    obtain ⟨g, rest, hit, _, hl⟩ := a9 hc
    exact ⟨g, rest, hit, by rw [b3, hl]⟩
  · intro hc
    rw [b8 (a2.trans hc), a3]
  · intro hc
    obtain ⟨g, rest, hit, _, hr⟩ := b9 (a2.trans hc)
    exact ⟨g, rest, by rw [← a4]; exact hit, by rw [hr, a10]⟩
  · intro hsz
    obtain ⟨r1, r2, r3⟩ := c5 hsz
    exact ⟨r1, r2, r3.trans b1⟩
  · intro hsz
    obtain ⟨r1, r2, r3⟩ := c6 hsz
    exact ⟨r1, r3.trans (b2.trans a1), r2⟩

/-- C11 amended, at the first iteration on the example checker: the sizes tie, so the left
product is committed. -/
theorem lookahead_commit_rule_witness :
    (lookaheadIter affPackage
      (lookaheadInit affPackage (startSched affPackage affChecker))).1.s.result =
      affPackage.multiply
        (lookaheadIter affPackage
          (lookaheadInit affPackage (startSched affPackage affChecker))).1.left
        (startSched affPackage affChecker : Sched AffGate (Int × Int)).result :=
  ((lookahead_commit_rule affPackage
      (lookaheadInit affPackage (startSched affPackage affChecker))
      (lookaheadIter affPackage
        (lookaheadInit affPackage (startSched affPackage affChecker))).1
      (Prod.ext rfl (by decide))).2.2.2.2.2.2.1 (by decide)).1

/-! ## The pending operands of the lookahead loop -/

theorem atMostOne_commit {G M : Type} (P : Package G M) (st : Lookahead G M) :
    atMostOneCached (commit P st) = true := by
  unfold commit atMostOneCached
  by_cases hsz : P.size (P.multiply st.left st.s.result) ≤
      P.size (P.multiply st.s.result st.right)
  · simp [hsz]
  · simp [hsz]

theorem atMostOne_lookaheadIter {G M : Type} (P : Package G M) (st : Lookahead G M)
    (h : atMostOneCached st = true) : atMostOneCached (lookaheadIter P st).1 = true := by
  unfold lookaheadIter
  cases h1 : fetchLeft P st with
  | none => exact h
  | some sa =>
    dsimp only
    rcases fetchRight_spec P sa with ⟨hc, hf⟩ | ⟨hc, hf, _⟩ | ⟨hc, g, rest, hit, hm, hf⟩
    · rw [hf]
      exact atMostOne_commit P sa
    · rw [hf]
      simp [atMostOneCached, hc]
    · rw [hf]
      exact atMostOne_commit P _

theorem atMostOne_lookaheadLoop {G M : Type} (P : Package G M) (fuel : Nat)
    (st : Lookahead G M) (h : atMostOneCached st = true) :
    atMostOneCached (lookaheadLoop P fuel st) = true := by
  induction fuel generalizing st with
  | zero => simpa [lookaheadLoop] using h
  | succ fuel ih =>
    unfold lookaheadLoop
    split
    · split
      · exact atMostOne_lookaheadIter P st h
      · exact ih _ (atMostOne_lookaheadIter P st h)
    · exact h

/-- C15. The state `lookaheadLoop P k (lookaheadInit P s)` is the one in which the loop
condition of `checkLookahead` is evaluated for the `k+1`-st time, or the one in which the
loop has ended before; in each of them at most one of `cachedLeft` and `cachedRight` is
set.  So of the two flush blocks at most one runs on the exit state, and what
`checkLookahead` returns is the exit state with its pending operand, if any, multiplied
into the result: on the left for a left operand, on the right for a right operand. -/
theorem lookahead_pending {G M : Type} (P : Package G M) (s : Sched G M) :
    (∀ fuel : Nat, atMostOneCached (lookaheadLoop P fuel (lookaheadInit P s)) = true) ∧
    ¬ ((lookaheadExit P s).cachedLeft = true ∧ (lookaheadExit P s).cachedRight = true) ∧
    ((lookaheadExit P s).cachedLeft = true →
      checkLookahead P s =
        { (lookaheadExit P s).s with
          result := P.multiply (lookaheadExit P s).left (lookaheadExit P s).s.result
          folded := (lookaheadExit P s).s.folded ++
            [(Direction.LEFT, (lookaheadExit P s).left)] }) ∧
    ((lookaheadExit P s).cachedRight = true →
      checkLookahead P s =
        { (lookaheadExit P s).s with
          result := P.multiply (lookaheadExit P s).s.result (lookaheadExit P s).right
          folded := (lookaheadExit P s).s.folded ++
            [(Direction.RIGHT, (lookaheadExit P s).right)] }) ∧
    ((lookaheadExit P s).cachedLeft = false → (lookaheadExit P s).cachedRight = false →
      checkLookahead P s = (lookaheadExit P s).s) := by
  have hall : ∀ fuel : Nat,
      atMostOneCached (lookaheadLoop P fuel (lookaheadInit P s)) = true :=
    fun fuel => atMostOne_lookaheadLoop P fuel _ rfl
  have hex : atMostOneCached (lookaheadExit P s) = true := hall _
  have hrun : checkLookahead P s = (flushRight P (flushLeft P (lookaheadExit P s))).s := rfl
  refine ⟨hall, ?_, ?_, ?_, ?_⟩
  · rintro ⟨hl, hr⟩
    simp [atMostOneCached, hl, hr] at hex
  · intro hl
    have hr : (lookaheadExit P s).cachedRight = false := by
      cases hr : (lookaheadExit P s).cachedRight with
      | false => rfl
      | true => simp [atMostOneCached, hl, hr] at hex
    rw [hrun]
    simp [flushLeft, flushRight, hl, hr]
  · intro hr
    have hl : (lookaheadExit P s).cachedLeft = false := by
      cases hl : (lookaheadExit P s).cachedLeft with
      | false => rfl
      | true => simp [atMostOneCached, hl, hr] at hex
    rw [hrun]
    simp [flushLeft, flushRight, hl, hr]
  · intro hl hr
    rw [hrun]
    simp [flushLeft, flushRight, hl, hr]

/-! ## Measure gates and the cursors -/

theorem noMeasurePassed_refl {G M : Type} (P : Package G M) (it : List G) :
    NoMeasurePassed P it it :=
  ⟨[], rfl, by simp⟩

theorem noMeasurePassed_step {G M : Type} (P : Package G M) (it0 : List G) (g : G)
    (rest : List G) (h : NoMeasurePassed P it0 (g :: rest))
    (hm : P.getType g ≠ OpType.Measure) : NoMeasurePassed P it0 rest := by
  obtain ⟨passed, he, hp⟩ := h
  refine ⟨passed ++ [g], by simp [he], ?_⟩
  intro x hx
  rcases List.mem_append.1 hx with hx | hx
  · exact hp x hx
  · have : x = g := by simpa using hx
    rw [this]
    exact hm

theorem noMeasure_fetchLeft {G M : Type} (P : Package G M) (it1 it2 : List G)
    (st sa : Lookahead G M) (hf : fetchLeft P st = some sa)
    (h : NoMeasurePassed P it1 st.s.it1 ∧ NoMeasurePassed P it2 st.s.it2) :
    NoMeasurePassed P it1 sa.s.it1 ∧ NoMeasurePassed P it2 sa.s.it2 := by
  rcases fetchLeft_spec P st with ⟨hc, hs⟩ | ⟨hc, hs, _⟩ | ⟨hc, g, rest, hit, hm, hs⟩
  · rw [hs] at hf
    injection hf with hf
    subst hf
    exact h
  · rw [hs] at hf
    cases hf
  · rw [hs] at hf
    injection hf with hf
    subst hf
    refine ⟨?_, h.2⟩
    have h1 := h.1
    rw [hit] at h1
    exact noMeasurePassed_step P it1 g rest h1 hm

theorem noMeasure_fetchRight {G M : Type} (P : Package G M) (it1 it2 : List G)
    (st sa : Lookahead G M) (hf : fetchRight P st = some sa)
    (h : NoMeasurePassed P it1 st.s.it1 ∧ NoMeasurePassed P it2 st.s.it2) :
    NoMeasurePassed P it1 sa.s.it1 ∧ NoMeasurePassed P it2 sa.s.it2 := by
  rcases fetchRight_spec P st with ⟨hc, hs⟩ | ⟨hc, hs, _⟩ | ⟨hc, g, rest, hit, hm, hs⟩
  · rw [hs] at hf
    injection hf with hf
    subst hf
    exact h
  · rw [hs] at hf
    cases hf
  · rw [hs] at hf
    injection hf with hf
    subst hf
    refine ⟨h.1, ?_⟩
    have h2 := h.2
    rw [hit] at h2
    exact noMeasurePassed_step P it2 g rest h2 hm

theorem noMeasure_lookaheadIter {G M : Type} (P : Package G M) (it1 it2 : List G)
    (st : Lookahead G M)
    (h : NoMeasurePassed P it1 st.s.it1 ∧ NoMeasurePassed P it2 st.s.it2) :
    NoMeasurePassed P it1 (lookaheadIter P st).1.s.it1 ∧
      NoMeasurePassed P it2 (lookaheadIter P st).1.s.it2 := by
  unfold lookaheadIter
  cases h1 : fetchLeft P st with
  | none => exact h
  | some sa =>
    have ha := noMeasure_fetchLeft P it1 it2 st sa h1 h
    dsimp only
    cases h2 : fetchRight P sa with
    | none => exact ha
    | some sb =>
      have hb := noMeasure_fetchRight P it1 it2 sa sb h2 ha
      obtain ⟨c1, c2, _⟩ := commit_spec P sb
      dsimp only
      rw [c1, c2]
      exact hb

theorem noMeasure_lookaheadLoop {G M : Type} (P : Package G M) (it1 it2 : List G)
    (fuel : Nat) (st : Lookahead G M)
    (h : NoMeasurePassed P it1 st.s.it1 ∧ NoMeasurePassed P it2 st.s.it2) :
    NoMeasurePassed P it1 (lookaheadLoop P fuel st).s.it1 ∧
      NoMeasurePassed P it2 (lookaheadLoop P fuel st).s.it2 := by
  induction fuel generalizing st with
  | zero => simpa [lookaheadLoop] using h
  | succ fuel ih =>
    unfold lookaheadLoop
    split
    · split
      · exact noMeasure_lookaheadIter P it1 it2 st h
      · exact ih _ (noMeasure_lookaheadIter P it1 it2 st h)
    · exact h

theorem flush_cursors {G M : Type} (P : Package G M) (st : Lookahead G M) :
    (flushRight P (flushLeft P st)).s.it1 = st.s.it1 ∧
      (flushRight P (flushLeft P st)).s.it2 = st.s.it2 := by
  unfold flushRight flushLeft
  by_cases h1 : st.cachedLeft = true <;> by_cases h2 : st.cachedRight = true <;>
    simp [h1, h2]

/-- An iteration of the lookahead loop breaks exactly when a side without a cached operand
has a Measure under its cursor. -/
theorem lookaheadIter_break_iff {G M : Type} (P : Package G M) (st : Lookahead G M)
    (hb : bothPending st.s = true) :
    (lookaheadIter P st).2 = true ↔
      (st.cachedLeft = false ∧ upcomingMeasure P st.s.it1 = true) ∨
      (st.cachedRight = false ∧ upcomingMeasure P st.s.it2 = true) := by
  obtain ⟨hl1, hl2⟩ := (bothPending_iff st.s).1 hb
  have hne1 : st.s.it1 ≠ [] := by
    intro h
    rw [h] at hl1
    simp at hl1
  have hne2 : st.s.it2 ≠ [] := by
    intro h
    rw [h] at hl2
    simp at hl2
  unfold lookaheadIter
  rcases fetchLeft_spec P st with ⟨hc, hs⟩ | ⟨hc, hs, hm⟩ | ⟨hc, g, rest, hit, hm, hs⟩
  · rw [hs]
    dsimp only
    rcases fetchRight_spec P st with ⟨hc2, hs2⟩ | ⟨hc2, hs2, hm2⟩ | ⟨hc2, g2, r2, hit2, hm2, hs2⟩
    · rw [hs2]
      simp [hc, hc2]
    · rw [hs2]
      rcases hm2 with hm2 | hm2
      · exact absurd hm2 hne2
      · simp [hc, hc2, hm2]
    · rw [hs2]
      simp [hc, hc2, hit2, upcomingMeasure, hm2]
  · rw [hs]
    rcases hm with hm | hm
    · exact absurd hm hne1
    · simp [hc, hm]
  · rw [hs]
    dsimp only
    have hm1 : upcomingMeasure P st.s.it1 = false := by
      simp [hit, upcomingMeasure, hm]
    rcases fetchRight_spec P
      { st with
        s := { st.s with it1 := rest, perm1 := (P.getDD g st.s.perm1).2 }
        left := (P.getDD g st.s.perm1).1
        cachedLeft := true } with ⟨hc2, hs2⟩ | ⟨hc2, hs2, hm2⟩ | ⟨hc2, g2, r2, hit2, hm2, hs2⟩
    · rw [hs2]
      have hc3 : st.cachedRight = true := hc2
      simp [hm1, hc3]
    · rw [hs2]
      have hc3 : st.cachedRight = false := hc2
      rcases hm2 with hm2 | hm2
      · exact absurd hm2 hne2
      · have hm3 : upcomingMeasure P st.s.it2 = true := hm2
        simp [hm1, hc3, hm3]
    · rw [hs2]
      have hit3 : st.s.it2 = g2 :: r2 := hit2
      have hm3 : upcomingMeasure P st.s.it2 = false := by
        simp [hit3, upcomingMeasure, hm2]
      simp [hm1, hm3]

theorem naiveLoop_cursors {G M : Type} (P : Package G M) (fuel : Nat) (s : Sched G M) :
    (naiveLoop P fuel s).it1 = s.it1.drop (min fuel (min s.it1.length s.it2.length)) ∧
    (naiveLoop P fuel s).it2 = s.it2.drop (min fuel (min s.it1.length s.it2.length)) := by
  induction fuel generalizing s with
  | zero => simp [naiveLoop]
  | succ fuel ih =>
    unfold naiveLoop
    cases hbp : bothPending s with
    | false =>
      have hz : min s.it1.length s.it2.length = 0 := by
        unfold bothPending at hbp
        cases h1 : s.it1 <;> cases h2 : s.it2 <;> simp [h1, h2] at hbp ⊢
      simp [hz]
    | true =>
      obtain ⟨l1, l2⟩ := (bothPending_iff s).1 hbp
      simp only [if_true]
      obtain ⟨i1, i2⟩ := ih (stepRight P (stepLeft P s))
      have e1 : (stepRight P (stepLeft P s)).it1 = s.it1.drop 1 := by
        rw [stepRight_it1, stepLeft_it1, List.drop_one]
      have e2 : (stepRight P (stepLeft P s)).it2 = s.it2.drop 1 := by
        rw [stepRight_it2, stepLeft_it2, List.drop_one]
      rw [i1, i2, e1, e2]
      simp only [List.drop_drop, List.length_drop]
      constructor <;>
      · congr 1
        omega

/-- C12, as stated, fails: the naive strategy on the example checker, whose third gate on
either side is a Measure, leaves the left cursor exhausted, so the cursor has been advanced
past the Measure. -/
theorem naive_passes_measure :
    (checkNaive affPackage (startSched affPackage affChecker)).it1 = [] ∧
    (∃ g ∈ (startSched affPackage affChecker : Sched AffGate (Int × Int)).it1,
      affPackage.getType g = OpType.Measure) ∧
    ¬ NoMeasurePassed affPackage
      (startSched affPackage affChecker : Sched AffGate (Int × Int)).it1
      (checkNaive affPackage (startSched affPackage affChecker)).it1 := by
  have he : (checkNaive affPackage (startSched affPackage affChecker)).it1 = [] := by decide
  have hm : (⟨true, 0, true⟩ : AffGate) ∈
      (startSched affPackage affChecker : Sched AffGate (Int × Int)).it1 := by decide
  have ht : affPackage.getType ⟨true, 0, true⟩ = OpType.Measure := by decide
  refine ⟨he, ⟨_, hm, ht⟩, ?_⟩
  rintro ⟨passed, hp, hall⟩
  rw [he, List.append_nil] at hp
  rw [← hp] at hall
  exact hall _ hm ht

/-- C12, amended. `checkLookahead` never advances a cursor past a Measure: the gates it
has passed on either side contain none.  An iteration of its loop breaks exactly when a
side without a cached operand has a Measure under its cursor, and the loop ends with a
cursor exhausted or in such a state.  `checkNaive` and `checkProportional` do not look at
gate types: the naive loop advances both cursors by the length of the shorter range, and
the proportional loop runs until a cursor is exhausted. -/
theorem measure_and_cursors {G M : Type} (P : Package G M) (c : EquivalenceChecker G)
    (s : Sched G M) :
    NoMeasurePassed P s.it1 (checkLookahead P s).it1 ∧
    NoMeasurePassed P s.it2 (checkLookahead P s).it2 ∧
    (∀ st : Lookahead G M, bothPending st.s = true →
      ((lookaheadIter P st).2 = true ↔
        (st.cachedLeft = false ∧ upcomingMeasure P st.s.it1 = true) ∨
        (st.cachedRight = false ∧ upcomingMeasure P st.s.it2 = true))) ∧
    (bothPending (lookaheadExit P s).s = false ∨
      ((lookaheadExit P s).cachedLeft = false ∧
        upcomingMeasure P (lookaheadExit P s).s.it1 = true) ∨
      ((lookaheadExit P s).cachedRight = false ∧
        upcomingMeasure P (lookaheadExit P s).s.it2 = true)) ∧
    (checkNaive P s).it1 = s.it1.drop (min s.it1.length s.it2.length) ∧
    (checkNaive P s).it2 = s.it2.drop (min s.it1.length s.it2.length) ∧
    bothPending (checkProportional P c s) = false := by
  have hloop := noMeasure_lookaheadLoop P s.it1 s.it2 (s.it1.length + s.it2.length)
    (lookaheadInit P s) ⟨noMeasurePassed_refl P _, noMeasurePassed_refl P _⟩
  obtain ⟨f1, f2⟩ := flush_cursors P (lookaheadExit P s)
  have hrun : checkLookahead P s = (flushRight P (flushLeft P (lookaheadExit P s))).s := rfl
  obtain ⟨n1, n2⟩ := naiveLoop_cursors P s.it1.length s
  have hmin : min s.it1.length (min s.it1.length s.it2.length) =
      min s.it1.length s.it2.length := by omega
  rw [hmin] at n1 n2
  refine ⟨?_, ?_, fun st hb => lookaheadIter_break_iff P st hb, ?_, n1, n2, ?_⟩
  · rw [hrun, f1]
    exact hloop.1
  · rw [hrun, f2]
    exact hloop.2
  · cases hb : bothPending (lookaheadExit P s).s with
    | false => exact Or.inl rfl
    | true =>
      right
      rcases lookaheadLoop_exit P (s.it1.length + s.it2.length) (lookaheadInit P s)
        (by simp [unfolded, lookaheadInit, pendL, pendR]) with h | h
      · have hb2 : bothPending (lookaheadExit P s).s = false := h
        rw [hb] at hb2
        cases hb2
      · exact (lookaheadIter_break_iff P (lookaheadExit P s) hb).1 h
  · exact proportionalLoop_exit P _ _ (ratio_one _ _) _ s (le_refl _)

/-! ## Proportional against naive -/

theorem proportionalLoop_one {G M : Type} (P : Package G M) (fuel : Nat) (s : Sched G M) :
    proportionalLoop P 1 1 fuel s = naiveLoop P fuel s := by
  induction fuel generalizing s with
  | zero => rfl
  | succ fuel ih =>
    unfold proportionalLoop naiveLoop
    cases hbp : bothPending s with
    | false => simp
    | true =>
      simp only [if_true]
      have hround : proportionalRound P 1 1 s = stepRight P (stepLeft P s) := by
        unfold bothPending at hbp
        have h1 : (!s.it1.isEmpty) = true := by
          cases h : s.it1.isEmpty <;> simp [h] at hbp ⊢
        have h2 : (!(stepLeft P s).it2.isEmpty) = true := by
          rw [stepLeft_it2]
          cases h : s.it2.isEmpty <;> simp [h] at hbp ⊢
        simp [proportionalRound, forLeft, forRight, h1, h2]
      rw [hround]
      exact ih _

theorem toDouble_pos (n : Nat) (h : 1 ≤ n) : 1 ≤ toDouble n := by
  unfold toDouble
  split_ifs with hs
  · exact h
  · have hn : n ≠ 0 := by omega
    have hd : 0 < 2 ^ (Nat.log2 n - 52) := pow_pos (by norm_num) _
    have hle : 2 ^ (Nat.log2 n - 52) ≤ n :=
      le_trans (Nat.pow_le_pow_right (by norm_num) (Nat.sub_le _ _)) (Nat.log2_self_le hn)
    have hq : 1 ≤ n / 2 ^ (Nat.log2 n - 52) := (Nat.one_le_div_iff hd).2 hle
    have hr := roundTiesEven_ge n (2 ^ (Nat.log2 n - 52))
    exact Nat.mul_pos (by omega) hd

/-- Equal non-zero counts give the ratio 1, whatever their size. -/
theorem gateRatio_self (n : Nat) (h : 1 ≤ n) : gateRatio n n = 1 := by
  have ha := toDouble_pos n h
  have hl : Nat.log2 1 = 0 := log2_eq 1 0 (by decide) (by decide)
  unfold gateRatio
  rw [max_self, min_self, if_neg (by omega)]
  generalize toDouble n = a at ha
  unfold divDouble
  rw [Nat.div_self (by omega), hl, if_pos (by decide)]
  have hr : roundTiesEven (a * 2 ^ (52 - 0)) a = 2 ^ (52 - 0) := by
    rw [roundTiesEven_down _ _ (by rw [Nat.mul_mod_right]; omega)]
    exact Nat.mul_div_cancel_left _ (by omega)
  rw [hr]
  decide

/-- A run of `checkNaive` from a state with gates on both sides begins with a LEFT and a
RIGHT application. -/
theorem naive_first_fold {G M : Type} (P : Package G M) (s : Sched G M)
    (hb : bothPending s = true) :
    ∃ ev, (checkNaive P s).folded.map Prod.fst =
      s.folded.map Prod.fst ++ [Direction.LEFT, Direction.RIGHT] ++ ev := by
  obtain ⟨ev, hev, _⟩ := adv_checkNaive P (stepRight P (stepLeft P s))
  have hl := (bothPending_iff s).1 hb
  obtain ⟨g1, r1, hg1⟩ : ∃ g r, s.it1 = g :: r := by
    cases hs : s.it1 with
    | nil => rw [hs] at hl; simp at hl
    | cons g r => exact ⟨g, r, rfl⟩
  obtain ⟨g2, r2, hg2⟩ : ∃ g r, s.it2 = g :: r := by
    cases hs : s.it2 with
    | nil => rw [hs] at hl; simp at hl
    | cons g r => exact ⟨g, r, rfl⟩
  have h2 : (stepLeft P s).it2 = g2 :: r2 := by rw [stepLeft_it2, hg2]
  refine ⟨ev.map Prod.fst, ?_⟩
  rw [checkNaive_unfold, if_pos hb, hev, stepRight_cons P _ g2 r2 h2,
    stepLeft_cons P s g1 r1 hg1]
  simp

/-- A run of `checkProportional` whose left budget is 2, from a state with two gates on
the left and one on the right, begins with two LEFT applications. -/
theorem proportional_first_fold {G M : Type} (P : Package G M) (c : EquivalenceChecker G)
    (s : Sched G M) (hr : ratio1 c.qc1.getNops c.qc2.getNops = 2)
    (h1 : 2 ≤ s.it1.length) (h2 : 1 ≤ s.it2.length) :
    ∃ ev, (checkProportional P c s).folded.map Prod.fst =
      s.folded.map Prod.fst ++ [Direction.LEFT, Direction.LEFT] ++ ev := by
  have hb : bothPending s = true := (bothPending_iff s).2 ⟨by omega, h2⟩
  obtain ⟨ev, hev, _⟩ := adv_checkProportional P c
    (proportionalRound P (ratio1 c.qc1.getNops c.qc2.getNops)
      (ratio2 c.qc1.getNops c.qc2.getNops) s)
  obtain ⟨_, _, hf, _⟩ := proportionalRound_eq P (ratio1 c.qc1.getNops c.qc2.getNops)
    (ratio2 c.qc1.getNops c.qc2.getNops) s
  have hs := roundRecord_sides P (ratio1 c.qc1.getNops c.qc2.getNops)
    (ratio2 c.qc1.getNops c.qc2.getNops) s
  refine ⟨List.replicate (min (ratio2 c.qc1.getNops c.qc2.getNops) s.it2.length)
    Direction.RIGHT ++ ev.map Prod.fst, ?_⟩
  rw [checkProportional_unfold, if_pos hb, hev, hf, List.map_append, List.map_append, hs,
    hr, show min 2 s.it1.length = 2 from by omega]
  simp [List.replicate]

/-- C16, as stated, fails: for circuits of `3 * 2 ^ 51 + 1` and `2 ^ 52 + 1` gates
`round(max / min)` is 1, but the code's ratio is 2 and `checkProportional` begins with two
LEFT applications, while `checkNaive` begins with a LEFT and a RIGHT one. -/
theorem big_counts_differ :
    round ((max bigChecker.qc1.getNops bigChecker.qc2.getNops : ℚ) /
      (min bigChecker.qc1.getNops bigChecker.qc2.getNops : ℚ)) = 1 ∧
    (startSched affPackage bigChecker : Sched AffGate (Int × Int)).it1.length =
      bigChecker.qc1.getNops ∧
    (startSched affPackage bigChecker : Sched AffGate (Int × Int)).it2.length =
      bigChecker.qc2.getNops ∧
    (∃ ev, (checkProportional affPackage bigChecker
        (startSched affPackage bigChecker)).folded.map Prod.fst =
      [Direction.LEFT, Direction.LEFT] ++ ev) ∧
    (∃ ev, (checkNaive affPackage (startSched affPackage bigChecker)).folded.map Prod.fst =
      [Direction.LEFT, Direction.RIGHT] ++ ev) ∧
    checkProportional affPackage bigChecker (startSched affPackage bigChecker) ≠
      checkNaive affPackage (startSched affPackage bigChecker) := by
  have hlt : bigLeft > bigRight := by decide
  have hr1 : ratio1 bigChecker.qc1.getNops bigChecker.qc2.getNops = 2 := by
    show ratio1 bigLeft bigRight = 2
    rw [ratio1, if_pos hlt, gateRatio_big]
  have hl1 : (startSched affPackage bigChecker : Sched AffGate (Int × Int)).it1.length =
      bigLeft := List.length_replicate _ _
  have hl2 : (startSched affPackage bigChecker : Sched AffGate (Int × Int)).it2.length =
      bigRight := List.length_replicate _ _
  have b1 : 2 ≤ bigLeft := by decide
  have b2 : 1 ≤ bigRight := by decide
  have hp := proportional_first_fold affPackage bigChecker (startSched affPackage bigChecker)
    hr1 (by rw [hl1]; exact b1) (by rw [hl2]; exact b2)
  have hn := naive_first_fold affPackage (startSched affPackage bigChecker)
    ((bothPending_iff _).2 ⟨by rw [hl1]; omega, by rw [hl2]; exact b2⟩)
  have hf0 : (startSched affPackage bigChecker : Sched AffGate (Int × Int)).folded = [] := rfl
  rw [hf0] at hp hn
  simp only [List.map_nil, List.nil_append] at hp hn
  refine ⟨?_, hl1, hl2, hp, hn, ?_⟩
  · show round ((max bigLeft bigRight : ℚ) / (min bigLeft bigRight : ℚ)) = 1
    rw [← exactRatio_round bigLeft bigRight (by decide) (by decide)]
    have : (2 * max bigLeft bigRight + min bigLeft bigRight) / (2 * min bigLeft bigRight) = 1 := by
      decide
    rw [this]
    rfl
  · intro he
    obtain ⟨e1, h1⟩ := hp
    obtain ⟨e2, h2⟩ := hn
    rw [he, h2] at h1
    simp at h1

/-- C16, amended. When the ratio that `checkProportional` computes is 1, it leaves the
very state that `checkNaive` leaves: the same record of LEFT and RIGHT applications in the
same order, the same cursor positions, the same result and permutations.  The computed
ratio is 1 whenever `round(max/min) = 1` for gate counts from one to below `2 ^ 52`, and
whenever both counts are equal and not zero. -/
theorem proportional_eq_naive {G M : Type} (P : Package G M) (c : EquivalenceChecker G)
    (s : Sched G M) (h1 : 1 ≤ c.qc1.getNops) (h2 : 1 ≤ c.qc2.getNops) :
    (gateRatio c.qc1.getNops c.qc2.getNops = 1 →
      checkProportional P c s = checkNaive P s ∧
      (checkProportional P c s).folded = (checkNaive P s).folded ∧
      (checkProportional P c s).it1 = (checkNaive P s).it1 ∧
      (checkProportional P c s).it2 = (checkNaive P s).it2) ∧
    (max c.qc1.getNops c.qc2.getNops < 2 ^ 52 →
      round ((max c.qc1.getNops c.qc2.getNops : ℚ) / (min c.qc1.getNops c.qc2.getNops : ℚ)) =
        1 →
      gateRatio c.qc1.getNops c.qc2.getNops = 1) ∧
    (c.qc1.getNops = c.qc2.getNops → gateRatio c.qc1.getNops c.qc2.getNops = 1) := by
  refine ⟨?_, ?_, ?_⟩
  · intro hg
    have hr1 : ratio1 c.qc1.getNops c.qc2.getNops = 1 := by
      unfold ratio1
      split <;> simp [hg]
    have hr2 : ratio2 c.qc1.getNops c.qc2.getNops = 1 := by
      unfold ratio2
      split <;> simp [hg]
    have heq : checkProportional P c s = checkNaive P s := by
      unfold checkProportional checkNaive
      rw [hr1, hr2, proportionalLoop_one]
      exact naiveLoop_fuel P _ _ s (by omega) (le_refl _)
    exact ⟨heq, by rw [heq], by rw [heq], by rw [heq]⟩
  · intro hmax hr
    have he := exactRatio_round c.qc1.getNops c.qc2.getNops h1 h2
    rw [hr] at he
    have he1 : (2 * max c.qc1.getNops c.qc2.getNops + min c.qc1.getNops c.qc2.getNops) /
        (2 * min c.qc1.getNops c.qc2.getNops) = 1 := by exact_mod_cast he
    rw [gateRatio_exact _ _ h1 h2 hmax (by rw [he1]; decide), he1]
  · intro he
    rw [← he]
    exact gateRatio_self _ h1

/-- C16 amended, at the example checker, whose circuits have three gates each. -/
theorem proportional_eq_naive_witness :
    checkProportional affPackage affChecker (startSched affPackage affChecker) =
      checkNaive affPackage (startSched affPackage affChecker) :=
  ((proportional_eq_naive affPackage affChecker (startSched affPackage affChecker)
      (by decide) (by decide)).1
    ((proportional_eq_naive affPackage affChecker (startSched affPackage affChecker)
      (by decide) (by decide)).2.2 rfl)).1

/-! ## The reference-count calls of checkLookahead -/

theorem reach_terminal (h : Heap) (q : Ptr) : ¬ Reach h Ptr.terminal q := by
  intro hr
  cases hr

theorem reach_null (h : Heap) (q : Ptr) : ¬ Reach h Ptr.null q := by
  intro hr
  cases hr

/-- On an ordered memory a node reaches table nodes at its own address or below. -/
theorem reach_le (h : Heap) (hord : ordered h) (p q : Ptr) (hr : Reach h p q) :
    ∃ a b, p = Ptr.addr a ∧ q = Ptr.addr b ∧ b ≤ a := by
  induction hr with
  | self a => exact ⟨a, a, rfl, rfl, le_refl _⟩
  | viaE0 a node q hn _ ih =>
    obtain ⟨c, b, hc, hq, hle⟩ := ih
    obtain ⟨o0, _⟩ := ordered_get h hord a node hn
    rw [hc] at o0
    have hlt : c < a := by simpa [diagOK] using o0
    exact ⟨a, b, rfl, hq, by omega⟩
  | viaE3 a node q hn _ ih =>
    obtain ⟨c, b, hc, hq, hle⟩ := ih
    obtain ⟨_, o3⟩ := ordered_get h hord a node hn
    rw [hc] at o3
    have hlt : c < a := by simpa [diagOK] using o3
    exact ⟨a, b, rfl, hq, by omega⟩

/-- What a table node reaches: itself and what its two diagonal successors reach. -/
theorem reach_node (h : Heap) (a : Nat) (node : MNode) (hn : h.nodes[a]? = some node)
    (q : Ptr) :
    Reach h (Ptr.addr a) q ↔
      q = Ptr.addr a ∨ Reach h node.e0.p q ∨ Reach h node.e3.p q := by
  constructor
  · intro hr
    cases hr with
    | self => exact Or.inl rfl
    | viaE0 _ node2 _ hn2 hr2 =>
      rw [hn] at hn2
      injection hn2 with hn2
      subst hn2
      exact Or.inr (Or.inl hr2)
    | viaE3 _ node2 _ hn2 hr2 =>
      rw [hn] at hn2
      injection hn2 with hn2
      subst hn2
      exact Or.inr (Or.inr hr2)
  · rintro (rfl | hr | hr)
    · exact Reach.self a
    · exact Reach.viaE0 a node q hn hr
    · exact Reach.viaE3 a node q hn hr

/-- A diagonal successor in order reaches only addresses below the node. -/
theorem reach_below (h : Heap) (hord : ordered h) (p : Ptr) (a : Nat)
    (hp : diagOK p a = true) (q : Ptr) (hr : Reach h p q) : q ≠ Ptr.addr a := by
  obtain ⟨c, b, hc, hq, hle⟩ := reach_le h hord p q hr
  rw [hc] at hp
  have hlt : c < a := by simpa [diagOK] using hp
  rw [hq]
  intro he
  injection he with he
  omega

theorem tableFind_assign_isSome (t : NodeTable) (p q : Ptr) (v : FP2) :
    (tableFind (tableAssign t p v) q).isSome = true ↔
      q = p ∨ (tableFind t q).isSome = true := by
  by_cases hq : q = p
  · subst hq
    simp [tableFind_assign_self]
  · rw [tableFind_assign_ne t p q v hq]
    simp [hq]

theorem tableFind_isSome_mem (t : NodeTable) (q : Ptr) :
    (tableFind t q).isSome = true ↔ q ∈ t.map Prod.fst := by
  induction t with
  | nil => simp [tableFind]
  | cons kv rest ih =>
    unfold tableFind
    by_cases hk : kv.1 = q
    · simp [hk]
    · have hk2 : ¬ q = kv.1 := fun e => hk e.symm
      simp only [hk, if_false, ih, List.map_cons, List.mem_cons, hk2, false_or]

theorem tableAssign_nodup (t : NodeTable) (p : Ptr) (v : FP2)
    (h : (t.map Prod.fst).Nodup) : ((tableAssign t p v).map Prod.fst).Nodup := by
  unfold tableAssign
  rw [List.map_cons, List.nodup_cons]
  constructor
  · intro hm
    obtain ⟨kv, hkv, hfst⟩ := List.mem_map.1 hm
    have := (List.mem_filter.1 hkv).2
    simp [hfst] at this
  · exact (List.filter_sublist _).map Prod.fst |>.nodup h

theorem tableOK_nil (h : Heap) : TableOK h [] :=
  ⟨tableGood_nil h, by intro p q hp; simp [tableFind] at hp, by simp⟩

/-! ### Leaving the record out gives traceRecur -/

theorem visitChildLog_erase
    (recLog : Ptr → NodeTable × List Ptr → Option (FP2 × (NodeTable × List Ptr)))
    (rec : Ptr → NodeTable → Option (FP2 × NodeTable))
    (hrec : ∀ p tl, (recLog p tl).map (fun r => (r.1, r.2.1)) = rec p tl.1)
    (p : Ptr) (tl : NodeTable × List Ptr) :
    (visitChildLog recLog p tl).map Prod.fst = visitChild rec p tl.1 := by
  unfold visitChildLog visitChild
  by_cases hc : (!isTerminal p && (tableFind tl.1 p).isNone) = true
  · simp only [hc, if_true]
    rw [← hrec p tl]
    cases recLog p tl <;> rfl
  · simp only [hc, if_false, Bool.false_eq_true]
    rfl

theorem traceRecurLog_erase (h : Heap) (fuel : Nat) :
    ∀ (cur : Ptr) (tl : NodeTable × List Ptr),
      (traceRecurLog h fuel cur tl).map (fun r => (r.1, r.2.1)) =
        traceRecur h fuel cur tl.1 := by
  induction fuel with
  | zero =>
    intro cur tl
    rfl
  | succ fuel ih =>
    intro cur tl
    unfold traceRecurLog traceRecur
    cases hd : deref h cur with
    | none => rfl
    | some node =>
      dsimp only
      have e1 := visitChildLog_erase (traceRecurLog h fuel) (traceRecur h fuel) ih
        node.e0.p (tl.1, tl.2 ++ [cur])
      cases h1 : visitChildLog (traceRecurLog h fuel) node.e0.p (tl.1, tl.2 ++ [cur]) with
      | none =>
        rw [h1] at e1
        rw [← e1]
        rfl
      | some tl1 =>
        rw [h1] at e1
        rw [← e1]
        dsimp only [Option.map_some']
        have e2 := visitChildLog_erase (traceRecurLog h fuel) (traceRecur h fuel) ih
          node.e3.p tl1
        cases h2 : visitChildLog (traceRecurLog h fuel) node.e3.p tl1 with
        | none =>
          rw [h2] at e2
          rw [← e2]
          rfl
        | some tl2 =>
          rw [h2] at e2
          rw [← e2]
          dsimp only [Option.map_some']
          cases childValue node.e0.p tl2.1 <;> cases childValue node.e3.p tl2.1 <;> rfl

/-! ### Each reachable node is evaluated once -/

theorem isSome_of_eq_none_false {α : Type} (o : Option α) :
    o = none ↔ ¬ o.isSome = true := by
  cases o <;> simp

theorem visitChildLog_spec (h : Heap) (k a : Nat)
    (ih : ∀ b, b < a → ∀ t log, TableOK h t → tableFind t (Ptr.addr b) = none →
      ∃ t2 new, traceRecurLog h k (Ptr.addr b) (t, log) =
          some (traceOf h (Ptr.addr b), (t2, log ++ new)) ∧
        Extends h (Ptr.addr b) t t2 new ∧
        tableFind t2 (Ptr.addr b) = some (traceOf h (Ptr.addr b)))
    (p : Ptr) (hp : diagOK p a = true) (t : NodeTable) (log : List Ptr)
    (ht : TableOK h t) :
    ∃ t1 new, visitChildLog (traceRecurLog h k) p (t, log) = some (t1, log ++ new) ∧
      Extends h p t t1 new ∧ childValue p t1 = some (traceOf h p) := by
  cases p with
  | null => simp [diagOK] at hp
  | terminal =>
    refine ⟨t, [], by simp [visitChildLog, isTerminal], ⟨ht, ?_, List.nodup_nil, ?_⟩, by
      simp [childValue, isTerminal, traceOf_terminal]⟩
    · intro q
      simp [reach_terminal]
    · intro q
      simp [reach_terminal]
  | addr b =>
    have hb : b < a := by simpa [diagOK] using hp
    cases hf : tableFind t (Ptr.addr b) with
    | none =>
      obtain ⟨t2, new, hrun, hext, hfind⟩ := ih b hb t log ht hf
      refine ⟨t2, new, ?_, hext, ?_⟩
      · simp [visitChildLog, isTerminal, hf, hrun]
      · simpa [childValue, isTerminal] using hfind
    | some v =>
      have hin : ∀ q, Reach h (Ptr.addr b) q → (tableFind t q).isSome = true :=
        fun q hr => ht.2.1 (Ptr.addr b) q (by rw [hf]; rfl) hr
      refine ⟨t, [], ?_, ⟨ht, ?_, List.nodup_nil, ?_⟩, ?_⟩
      · simp [visitChildLog, isTerminal, hf]
      · intro q
        constructor
        · exact fun hq => Or.inl hq
        · rintro (hq | hr)
          · exact hq
          · exact hin q hr
      · intro q
        constructor
        · intro hq
          cases hq
        · rintro ⟨hr, hn⟩
          have := hin q hr
          rw [hn] at this
          cases this
      · simp [childValue, isTerminal, hf, ht.1 _ _ hf]

/-- The recorded traversal from a table node that the table does not hold: it returns the
weighted trace, evaluates exactly the reachable nodes the table did not hold, each once,
and leaves a table holding the old nodes and the reachable ones. -/
theorem traceRecurLog_spec (h : Heap) (hord : ordered h) (a : Nat) :
    ∀ fuel, a < fuel → a < h.nodes.length → ∀ t log, TableOK h t →
      tableFind t (Ptr.addr a) = none →
      ∃ t2 new, traceRecurLog h fuel (Ptr.addr a) (t, log) =
          some (traceOf h (Ptr.addr a), (t2, log ++ new)) ∧
        Extends h (Ptr.addr a) t t2 new ∧
        tableFind t2 (Ptr.addr a) = some (traceOf h (Ptr.addr a)) := by
  induction a using Nat.strong_induction_on with
  | _ a ih =>
    intro fuel hfuel hlt t log ht hfa
    obtain ⟨k, rfl⟩ : ∃ k, fuel = k + 1 := ⟨fuel - 1, by omega⟩
    have hn : h.nodes[a]? = some (h.nodes.get ⟨a, hlt⟩) := List.getElem?_eq_getElem hlt
    generalize h.nodes.get ⟨a, hlt⟩ = node at hn
    obtain ⟨o0, o3⟩ := ordered_get h hord a node hn
    have ihk : ∀ b, b < a → ∀ t log, TableOK h t → tableFind t (Ptr.addr b) = none →
        ∃ t2 new, traceRecurLog h k (Ptr.addr b) (t, log) =
            some (traceOf h (Ptr.addr b), (t2, log ++ new)) ∧
          Extends h (Ptr.addr b) t t2 new ∧
          tableFind t2 (Ptr.addr b) = some (traceOf h (Ptr.addr b)) :=
      fun b hb t log ht hf => ih b hb k (by omega) (by omega) t log ht hf
    obtain ⟨t1, new1, hv1, ⟨hok1, hk1, hnd1, hmem1⟩, hc1⟩ :=
      visitChildLog_spec h k a ihk node.e0.p o0 t (log ++ [Ptr.addr a]) ht
    obtain ⟨t2, new2, hv2, ⟨hok2, hk2, hnd2, hmem2⟩, hc2⟩ :=
      visitChildLog_spec h k a ihk node.e3.p o3 t1 ((log ++ [Ptr.addr a]) ++ new1) hok1
    have hm2 : ∀ q, (tableFind t1 q).isSome = true → (tableFind t2 q).isSome = true :=
      fun q hq => (hk2 q).2 (Or.inl hq)
    have hc0 := childValue_mono h node.e0.p t1 t2 hok2.1 hm2 hc1
    have hreach := reach_node h a node hn
    have hkeys : ∀ q, (tableFind t2 q).isSome = true ↔
        (tableFind t q).isSome = true ∨ Reach h node.e0.p q ∨ Reach h node.e3.p q := by
      intro q
      rw [hk2 q, hk1 q]
      tauto
    have ha2 : tableFind t2 (Ptr.addr a) = none := by
      rw [isSome_of_eq_none_false, hkeys]
      rintro (hq | hq | hq)
      · rw [hfa] at hq
        cases hq
      · exact reach_below h hord node.e0.p a o0 _ hq rfl
      · exact reach_below h hord node.e3.p a o3 _ hq rfl
    refine ⟨tableAssign t2 (Ptr.addr a) (traceOf h (Ptr.addr a)),
      [Ptr.addr a] ++ new1 ++ new2, ?_, ⟨⟨?_, ?_, ?_⟩, ?_, ?_, ?_⟩, ?_⟩
    · simp only [traceRecurLog, deref, hn, hv1, hv2, hc0, hc2]
      rw [← traceOf_node h hord a node hn]
      simp [List.append_assoc]
    · intro q v hq
      by_cases hqa : q = Ptr.addr a
      · subst hqa
        rw [tableFind_assign_self] at hq
        exact (Option.some.inj hq).symm
      · rw [tableFind_assign_ne _ _ _ _ hqa] at hq
        exact hok2.1 q v hq
    · intro p q hp hr
      rw [tableFind_assign_isSome] at hp ⊢
      rcases hp with rfl | hp
      · rcases (hreach q).1 hr with hq | hq | hq
        · exact Or.inl hq
        · exact Or.inr ((hkeys q).2 (Or.inr (Or.inl hq)))
        · exact Or.inr ((hkeys q).2 (Or.inr (Or.inr hq)))
      · exact Or.inr (hok2.2.1 p q hp hr)
    · exact tableAssign_nodup _ _ _ hok2.2.2
    · intro q
      rw [tableFind_assign_isSome, hkeys q, hreach q]
      tauto
    · rw [List.append_assoc, List.singleton_append, List.nodup_cons, List.nodup_append]
      refine ⟨?_, hnd1, hnd2, ?_⟩
      · rw [List.mem_append, hmem1, hmem2]
        rintro (⟨hq, _⟩ | ⟨hq, _⟩)
        · exact reach_below h hord node.e0.p a o0 _ hq rfl
        · exact reach_below h hord node.e3.p a o3 _ hq rfl
      · intro q hq1 hq2
        have h1 := (hmem1 q).1 hq1
        have h2 := ((hmem2 q).1 hq2).2
        rw [isSome_of_eq_none_false, hk1 q] at h2
        exact h2 (Or.inr h1.1)
    · intro q
      rw [List.append_assoc, List.singleton_append, List.mem_cons, List.mem_append,
        hmem1, hmem2, hreach q]
      have e1 := isSome_of_eq_none_false (tableFind t1 q)
      have e0 := isSome_of_eq_none_false (tableFind t q)
      have ea := isSome_of_eq_none_false (tableFind t (Ptr.addr a))
      have hk1q := hk1 q
      constructor
      · rintro (rfl | ⟨hr, hq⟩ | ⟨hr, hq⟩)
        · exact ⟨Or.inl rfl, hfa⟩
        · exact ⟨Or.inr (Or.inl hr), hq⟩
        · refine ⟨Or.inr (Or.inr hr), ?_⟩
          rw [e0]
          intro hs
          exact (e1.1 hq) (hk1q.2 (Or.inl hs))
      · rintro ⟨hq | hr | hr, hnone⟩
        · exact Or.inl hq
        · exact Or.inr (Or.inl ⟨hr, hnone⟩)
        · by_cases hs : (tableFind t1 q).isSome = true
          · rcases hk1q.1 hs with hs0 | hr0
            · exact absurd hs0 (e0.1 hnone)
            · exact Or.inr (Or.inl ⟨hr0, hnone⟩)
          · exact Or.inr (Or.inr ⟨hr, e1.2 hs⟩)
    · exact tableFind_assign_self _ _ _

theorem ordered_sharedHeap : ordered sharedHeap := by
  intro a
  fin_cases a <;> decide

/-- C14. Memoised trace traversal: on an acyclic diagram (node memory ordered along the
diagonal edges) rooted at a table node, started with the empty table, `traceRecur` returns
the weighted trace of the root and a table `t`; the record `evals` of the nodes whose body
it ran (one entry per call, and leaving the record out gives `traceRecur` itself) holds
every node reachable through `e[0]` / `e[3]` edges exactly once and no other node,
whatever the sharing; the table holds exactly the reachable nodes, one entry each, and
every entry is the weighted trace of its node. -/
theorem trace_memoised (h : Heap) (hord : ordered h) (a : Nat) (hlt : a < h.nodes.length)
    (fuel : Nat) (hfuel : a < fuel) :
    ∃ t evals,
      traceRecurLog h fuel (Ptr.addr a) ([], []) =
        some (traceOf h (Ptr.addr a), (t, evals)) ∧
      traceRecur h fuel (Ptr.addr a) [] = some (traceOf h (Ptr.addr a), t) ∧
      (∀ q, Reach h (Ptr.addr a) q → evals.count q = 1) ∧
      (∀ q, ¬ Reach h (Ptr.addr a) q → evals.count q = 0) ∧
      (∀ q, (tableFind t q).isSome = true ↔ Reach h (Ptr.addr a) q) ∧
      (t.map Prod.fst).Nodup ∧
      (∀ q v, tableFind t q = some v → v = traceOf h q) := by
  obtain ⟨t, new, hrun, ⟨hok, hkeys, hnd, hmem⟩, _⟩ :=
    traceRecurLog_spec h hord a fuel hfuel hlt [] [] (tableOK_nil h) rfl
  rw [List.nil_append] at hrun
  refine ⟨t, new, hrun, ?_, ?_, ?_, ?_, hok.2.2, hok.1⟩
  · have he := traceRecurLog_erase h fuel (Ptr.addr a) ([], [])
    rw [hrun] at he
    exact he.symm
  · intro q hq
    exact List.count_eq_one_of_mem hnd ((hmem q).2 ⟨hq, rfl⟩)
  · intro q hq
    exact List.count_eq_zero_of_not_mem (fun hm => hq ((hmem q).1 hm).1)
  · intro q
    rw [hkeys q]
    simp [tableFind]

/-- C14, at the example memory with sharing, from its top node. -/
theorem trace_memoised_witness :
    ∃ t evals,
      traceRecurLog sharedHeap 3 (Ptr.addr 2) ([], []) =
        some (traceOf sharedHeap (Ptr.addr 2), (t, evals)) ∧
      traceRecur sharedHeap 3 (Ptr.addr 2) [] = some (traceOf sharedHeap (Ptr.addr 2), t) ∧
      (∀ q, Reach sharedHeap (Ptr.addr 2) q → evals.count q = 1) ∧
      (∀ q, ¬ Reach sharedHeap (Ptr.addr 2) q → evals.count q = 0) ∧
      (∀ q, (tableFind t q).isSome = true ↔ Reach sharedHeap (Ptr.addr 2) q) ∧
      (t.map Prod.fst).Nodup ∧
      (∀ q v, tableFind t q = some v → v = traceOf sharedHeap q) :=
  trace_memoised sharedHeap ordered_sharedHeap 2 (by decide) 3 (by decide)

/-! ## Runs that end in the fault of the fidelity traversal -/

theorem traceRecur_terminal_none (fuel : Nat) :
    traceRecur diagHeap fuel Ptr.terminal [] = none := by
  cases fuel with
  | zero => rfl
  | succ k =>
    simp [traceRecur, deref, diagHeap, emptyHeap, visitChild, isTerminal, tableFind,
      traceRecur_null]

theorem fidelity_leaf_none : fidelity diagPackage 0 (leaf 1) = none := by
  unfold fidelity
  have hp : diagPackage.p (leaf 1) = Ptr.terminal := rfl
  have hh : diagPackage.heap = diagHeap := rfl
  rw [hp, hh, traceRecur_terminal_none]

/-- On zero lines, with the fidelity block enabled, a run that reaches the block with the
scalar diagram ends in the fault. -/
theorem check_leaf_fault (config : Configuration)
    (h : reducedRun diagPackage config (emptyChecker true) = Except.ok (leaf 1)) :
    check diagPackage config (emptyChecker true) = Except.error Failure.fault := by
  unfold check
  rw [h]
  have hb : fidelityBlock diagPackage
      (diagPackage.runPreCheckPasses config (emptyChecker true)) (leaf 1) = none := by
    unfold fidelityBlock
    have hn : (diagPackage.runPreCheckPasses config (emptyChecker true)).nqubits = 0 := rfl
    have hf : (diagPackage.runPreCheckPasses config (emptyChecker true)).isFid = true := rfl
    rw [hn, hf, if_pos rfl, fidelity_leaf_none]
    rfl
  simp only [hb]

/-- C1 (code at the failing input). The empty circuit over zero lines compared with itself,
the fidelity block enabled: the running result is the scalar diagram, whose root edge
points at the terminal node, the traversal of the fidelity block faults on it, and `check`
returns no results under Naive and under Lookahead, so no `equivalence = true`.  With the
fidelity block disabled the same comparison returns `equivalence = true`, and so does the
comparison of the one-gate circuit on an ancillary line with itself, where the final
reductions turn the identity into the goal matrix `[1 0; 0 0]`. -/
theorem reflexive_run_faults :
    Reflexive (emptyChecker true) ∧
    check diagPackage ⟨Strategy.Naive⟩ (emptyChecker true) = Except.error Failure.fault ∧
    check diagPackage ⟨Strategy.Lookahead⟩ (emptyChecker true) =
      Except.error Failure.fault ∧
    Except.map Outcome.core (check diagPackage ⟨Strategy.Naive⟩ (emptyChecker false)) =
      Except.ok (leaf 1, true, none) ∧
    Except.map Outcome.core
        (check diagPackage ⟨Strategy.Naive⟩ { diagChecker true with isFid := false }) =
      Except.ok (⟨Ptr.addr 1, ⟨1, 0⟩⟩, true, none) := by
  refine ⟨⟨rfl, rfl, rfl⟩, check_leaf_fault _ rfl, check_leaf_fault _ rfl, rfl, ?_⟩
  simp [check, reducedRun, schedule, checkNaive, naiveLoop, bothPending, startSched,
    diagChecker, diagPackage, stepLeft, stepRight, applyGate, finishFirst, finishSecond,
    forLeft, forRight, reduceResult, fidelityBlock, createInitialMatrix, initialAncillary,
    markLoop, markLine, castQubit, findLine, diagCircuit, mulWeight, createGoalMatrix,
    equals, Except.map, Outcome.core]

/-- C6 (code at the failing input). Under the supported strategy Lookahead (and under
Naive), the comparison of the empty circuit over zero lines with itself, the fidelity
block enabled, ends in the fault of the traversal and produces no results, although the
strategy is one that `check` dispatches; the strategy of the sibling checker ends in
`std::invalid_argument` on the same input. -/
theorem supported_strategy_faults :
    supported Strategy.Lookahead = true ∧ supported Strategy.Naive = true ∧
    check diagPackage ⟨Strategy.Lookahead⟩ (emptyChecker true) =
      Except.error Failure.fault ∧
    check diagPackage ⟨Strategy.Naive⟩ (emptyChecker true) = Except.error Failure.fault ∧
    (∀ out, check diagPackage ⟨Strategy.Lookahead⟩ (emptyChecker true) ≠ Except.ok out) ∧
    check diagPackage ⟨Strategy.CompilationFlow⟩ (emptyChecker true) =
      Except.error (Failure.invalid_argument Strategy.CompilationFlow) := by
  have hl := check_leaf_fault ⟨Strategy.Lookahead⟩ rfl
  refine ⟨rfl, rfl, hl, check_leaf_fault _ rfl, ?_, rfl⟩
  intro out ho
  rw [hl] at ho
  cases ho

end ec
